import Mathlib

/-!
# The validated data-access layer of the photo-gallery application

A shallow embedding of `models/users.go`, `models/gallery.go`, `models/errors.go`,
`hash/hmac.go` and `rand/strings.go`.

Conventions of the embedding.

* A Go `string` is a Lean `String`; `len(s)` is `s.utf8ByteSize` (Go counts bytes).
* A Go `error` is an `Option Err`, `none` being `nil`.
* A method with a pointer receiver or a pointer argument that it may write to returns the
  value behind the pointer after the call next to its result.
* A store is reached through an interface (`UserDB`, `GalleryDB`); its state is passed
  explicitly (the type parameter `τ`), and `traced` records every call that goes through
  the interface, so that "the store is not called" is a statement about the record.
* What imported packages compute (bcrypt, HMAC-SHA-256, the random source, the Unicode
  case table) is a parameter, collected in `Packages`.
-/

/-- Error values. `modelError` and `privateError` are the two string types of
`models/errors.go`; the remaining constructors are the error values of imported packages
that the code compares against or passes through. -/
inductive Err where
  | modelError (msg : String)
  | privateError (msg : String)
  | ErrRecordNotFound
  | ErrMismatchedHashAndPassword
  | CorruptInputError (offset : Nat)
  | other (msg : String)
  deriving DecidableEq, Repr

/-- What the imported packages compute, as far as the embedded code depends on it.

* `unicodeLower`: `unicode.ToLower` on the runes above ASCII (the case table);
* `unicodeTitle`: `unicode.ToTitle` on the runes above ASCII;
* `unicodeLetterOrDigit`: `unicode.IsLetter(r) || unicode.IsDigit(r)` on the runes above
  ASCII;
* `randRead`: the outcome of one `crypto/rand.Read` on a buffer, either an error or the
  byte written at each index of the buffer;
* `hmacSHA256 key msg`: the HMAC-SHA-256 digest of `msg` under `key` (bytes);
* `bcryptGenerate pwd cost`: the outcome of `bcrypt.GenerateFromPassword` (the salt is
  drawn inside the package);
* `bcryptCompare hash pwd`: the result of `bcrypt.CompareHashAndPassword`. -/
structure Packages where
  unicodeLower : Char → Char
  unicodeTitle : Char → Char
  unicodeLetterOrDigit : Char → Bool
  randRead : Except Err (Nat → Nat)
  hmacSHA256 : List Nat → List Nat → List Nat
  bcryptGenerate : String → Nat → Except Err String
  bcryptCompare : String → String → Option Err

/-- The type `string`, under a name that stays usable next to `rand.String`. -/
abbrev Str := String

/-- The conversion `[]byte(s)`: the UTF-8 bytes of `s`. -/
def stringBytes (s : String) : List Nat :=
  s.data.flatMap fun c => (String.utf8EncodeChar c).map UInt8.toNat

/-! ## `encoding/base64`: `URLEncoding` (the URL alphabet, padded with `=`) -/

namespace base64

/-- The alphabet `encodeURL`. -/
def encodeURL : List Char :=
  "ABCDEFGHIJKLMNOPQRSTUVWXYZabcdefghijklmnopqrstuvwxyz0123456789-_".data

/-- The table `enc.encode`, read at a 6-bit index. -/
def encode (i : Nat) : Char := encodeURL.getD i 'A'

/-- The table `enc.decodeMap`: the 6-bit value of `c`, `none` where Go's table holds
`0xff`. -/
def decodeMap (c : Char) : Option Nat :=
  if encodeURL.indexOf c < 64 then some (encodeURL.indexOf c) else none

/-- The method `Encoding.Encode` of `URLEncoding` on a byte slice: three bytes give four
characters; a remainder of one or two bytes gives two or three characters and padding. -/
def Encode : List Nat → List Char
  | [] => []
  | [b0] =>
    let val := b0 * 2 ^ 16
    [encode (val / 2 ^ 18 % 64), encode (val / 2 ^ 12 % 64), '=', '=']
  | [b0, b1] =>
    let val := b0 * 2 ^ 16 + b1 * 2 ^ 8
    [encode (val / 2 ^ 18 % 64), encode (val / 2 ^ 12 % 64), encode (val / 2 ^ 6 % 64), '=']
  | b0 :: b1 :: b2 :: rest =>
    let val := b0 * 2 ^ 16 + b1 * 2 ^ 8 + b2
    encode (val / 2 ^ 18 % 64) :: encode (val / 2 ^ 12 % 64) :: encode (val / 2 ^ 6 % 64)
      :: encode (val % 64) :: Encode rest

def EncodeToString (src : List Nat) : String := String.mk (Encode src)

/-- The loops `for si < len(src) && (src[si] == '\n' || src[si] == '\r') { si++ }` of
`decodeQuantum`: the rest of the input and the index after them. -/
def skipNewlines : List Char → Nat → List Char × Nat
  | [], si => ([], si)
  | c :: cs, si => if c = '\n' ∨ c = '\r' then skipNewlines cs (si + 1) else (c :: cs, si)

/-- The end of `decodeQuantum`: the 6-bit values `dbuf` (there are `dlen` of them, the
missing ones count as zero) are packed into `dlen - 1` bytes. `URLEncoding` is not
strict, so left-over bits are not checked. -/
def quantumBytes (dbuf : List Nat) : List Nat :=
  let val := dbuf.getD 0 0 * 2 ^ 18 + dbuf.getD 1 0 * 2 ^ 12 + dbuf.getD 2 0 * 2 ^ 6
    + dbuf.getD 3 0
  [val / 2 ^ 16 % 256, val / 2 ^ 8 % 256, val % 256].take (dbuf.length - 1)

/-- The method `Encoding.Decode` of `URLEncoding`, as the loop over `decodeQuantum`:
`si` is the index of the next input character, `dbuf` the 6-bit values read so far in
the current quantum (Go's `j` is its length), `out` the bytes decoded so far. The result
is the decoded bytes with the error. -/
def decodeLoop : List Char → Nat → List Nat → List Nat → List Nat × Option Err
  | [], si, dbuf, out =>
    if dbuf.length = 0 then (out, none)
    else (out, some (Err.CorruptInputError (si - dbuf.length)))
  | c :: cs, si, dbuf, out =>
    match decodeMap c with
    | some v =>
      if dbuf.length = 3 then decodeLoop cs (si + 1) [] (out ++ quantumBytes (dbuf ++ [v]))
      else decodeLoop cs (si + 1) (dbuf ++ [v]) out
    | none =>
      if c = '\n' ∨ c = '\r' then decodeLoop cs (si + 1) dbuf out
      else if c ≠ '=' then (out, some (Err.CorruptInputError si))
      else if dbuf.length < 2 then (out, some (Err.CorruptInputError si))
      else if dbuf.length = 2 then
        match skipNewlines cs (si + 1) with
        | ([], si2) => (out, some (Err.CorruptInputError si2))
        | (c2 :: r2, si2) =>
          if c2 ≠ '=' then (out, some (Err.CorruptInputError (si2 - 1)))
          else
            match skipNewlines r2 (si2 + 1) with
            | ([], _) => (out ++ quantumBytes dbuf, none)
            | (_ :: _, si3) => (out ++ quantumBytes dbuf, some (Err.CorruptInputError si3))
      else
        match skipNewlines cs (si + 1) with
        | ([], _) => (out ++ quantumBytes dbuf, none)
        | (_ :: _, si3) => (out ++ quantumBytes dbuf, some (Err.CorruptInputError si3))

def DecodeString (s : String) : List Nat × Option Err := decodeLoop s.data 0 [] []

end base64

/-! ## `rand/strings.go` -/

def rand.RemberTokenBytes : Nat := 32

/-- The function `rand.Bytes`: a buffer of `n` bytes filled by the random source. The
argument is a natural number: `make([]byte, n)` does not return for a negative `n`. -/
def rand.Bytes (x : Packages) (n : Nat) : Except Err (List Nat) :=
  match x.randRead with
  | Except.error err => Except.error err
  | Except.ok fill => Except.ok ((List.range n).map fun i => fill i % 256)

/-- The function `rand.NBytes`: `(-1, err)` or `(len(b), nil)`. -/
def rand.NBytes (base64String : String) : Int × Option Err :=
  match base64.DecodeString base64String with
  | (_, some err) => (-1, some err)
  | (b, none) => ((b.length : Int), none)

/-- The function `rand.String`: `("", err)` is `Except.error err`. -/
def rand.String (x : Packages) (nBytes : Nat) : Except Err String :=
  match rand.Bytes x nBytes with
  | Except.error err => Except.error err
  | Except.ok b => Except.ok (base64.EncodeToString b)

def rand.RememberToken (x : Packages) : Except Err Str :=
  rand.String x rand.RemberTokenBytes

/-! ## `hash/hmac.go` -/

namespace hash

/-- The struct `HMAC`. Its field is the `hash.Hash` made by `hmac.New(sha256.New, key)`:
the key it was made with and the bytes written to it since the last `Reset`. -/
structure HMAC where
  key : List Nat
  written : List Nat
  deriving DecidableEq, Repr

def NewHMAC (key : String) : HMAC := { key := stringBytes key, written := [] }

/-- The method `Reset` of the underlying hash. -/
def HMAC.Reset (h : HMAC) : HMAC := { h with written := [] }

/-- The method `Write` of the underlying hash. -/
def HMAC.Write (h : HMAC) (p : List Nat) : HMAC := { h with written := h.written ++ p }

/-- The method `Sum(nil)` of the underlying hash: the digest of what was written. -/
def HMAC.Sum (x : Packages) (h : HMAC) : List Nat := x.hmacSHA256 h.key h.written

/-- The method `HMAC.Hash`, with the underlying hash after the call (the struct is
passed by value but the hash inside it is shared). -/
def HMAC.HashState (x : Packages) (h : HMAC) (input : String) : String × HMAC :=
  let h1 := h.Reset
  let h2 := h1.Write (stringBytes input)
  let b := h2.Sum x
  (base64.EncodeToString b, h2)

/-- The method `HMAC.Hash`: the digest it returns. -/
def HMAC.Hash (x : Packages) (h : HMAC) (input : String) : String := (h.HashState x input).1

end hash

/-! ## `strings.ToLower`, `strings.TrimSpace` and the `regexp` matcher -/

namespace strings

/-- The function `unicode.ToLower`: ASCII letters by arithmetic, the rest by the table. -/
def unicodeToLower (x : Packages) (r : Char) : Char :=
  if r.toNat ≤ 127 then
    (if 'A'.toNat ≤ r.toNat ∧ r.toNat ≤ 'Z'.toNat then Char.ofNat (r.toNat + 32) else r)
  else x.unicodeLower r

/-- The function `strings.ToLower`: every rune mapped by `unicode.ToLower` (the ASCII
fast path of the library computes the same string). -/
def ToLower (x : Packages) (s : String) : String := String.mk (s.data.map (unicodeToLower x))

/-- The function `unicode.IsSpace`: the Latin-1 cases and the `White_Space` table. -/
def unicodeIsSpace (r : Char) : Bool :=
  let n := r.toNat
  if n ≤ 255 then
    n = 9 ∨ n = 10 ∨ n = 11 ∨ n = 12 ∨ n = 13 ∨ n = 32 ∨ n = 133 ∨ n = 160
  else
    n = 5760 ∨ (8192 ≤ n ∧ n ≤ 8202) ∨ n = 8232 ∨ n = 8233 ∨ n = 8239 ∨ n = 8287
      ∨ n = 12288

/-- The function `strings.TrimSpace`: leading and trailing white space removed. -/
def TrimSpace (s : String) : String :=
  String.mk (((s.data.dropWhile unicodeIsSpace).reverse.dropWhile unicodeIsSpace).reverse)

end strings

namespace regexp

/-- Regular expressions over runes, as far as the email pattern needs them. -/
inductive Regexp where
  | fail
  | empty
  | cls (ranges : List (Char × Char))
  | cat (a b : Regexp)
  | alt (a b : Regexp)
  | star (a : Regexp)
  deriving Repr

namespace Regexp

/-- Whether the expression matches the empty string. -/
def nullable : Regexp → Bool
  | fail => false
  | empty => true
  | cls _ => false
  | cat a b => a.nullable && b.nullable
  | alt a b => a.nullable || b.nullable
  | star _ => true

/-- Whether the rune `c` lies in one of the ranges of a class. -/
def inClass (ranges : List (Char × Char)) (c : Char) : Bool :=
  ranges.any fun r => r.1.toNat ≤ c.toNat && c.toNat ≤ r.2.toNat

/-- Concatenation that drops what cannot match. -/
def mkCat : Regexp → Regexp → Regexp
  | fail, _ => fail
  | _, fail => fail
  | empty, b => b
  | a, b => cat a b

/-- Alternation that drops what cannot match. -/
def mkAlt : Regexp → Regexp → Regexp
  | fail, b => b
  | a, fail => a
  | a, b => alt a b

/-- The derivative: what remains to be matched after the rune `c`. -/
def deriv (c : Char) : Regexp → Regexp
  | fail => fail
  | empty => fail
  | cls ranges => if inClass ranges c then empty else fail
  | cat a b =>
    if a.nullable then mkAlt (mkCat (a.deriv c) b) (b.deriv c) else mkCat (a.deriv c) b
  | alt a b => mkAlt (a.deriv c) (b.deriv c)
  | star a => mkCat (a.deriv c) (star a)

/-- Whether the expression matches the whole of `s`. -/
def fullMatch (r : Regexp) (s : List Char) : Bool := (s.foldl (fun q c => q.deriv c) r).nullable

/-- Whether the rune `c` lies in one of the classes that occur in the expression. -/
def alphabet : Regexp → Char → Bool
  | fail, _ => false
  | empty, _ => false
  | cls ranges, c => inClass ranges c
  | cat a b, c => a.alphabet c || b.alphabet c
  | alt a b, c => a.alphabet c || b.alphabet c
  | star a, c => a.alphabet c

/-- The operator `+`. -/
def plus (a : Regexp) : Regexp := cat a (star a)

/-- At most `n` repetitions, `(a(a(...)?)?)?`. -/
def upTo (a : Regexp) : Nat → Regexp
  | 0 => empty
  | n + 1 => alt empty (cat a (upTo a n))

/-- The operator `{2,16}`: two repetitions and at most fourteen more. -/
def rep2to16 (a : Regexp) : Regexp := cat a (cat a (upTo a 14))

end Regexp

end regexp

namespace models

def ErrNotFound : Err := Err.modelError "models: Resource not found"
def ErrInvalidAge : Err := Err.modelError "models: Age received must be more than than 0"
def ErrInvalidPassword : Err := Err.modelError "models: Incorrect password provided"
def ErrEmailRequired : Err := Err.modelError "models: Email address is required"
def ErrEmailInvalid : Err := Err.modelError "models: Email is not valid"
def ErrEmailTaken : Err := Err.modelError "models: Email address is already taken"
def ErrPasswordTooShort : Err :=
  Err.modelError "models: Password must be at least 8 characters long"
def ErrPasswordRequired : Err := Err.modelError "models: Password is required"
def ErrRememberRequired : Err := Err.modelError "models: Remember token is required"
def ErrTitleRequired : Err := Err.modelError "models: Title is required"
def ErrBytesTooShort : Err :=
  Err.privateError "models: Number of bytes for remember token must be at least 32 bytes."
def ErruserIDRequired : Err := Err.privateError "models: User ID is required"
def ErrInvalidID : Err := Err.privateError "models: ID received is less than 0"

/-- The `User` struct. Of the embedded `gorm.Model` only `ID` is kept: the three
timestamps are written by the database layer and read by no function embedded here. -/
structure User where
  ID : Nat
  Name : String
  Age : Nat
  Email : String
  Password : String
  PasswordHash : String
  Remember : String
  RememberHash : String
  deriving DecidableEq, Repr

/-- The zero value of `User` (`var user User`). -/
def User.zero : User :=
  { ID := 0, Name := "", Age := 0, Email := "", Password := "", PasswordHash := "",
    Remember := "", RememberHash := "" }

structure Image where
  GalleryID : Nat
  Filename : String
  deriving DecidableEq, Repr

/-- The `Gallery` struct (of `gorm.Model` only `ID`, as for `User`). -/
structure Gallery where
  ID : Nat
  Title : String
  UserID : Nat
  Images : List Image
  deriving DecidableEq, Repr

/-- The result `(*User, error)` of a single-user query. The interface's contract
(`users.go`, lines 21 to 25) is: a found user comes with a nil error, anything else with
an error; with the error the pointer may be nil or not (`userGorm.ByEmail` returns
`&user`, `userGorm.ByRemember` returns `nil`). -/
inductive Lookup where
  | found (user : User)
  | failed (ptr : Option User) (err : Err)
  deriving DecidableEq, Repr

/-- The interface `UserDB` over a store whose state has type `τ`. A mutating method
gets `*User` and returns the user behind the pointer after the call with its error. -/
structure UserDB (τ : Type) where
  ByID : Nat → τ → Lookup × τ
  ByEmail : String → τ → Lookup × τ
  ByRemember : String → τ → Lookup × τ
  Create : User → τ → (User × Option Err) × τ
  Update : User → τ → (User × Option Err) × τ
  Delete : User → τ → (User × Option Err) × τ

/-- One call through the `UserDB` interface, with its argument. -/
inductive UserCall where
  | ByID (id : Nat)
  | ByEmail (email : String)
  | ByRemember (token : String)
  | Create (user : User)
  | Update (user : User)
  | Delete (user : User)
  deriving DecidableEq, Repr

/-- The store `db` with a record of the calls made to it, oldest first. -/
def UserDB.traced {σ : Type} (db : UserDB σ) : UserDB (σ × List UserCall) where
  ByID id t := ((db.ByID id t.1).1, ((db.ByID id t.1).2, t.2 ++ [UserCall.ByID id]))
  ByEmail e t := ((db.ByEmail e t.1).1, ((db.ByEmail e t.1).2, t.2 ++ [UserCall.ByEmail e]))
  ByRemember h t :=
    ((db.ByRemember h t.1).1, ((db.ByRemember h t.1).2, t.2 ++ [UserCall.ByRemember h]))
  Create u t := ((db.Create u t.1).1, ((db.Create u t.1).2, t.2 ++ [UserCall.Create u]))
  Update u t := ((db.Update u t.1).1, ((db.Update u t.1).2, t.2 ++ [UserCall.Update u]))
  Delete u t := ((db.Delete u t.1).1, ((db.Delete u t.1).2, t.2 ++ [UserCall.Delete u]))

/-- The interface `GalleryDB` over a store whose state has type `τ`. -/
structure GalleryDB (τ : Type) where
  ByUserID : Nat → τ → (Option (List Gallery) × Option Err) × τ
  ByID : Nat → τ → (Option Gallery × Option Err) × τ
  Create : Gallery → τ → (Gallery × Option Err) × τ
  Update : Gallery → τ → (Gallery × Option Err) × τ
  Delete : Gallery → τ → (Gallery × Option Err) × τ

/-- One call through the `GalleryDB` interface, with its argument. -/
inductive GalleryCall where
  | ByUserID (id : Nat)
  | ByID (id : Nat)
  | Create (gallery : Gallery)
  | Update (gallery : Gallery)
  | Delete (gallery : Gallery)
  deriving DecidableEq, Repr

/-- The store `db` with a record of the calls made to it, oldest first. -/
def GalleryDB.traced {σ : Type} (db : GalleryDB σ) : GalleryDB (σ × List GalleryCall) where
  ByUserID id t :=
    ((db.ByUserID id t.1).1, ((db.ByUserID id t.1).2, t.2 ++ [GalleryCall.ByUserID id]))
  ByID id t := ((db.ByID id t.1).1, ((db.ByID id t.1).2, t.2 ++ [GalleryCall.ByID id]))
  Create g t := ((db.Create g t.1).1, ((db.Create g t.1).2, t.2 ++ [GalleryCall.Create g]))
  Update g t := ((db.Update g t.1).1, ((db.Update g t.1).2, t.2 ++ [GalleryCall.Update g]))
  Delete g t := ((db.Delete g t.1).1, ((db.Delete g t.1).2, t.2 ++ [GalleryCall.Delete g]))

/-! ## `models/users.go`: the validating decorator -/

/-- The constant `bcrypt.DefaultCost`. -/
def bcryptDefaultCost : Nat := 10

/-- The struct `userValidator`. -/
structure userValidator (τ : Type) where
  UserDB : UserDB τ
  hmac : hash.HMAC
  emailRegex : regexp.Regexp
  pepper : String

/-- The pattern `^[a-z0-9._%+\-]+@[a-z0-9.\-]+\.[a-z]{2,16}$` between its anchors;
`^` and `$` (no flags) make a match a match of the whole string. -/
def emailPattern : regexp.Regexp :=
  regexp.Regexp.cat
    (regexp.Regexp.plus (regexp.Regexp.cls
      [('a', 'z'), ('0', '9'), ('.', '.'), ('_', '_'), ('%', '%'), ('+', '+'), ('-', '-')]))
    (regexp.Regexp.cat (regexp.Regexp.cls [('@', '@')])
      (regexp.Regexp.cat
        (regexp.Regexp.plus
          (regexp.Regexp.cls [('a', 'z'), ('0', '9'), ('.', '.'), ('-', '-')]))
        (regexp.Regexp.cat (regexp.Regexp.cls [('.', '.')])
          (regexp.Regexp.rep2to16 (regexp.Regexp.cls [('a', 'z')])))))

def newUserValidator {τ : Type} (udb : UserDB τ) (hmac : hash.HMAC) (pepper : String) :
    userValidator τ :=
  { hmac := hmac, UserDB := udb, emailRegex := emailPattern, pepper := pepper }

/-- The type `userValidateFunc`, `func(*User) error`. -/
abbrev userValidateFunc (τ : Type) := User → τ → (User × Option Err) × τ

/-- The loop of `runUserValFuncs`: each function in turn, returning at the first
error. -/
def runUserValFuncs {τ : Type} (user : User) :
    List (userValidateFunc τ) → τ → (User × Option Err) × τ
  | [], t => ((user, none), t)
  | fn :: fns, t =>
    match fn user t with
    | ((u, some err), t1) => ((u, some err), t1)
    | ((u, none), t1) => runUserValFuncs u fns t1

namespace userValidator

variable {τ : Type}

def hmacRemember (x : Packages) (uv : userValidator τ) : userValidateFunc τ := fun user t =>
  if user.Remember = "" then ((user, none), t)
  else (({ user with RememberHash := uv.hmac.Hash x user.Remember }, none), t)

def ByRemember (x : Packages) (uv : userValidator τ) (token : String) (t : τ) : Lookup × τ :=
  match runUserValFuncs { User.zero with Remember := token } [uv.hmacRemember x] t with
  | ((_, some err), t1) => (Lookup.failed none err, t1)
  | ((user, none), t1) => uv.UserDB.ByRemember user.RememberHash t1

def normalizeEmail (x : Packages) (_uv : userValidator τ) : userValidateFunc τ := fun user t =>
  (({ user with Email := strings.TrimSpace (strings.ToLower x user.Email) }, none), t)

def ByEmail (x : Packages) (uv : userValidator τ) (email : String) (t : τ) : Lookup × τ :=
  match runUserValFuncs { User.zero with Email := email } [uv.normalizeEmail x] t with
  | ((_, some err), t1) => (Lookup.failed none err, t1)
  | ((user, none), t1) => uv.UserDB.ByEmail user.Email t1

def rememberHashRequired (_uv : userValidator τ) : userValidateFunc τ := fun user t =>
  if user.RememberHash = "" then ((user, some ErrRememberRequired), t) else ((user, none), t)

def rememberMinBytes (_uv : userValidator τ) : userValidateFunc τ := fun user t =>
  if user.Remember = "" then ((user, none), t)
  else
    match rand.NBytes user.Remember with
    | (_, some err) => ((user, some err), t)
    | (n, none) => if n < 32 then ((user, some ErrBytesTooShort), t) else ((user, none), t)

def setRememberIfUnset (x : Packages) (_uv : userValidator τ) : userValidateFunc τ :=
  fun user t =>
  if user.Remember ≠ "" then ((user, none), t)
  else
    match rand.RememberToken x with
    | Except.error err => ((user, some err), t)
    | Except.ok rememberToken => (({ user with Remember := rememberToken }, none), t)

def idBeGreaterThan (_uv : userValidator τ) (n : Nat) : userValidateFunc τ := fun user t =>
  if user.ID ≤ n then ((user, some ErrInvalidID), t) else ((user, none), t)

def requireEmail (_uv : userValidator τ) : userValidateFunc τ := fun user t =>
  if user.Email = "" then ((user, some ErrEmailRequired), t) else ((user, none), t)

def emailFormat (uv : userValidator τ) : userValidateFunc τ := fun user t =>
  if ¬ uv.emailRegex.fullMatch user.Email.data = true then ((user, some ErrEmailInvalid), t)
  else ((user, none), t)

def emailNotTaken (x : Packages) (uv : userValidator τ) : userValidateFunc τ := fun user t =>
  match uv.ByEmail x user.Email t with
  | (Lookup.failed _ err, t1) =>
    if err = ErrNotFound then ((user, none), t1) else ((user, some err), t1)
  | (Lookup.found existing, t1) =>
    if existing.ID ≠ user.ID then ((user, some ErrEmailTaken), t1) else ((user, none), t1)

def bcryptPassword (x : Packages) (uv : userValidator τ) : userValidateFunc τ := fun user t =>
  if user.Password = "" then ((user, none), t)
  else
    match x.bcryptGenerate (user.Password ++ uv.pepper) bcryptDefaultCost with
    | Except.error err => ((user, some err), t)
    | Except.ok hashBytes =>
      (({ user with PasswordHash := hashBytes, Password := "" }, none), t)

def passwordMinLength (_uv : userValidator τ) : userValidateFunc τ := fun user t =>
  if user.Password = "" then ((user, none), t)
  else if user.Password.utf8ByteSize < 8 then ((user, some ErrPasswordTooShort), t)
  else ((user, none), t)

def passwordRequired (_uv : userValidator τ) : userValidateFunc τ := fun user t =>
  if user.Password = "" then ((user, some ErrPasswordRequired), t) else ((user, none), t)

def passwordHashRequired (_uv : userValidator τ) : userValidateFunc τ := fun user t =>
  if user.PasswordHash = "" then ((user, some ErrPasswordRequired), t) else ((user, none), t)

/-- The validation functions of `Create`, in the order of the source. -/
def createFuncs (x : Packages) (uv : userValidator τ) : List (userValidateFunc τ) :=
  [uv.passwordRequired, uv.passwordMinLength, uv.bcryptPassword x, uv.passwordHashRequired,
    uv.setRememberIfUnset x, uv.rememberMinBytes, uv.hmacRemember x,
    uv.rememberHashRequired, uv.normalizeEmail x, uv.requireEmail, uv.emailFormat,
    uv.emailNotTaken x]

def Create (x : Packages) (uv : userValidator τ) (user : User) (t : τ) :
    (User × Option Err) × τ :=
  match runUserValFuncs user (uv.createFuncs x) t with
  | ((u, some err), t1) => ((u, some err), t1)
  | ((u, none), t1) => uv.UserDB.Create u t1

/-- The validation functions of `Update`, in the order of the source. -/
def updateFuncs (x : Packages) (uv : userValidator τ) : List (userValidateFunc τ) :=
  [uv.passwordMinLength, uv.bcryptPassword x, uv.passwordHashRequired,
    uv.rememberMinBytes, uv.hmacRemember x, uv.rememberHashRequired, uv.normalizeEmail x,
    uv.requireEmail, uv.emailFormat, uv.emailNotTaken x]

def Update (x : Packages) (uv : userValidator τ) (user : User) (t : τ) :
    (User × Option Err) × τ :=
  match runUserValFuncs user (uv.updateFuncs x) t with
  | ((u, some err), t1) => ((u, some err), t1)
  | ((u, none), t1) => uv.UserDB.Update u t1

def Delete (uv : userValidator τ) (user : User) (t : τ) : (User × Option Err) × τ :=
  match runUserValFuncs user [uv.idBeGreaterThan 0] t with
  | ((u, some err), t1) => ((u, some err), t1)
  | ((u, none), t1) => uv.UserDB.Delete u t1

/-- The validator as a `UserDB`: `ByID` is promoted from the embedded interface, the
other five methods are the validator's own. -/
def toUserDB (x : Packages) (uv : userValidator τ) : models.UserDB τ where
  ByID := uv.UserDB.ByID
  ByEmail := uv.ByEmail x
  ByRemember := uv.ByRemember x
  Create := uv.Create x
  Update := uv.Update x
  Delete := uv.Delete

end userValidator

/-! ## `models/users.go`: the database layer -/

/-- The conditions `userGorm` passes to `db.Where`. -/
inductive Where where
  | id (v : Nat)
  | age (v : Nat)
  | email (v : String)
  | remember_hash (v : String)
  deriving DecidableEq, Repr

/-- The part of `*gorm.DB` that `userGorm` uses, over a database whose state has type
`τ`: `First cond dst` is `db.Where(cond).First(dst)` and returns `dst` after the call
with the `Error` field; `Delete id` is `db.Delete` on a fresh `User` that holds only the
ID. -/
structure gormDB (τ : Type) where
  First : Where → User → τ → (User × Option Err) × τ
  Create : User → τ → (User × Option Err) × τ
  Save : User → τ → (User × Option Err) × τ
  Delete : Nat → τ → Option Err × τ

/-- The function `first`; `db` is the `First` method of the query. -/
def first {τ : Type} (db : User → τ → (User × Option Err) × τ) (dst : User) (t : τ) :
    (User × Option Err) × τ :=
  match db dst t with
  | ((d, err), t1) =>
    if err = some Err.ErrRecordNotFound then ((d, some ErrNotFound), t1) else ((d, err), t1)

structure userGorm (τ : Type) where
  db : gormDB τ

namespace userGorm

variable {τ : Type}

def Create (ug : userGorm τ) (user : User) (t : τ) : (User × Option Err) × τ :=
  ug.db.Create user t

def Update (ug : userGorm τ) (user : User) (t : τ) : (User × Option Err) × τ :=
  ug.db.Save user t

def Delete (ug : userGorm τ) (user : User) (t : τ) : (User × Option Err) × τ :=
  ((user, (ug.db.Delete user.ID t).1), (ug.db.Delete user.ID t).2)

/-- The pair `(&user, err)` as a `Lookup`. -/
def withPointer (r : (User × Option Err) × τ) : Lookup × τ :=
  match r with
  | ((user, none), t1) => (Lookup.found user, t1)
  | ((user, some err), t1) => (Lookup.failed (some user) err, t1)

def ByID (ug : userGorm τ) (id : Nat) (t : τ) : Lookup × τ :=
  withPointer (first (ug.db.First (Where.id id)) User.zero t)

def ByEmail (ug : userGorm τ) (email : String) (t : τ) : Lookup × τ :=
  withPointer (first (ug.db.First (Where.email email)) User.zero t)

def ByRemember (ug : userGorm τ) (rememberHash : String) (t : τ) : Lookup × τ :=
  match first (ug.db.First (Where.remember_hash rememberHash)) User.zero t with
  | ((_, some err), t1) => (Lookup.failed none err, t1)
  | ((user, none), t1) => (Lookup.found user, t1)

def toUserDB (ug : userGorm τ) : models.UserDB τ where
  ByID := ug.ByID
  ByEmail := ug.ByEmail
  ByRemember := ug.ByRemember
  Create := ug.Create
  Update := ug.Update
  Delete := ug.Delete

end userGorm

/-! ## `models/users.go`: the service -/

/-- The struct `userService`. -/
structure userService (τ : Type) where
  UserDB : UserDB τ
  pepper : String

def NewUserService {τ : Type} (x : Packages) (db : gormDB τ) (pepper hmacKey : String) :
    userService τ :=
  { UserDB := (newUserValidator (userGorm.toUserDB { db := db }) (hash.NewHMAC hmacKey)
      pepper).toUserDB x,
    pepper := pepper }

def userService.Authenticate {τ : Type} (x : Packages) (us : userService τ)
    (email password : String) (t : τ) : Lookup × τ :=
  match us.UserDB.ByEmail email t with
  | (Lookup.failed _ err, t1) => (Lookup.failed none err, t1)
  | (Lookup.found foundUser, t1) =>
    match x.bcryptCompare foundUser.PasswordHash (password ++ us.pepper) with
    | some err =>
      if err = Err.ErrMismatchedHashAndPassword then
        (Lookup.failed none ErrInvalidPassword, t1)
      else (Lookup.failed none err, t1)
    | none => (Lookup.found foundUser, t1)

/-- The service that `NewUserService` builds around a validator: the validator is its
`UserDB`, and both hold the same pepper. -/
def userValidator.service {τ : Type} (x : Packages) (uv : userValidator τ) : userService τ :=
  { UserDB := uv.toUserDB x, pepper := uv.pepper }

/-! ## What a store is assumed to do -/

/-- The columns of a user: `Password` and `Remember` carry the tag `gorm:"-"` and are
not stored. -/
def User.persisted (u : User) : User := { u with Password := "", Remember := "" }

/-- The store's `Create` writes nothing but the ID into the user it is given (gorm
back-fills the fields of `gorm.Model`). -/
def UserDB.CreateWritesOnlyID {τ : Type} (db : UserDB τ) : Prop :=
  ∀ (u : User) (t : τ), (db.Create u t).1.1 = { u with ID := (db.Create u t).1.1.ID }

/-- The store answers `ByRemember(h)` with the user it stored under `RememberHash` `h`. -/
def UserDB.AnswersByRemember {τ : Type} (db : UserDB τ) : Prop :=
  ∀ (u : User) (t : τ) (u1 : User) (t1 : τ), db.Create u t = ((u1, none), t1) →
    ∃ t2, db.ByRemember u.RememberHash t1 = (Lookup.found u1.persisted, t2)

/-- The store answers `ByEmail(e)` with the user it stored under `Email` `e`. -/
def UserDB.AnswersByEmail {τ : Type} (db : UserDB τ) : Prop :=
  ∀ (u : User) (t : τ) (u1 : User) (t1 : τ), db.Create u t = ((u1, none), t1) →
    ∃ t2, db.ByEmail u.Email t1 = (Lookup.found u1.persisted, t2)

/-- The package `bcrypt` verifies a password against a hash it generated from it. -/
def BcryptVerifies (x : Packages) : Prop :=
  ∀ (pwd hashed : String) (cost : Nat),
    x.bcryptGenerate pwd cost = Except.ok hashed → x.bcryptCompare hashed pwd = none

/-! ## A reference instance: a table in memory and small stand-ins for the packages

They instantiate the interfaces at concrete inputs. -/

def Where.holds (w : Where) (row : User) : Bool :=
  match w with
  | Where.id v => row.ID = v
  | Where.age v => row.Age = v
  | Where.email v => row.Email = v
  | Where.remember_hash v => row.RememberHash = v

/-- The next value of the serial primary key. -/
def memNextID (rows : List User) : Nat := (rows.map User.ID).foldl max 0 + 1

/-- Whether inserting `u` would break the primary key or one of the two unique
indexes (`email`, `remember_hash`). -/
def memConflict (rows : List User) (u : User) : Bool :=
  rows.any fun row =>
    row.ID = u.ID || row.Email = u.Email || row.RememberHash = u.RememberHash

/-- A users table in memory behind the `gormDB` interface: the rows in insertion order,
each holding the persisted columns. -/
def memDB : gormDB (List User) where
  First w dst rows :=
    match rows.find? w.holds with
    | some row => (({ row with Password := dst.Password, Remember := dst.Remember }, none), rows)
    | none => ((dst, some Err.ErrRecordNotFound), rows)
  Create user rows :=
    let u1 : User := { user with ID := if user.ID = 0 then memNextID rows else user.ID }
    if memConflict rows u1 then ((user, some (Err.other "duplicate key value")), rows)
    else ((u1, none), rows ++ [u1.persisted])
  Save user rows :=
    if rows.any (fun row => row.ID = user.ID) then
      ((user, none), rows.map fun row => if row.ID = user.ID then user.persisted else row)
    else
      let u1 : User := { user with ID := if user.ID = 0 then memNextID rows else user.ID }
      if memConflict rows u1 then ((user, some (Err.other "duplicate key value")), rows)
      else ((u1, none), rows ++ [u1.persisted])
  Delete id rows :=
    if id = 0 then (none, []) else (none, rows.filter fun row => row.ID ≠ id)

/-- The store of the reference instance: `userGorm` over the table. -/
def memStore : UserDB (List User) := userGorm.toUserDB { db := memDB }

/-- Stand-ins for the packages: the identity case table, a random source that writes
`7 * i + 3` at index `i`, a digest made of the key and the message, a bcrypt whose hash
is the password behind a version prefix. -/
def demoPackages : Packages where
  unicodeLower := fun c => c
  unicodeTitle := fun c => c
  unicodeLetterOrDigit := fun _ => true
  randRead := Except.ok fun i => 7 * i + 3
  hmacSHA256 := fun key msg => (key ++ msg).take 32
  bcryptGenerate := fun pwd _ => Except.ok ("$2a$10$" ++ pwd)
  bcryptCompare := fun hashed pwd =>
    if hashed = "$2a$10$" ++ pwd then none else some Err.ErrMismatchedHashAndPassword

/-- The validator of the reference instance. -/
def demoValidator : userValidator (List User) :=
  newUserValidator memStore (hash.NewHMAC "secret-hmac-key") "secret-pepper"

/-- A user as the signup handler builds it. -/
def demoUser : User :=
  { User.zero with Name := "Ann", Email := "A@B.com", Password := "adequate1" }

/-- The table after `demoUser` was created in the empty table. -/
def demoRows : List User := (demoValidator.Create demoPackages demoUser []).2

/-- A second signup with the same address in another case and no password. -/
def demoNoPassword : User := { User.zero with Name := "Bob", Email := "A@B.com" }

/-- A second signup with the same address in another case and a password. -/
def demoSecond : User :=
  { User.zero with Name := "Bob", Email := " A@B.com ", Password := "adequate2" }

/-- A signup whose password has five characters and ten bytes. -/
def demoFiveChars : User :=
  { User.zero with Name := "Eve", Email := "eve@b.com", Password := "ééééé" }

/-- The validator `uv` over the same store with its calls recorded. -/
def userValidator.tracing {σ : Type} (uv : userValidator σ) :
    userValidator (σ × List UserCall) :=
  { UserDB := uv.UserDB.traced, hmac := uv.hmac, emailRegex := uv.emailRegex,
    pepper := uv.pepper }

/-! ## `models/gallery.go`: the validating decorator -/

/-- The struct `galleryValidator`: it embeds a `GalleryDB`. -/
structure galleryValidator (τ : Type) where
  GalleryDB : GalleryDB τ

/-- The type `galleryValidateFunc`, `func(*Gallery) error`. -/
abbrev galleryValidateFunc (τ : Type) := Gallery → τ → (Gallery × Option Err) × τ

/-- The loop of `runGalleryValFuncs`: each function in turn, returning at the first
error. -/
def runGalleryValFuncs {τ : Type} (gallery : Gallery) :
    List (galleryValidateFunc τ) → τ → (Gallery × Option Err) × τ
  | [], t => ((gallery, none), t)
  | fn :: fns, t =>
    match fn gallery t with
    | ((g, some err), t1) => ((g, some err), t1)
    | ((g, none), t1) => runGalleryValFuncs g fns t1

def galleryValidator.userIDRequired {τ : Type} (_gv : galleryValidator τ) :
    galleryValidateFunc τ := fun g t =>
  if g.UserID ≤ 0 then ((g, some ErruserIDRequired), t) else ((g, none), t)

def galleryValidator.titleRequired {τ : Type} (_gv : galleryValidator τ) :
    galleryValidateFunc τ := fun g t =>
  if g.Title = "" then ((g, some ErrTitleRequired), t) else ((g, none), t)

def galleryValidator.idBeGreaterThan {τ : Type} (_gv : galleryValidator τ) (n : Nat) :
    galleryValidateFunc τ := fun gallery t =>
  if gallery.ID ≤ n then ((gallery, some ErrInvalidID), t) else ((gallery, none), t)

def galleryValidator.Create {τ : Type} (gv : galleryValidator τ) (gallery : Gallery)
    (t : τ) : (Gallery × Option Err) × τ :=
  match runGalleryValFuncs gallery [gv.userIDRequired, gv.titleRequired] t with
  | ((g, some err), t1) => ((g, some err), t1)
  | ((g, none), t1) => gv.GalleryDB.Create g t1

def galleryValidator.Update {τ : Type} (gv : galleryValidator τ) (gallery : Gallery)
    (t : τ) : (Gallery × Option Err) × τ :=
  match runGalleryValFuncs gallery [gv.userIDRequired, gv.titleRequired] t with
  | ((g, some err), t1) => ((g, some err), t1)
  | ((g, none), t1) => gv.GalleryDB.Update g t1

def galleryValidator.Delete {τ : Type} (gv : galleryValidator τ) (gallery : Gallery)
    (t : τ) : (Gallery × Option Err) × τ :=
  match runGalleryValFuncs gallery [gv.idBeGreaterThan 0] t with
  | ((g, some err), t1) => ((g, some err), t1)
  | ((g, none), t1) => gv.GalleryDB.Delete g t1

/-- The validator `gv` over the same store with its calls recorded. -/
def galleryValidator.tracing {σ : Type} (gv : galleryValidator σ) :
    galleryValidator (σ × List GalleryCall) :=
  { GalleryDB := gv.GalleryDB.traced }

end models

/-! ## `strings.Replace`, `strings.Split`, `strings.Title`, `strings.Join` -/

namespace strings

/-- The loop of `strings.Replace` for a non-empty `old`: `skip` runes of a replaced
occurrence are still to be passed over, `n` replacements are left. -/
def replaceLoop (old new : List Char) : List Char → Nat → Nat → List Char
  | [], _, _ => []
  | _ :: cs, skip + 1, n => replaceLoop old new cs skip n
  | c :: cs, 0, 0 => c :: replaceLoop old new cs 0 0
  | c :: cs, 0, n + 1 =>
    if old.isPrefixOf (c :: cs) then new ++ replaceLoop old new cs (old.length - 1) n
    else c :: replaceLoop old new cs 0 (n + 1)

/-- The function `strings.Replace(s, old, new, n)` for a non-empty `old` and a count
`n` that is not negative: the first `n` occurrences of `old`, left to right and not
overlapping, are replaced. -/
def Replace (s old new : String) (n : Nat) : String :=
  String.mk (replaceLoop old.data new.data s.data 0 n)

/-- The loop of `strings.Split` for a non-empty separator: `cur` holds the runes of the
current piece, last first. -/
def splitLoop (sep : List Char) : List Char → Nat → List Char → List (List Char)
  | [], _, cur => [cur.reverse]
  | _ :: cs, skip + 1, cur => splitLoop sep cs skip cur
  | c :: cs, 0, cur =>
    if sep.isPrefixOf (c :: cs) then cur.reverse :: splitLoop sep cs (sep.length - 1) []
    else splitLoop sep cs 0 (c :: cur)

/-- The function `strings.Split(s, sep)` for a non-empty `sep`: the pieces of `s`
between the occurrences of `sep`; there is always at least one piece. -/
def Split (s sep : String) : List String := (splitLoop sep.data s.data 0 []).map String.mk

/-- The function `strings.Join`. -/
def Join (elems : List String) (sep : String) : String :=
  String.mk (List.intercalate sep.data (elems.map String.data))

/-- The function `isSeparator` of package `strings`: ASCII letters, digits and the
underscore are not separators and every other ASCII rune is; above ASCII a letter or
digit is not, and of the rest the white space is. -/
def isSeparator (x : Packages) (r : Char) : Bool :=
  let n := r.toNat
  if n ≤ 127 then
    !((48 ≤ n && n ≤ 57) || (97 ≤ n && n ≤ 122) || (65 ≤ n && n ≤ 90) || n = 95)
  else if x.unicodeLetterOrDigit r then false
  else unicodeIsSpace r

/-- The function `unicode.ToTitle`: ASCII letters by arithmetic, the rest by the table. -/
def unicodeToTitle (x : Packages) (r : Char) : Char :=
  if r.toNat ≤ 127 then
    (if 'a'.toNat ≤ r.toNat ∧ r.toNat ≤ 'z'.toNat then Char.ofNat (r.toNat - 32) else r)
  else x.unicodeTitle r

/-- The closure that `strings.Title` maps over the string: `prev` is the rune before. -/
def titleLoop (x : Packages) : List Char → Char → List Char
  | [], _ => []
  | r :: rs, prev =>
    (if isSeparator x prev then unicodeToTitle x r else r) :: titleLoop x rs r

/-- The function `strings.Title`: the runes that begin words mapped to title case. -/
def Title (x : Packages) (s : String) : String := String.mk (titleLoop x s.data ' ')

end strings

namespace models

/-! ## `models/errors.go`: `Public` -/

/-- The method `modelError.Public`, on the string under the error. `split[0]` exists:
`strings.Split` returns at least one piece. -/
def modelError.Public (x : Packages) (e : String) : String :=
  let s := strings.Replace e "models: " "" 1
  let split := (strings.Split s " ").map (strings.ToLower x)
  let split := match split with
    | [] => []
    | w :: ws => strings.Title x w :: ws
  strings.Join (split ++ ["."]) " "

/-- The ten constants of type `modelError`. -/
def publicErrors : List Err :=
  [ErrNotFound, ErrInvalidAge, ErrInvalidPassword, ErrEmailRequired, ErrEmailInvalid,
    ErrEmailTaken, ErrPasswordTooShort, ErrPasswordRequired, ErrRememberRequired,
    ErrTitleRequired]

/-- The three constants of type `privateError`. -/
def privateErrors : List Err := [ErrBytesTooShort, ErruserIDRequired, ErrInvalidID]

end models

/-! ## `views/data.go` -/

namespace views

def AlertLvlError : String := "danger"
def AlertLvlWarning : String := "warning"
def AlertLvlInfo : String := "info"
def AlertLvlSuccess : String := "success"

def AlertMsgGeneric : String :=
  "Something went wrong. Please try again, or contact us if the problem persists."

structure Alert where
  Level : String
  Message : String
  deriving DecidableEq, Repr

/-- The struct `Data`; `υ` is the type of what `Yield` holds. -/
structure Data (υ : Type) where
  Alert : Option Alert
  Yield : υ
  User : Option models.User

/-- The type assertion `err.(PublicError)`: it holds for the values whose type has the
method `Public`, which are those of type `modelError`, and gives their `Public()`. -/
def asPublicError (x : Packages) : Option Err → Option String
  | some (Err.modelError msg) => some (models.modelError.Public x msg)
  | _ => none

/-- The method `Data.SetAlert`: the data after the call (`log.Print` writes to the log
only). -/
def Data.SetAlert {υ : Type} (x : Packages) (d : Data υ) (err : Option Err) : Data υ :=
  match asPublicError x err with
  | some pub => { d with Alert := some (Alert.mk AlertLvlError pub) }
  | none => { d with Alert := some (Alert.mk AlertLvlError AlertMsgGeneric) }

def Data.AlertError {υ : Type} (d : Data υ) (msg : String) : Data υ :=
  { d with Alert := some (Alert.mk AlertLvlError msg) }

end views

/-! ## Notions used to state the properties -/

namespace models

/-- The validation run of `userValidator.Create`: its steps on the user, before the
store's `Create`. -/
def userValidator.createValidation {τ : Type} (x : Packages) (uv : userValidator τ)
    (user : User) (t : τ) : (User × Option Err) × τ :=
  runUserValFuncs user (uv.createFuncs x) t

/-- The validation run of `userValidator.Update`. -/
def userValidator.updateValidation {τ : Type} (x : Packages) (uv : userValidator τ)
    (user : User) (t : τ) : (User × Option Err) × τ :=
  runUserValFuncs user (uv.updateFuncs x) t

/-- The validation run of `galleryValidator.Create` and `galleryValidator.Update`. -/
def galleryValidator.saveValidation {τ : Type} (gv : galleryValidator τ) (gallery : Gallery)
    (t : τ) : (Gallery × Option Err) × τ :=
  runGalleryValFuncs gallery [gv.userIDRequired, gv.titleRequired] t

/-- The validation run of `galleryValidator.Delete`. -/
def galleryValidator.deleteValidation {τ : Type} (gv : galleryValidator τ)
    (gallery : Gallery) (t : τ) : (Gallery × Option Err) × τ :=
  runGalleryValFuncs gallery [gv.idBeGreaterThan 0] t

/-- Whether a call through `UserDB` is one of the three that alter the store. -/
def UserCall.isMutating : UserCall → Bool
  | UserCall.Create _ => true
  | UserCall.Update _ => true
  | UserCall.Delete _ => true
  | _ => false

/-- The steps of `Update` as the specification words them: those of `Create` without
the "password required" step. -/
def userValidator.updateFuncsAsSpecified {τ : Type} (x : Packages) (uv : userValidator τ) :
    List (userValidateFunc τ) :=
  (uv.createFuncs x).tail

/-- The white space of ASCII (`asciiSpace` of package `strings`). -/
def isASCIISpace (c : Char) : Bool :=
  c = ' ' || c = '\t' || c = '\n' || c = '\r' || c.toNat = 11 || c.toNat = 12

/-- Two strings that differ only in the case of their letters and in leading and
trailing ASCII white space: each is a core between two runs of white space, and the
cores agree rune by rune once lowercased. -/
def SameUpToCaseAndPadding (x : Packages) (e1 e2 : String) : Prop :=
  ∃ pre1 core1 post1 pre2 core2 post2 : List Char,
    e1.data = pre1 ++ core1 ++ post1 ∧ e2.data = pre2 ++ core2 ++ post2 ∧
    (∀ c ∈ pre1 ++ post1 ++ pre2 ++ post2, isASCIISpace c = true) ∧
    core1.map (strings.unicodeToLower x) = core2.map (strings.unicodeToLower x)

/-- A user made by a request to update the profile: no new password, no new token. -/
def demoUpdate : User :=
  { User.zero with
    ID := 1, Name := "Ann B", Email := " A@B.com",
    PasswordHash := "$2a$10$adequate1secret-pepper",
    RememberHash := "c2VjcmV0LWhtYWMta2V5QXdvUkdCOG1MVFE3UWtsUVY=" }

/-- A signup with a password and a token of its own. -/
def demoWithToken : User :=
  { User.zero with
    Name := "Cy", Email := "cy@b.com", Password := "adequate3",
    Remember := "ZwoRGB8mLTQ7QklQV15lbHN6gYiPlp2kq7K5wMfO1dw=" }

end models

/-! ## `models/gallery.go`: `ImageSplitN` -/

namespace models

/-- The ways the runtime stops `ImageSplitN`: three panics, and the fatal error of an
allocation for which the heap has no room. -/
inductive RuntimePanic where
  | makesliceLenOutOfRange
  | integerDivideByZero
  | indexOutOfRange
  | outOfMemory
  deriving DecidableEq, Repr

/-- What the running program allows `make([][]Image, n)`: `maxLen` is the largest length
that `makeslice` accepts, `maxAlloc` divided by the size of a slice header (on
linux/amd64 `2^48 / 24`), and it fits an `int`; `heapLen` is the largest length for which
the heap has room at the call. -/
structure MakeLimits where
  maxLen : Nat
  heapLen : Nat
  fitsInt : maxLen < 2 ^ 63

/-- The second loop of `ImageSplitN` from index `i` on: `bucket := i % n`, then
`ret[bucket] = append(ret[bucket], img)`. -/
def Gallery.imageSplitLoop (n : Nat) :
    List Image → Nat → List (List Image) → Except RuntimePanic (List (List Image))
  | [], _, ret => Except.ok ret
  | img :: rest, i, ret =>
    if n = 0 then Except.error RuntimePanic.integerDivideByZero
    else
      match ret[i % n]? with
      | none => Except.error RuntimePanic.indexOutOfRange
      | some bucket =>
        Gallery.imageSplitLoop n rest (i + 1) (ret.set (i % n) (bucket ++ [img]))

/-- The method `ImageSplitN`. Its argument is an `int`: `make([][]Image, n)` panics with
`makeslice: len out of range` for a negative length and for one above `maxLen`, the
runtime ends the program when the heap has no room for the slice, and otherwise the
first loop leaves `n` empty slices. -/
def Gallery.ImageSplitN (rt : MakeLimits) (g : Gallery) (n : Int) :
    Except RuntimePanic (List (List Image)) :=
  if n < 0 ∨ (rt.maxLen : Int) < n then Except.error RuntimePanic.makesliceLenOutOfRange
  else if (rt.heapLen : Int) < n then Except.error RuntimePanic.outOfMemory
  else Gallery.imageSplitLoop n.toNat g.Images 0 (List.replicate n.toNat [])

/-- What the loop of `ImageSplitN` keeps true of the buckets `ret` once the images `done`
are placed: there are `n` buckets, together they hold `done`, each is a sublist of
`done`, and bucket `b` holds at position `p` the image of index `p * n + b`. -/
def Gallery.SplitInv (n : Nat) (done : List Image) (ret : List (List Image)) : Prop :=
  ret.length = n ∧ ret.flatten.Perm done ∧
    ∀ b, b < n → ∃ bucket, ret[b]? = some bucket ∧ bucket.Sublist done ∧
      ∀ p, bucket[p]? = done[p * n + b]?

/-- A gallery of seven images. -/
def demoGallery : Gallery :=
  { ID := 1, Title := "Holiday", UserID := 1,
    Images := (List.range 7).map fun k => { GalleryID := 1, Filename := toString k } }

/-- The limits of a program on linux/amd64 whose heap has room for `2^32` slice
headers. -/
def demoLimits : MakeLimits :=
  { maxLen := 2 ^ 48 / 24, heapLen := 2 ^ 32, fitsInt := by decide }

end models

/-! ## The language of an expression and the shape of an email -/

namespace regexp.Regexp

/-- The language of an expression: the strings it matches in whole. -/
inductive Matches : Regexp → List Char → Prop
  | empty : Matches empty []
  | cls (ranges : List (Char × Char)) (c : Char) :
      inClass ranges c = true → Matches (cls ranges) [c]
  | cat (a b : Regexp) (s1 s2 : List Char) :
      Matches a s1 → Matches b s2 → Matches (cat a b) (s1 ++ s2)
  | altLeft (a b : Regexp) (s : List Char) : Matches a s → Matches (alt a b) s
  | altRight (a b : Regexp) (s : List Char) : Matches b s → Matches (alt a b) s
  | starNil (a : Regexp) : Matches (star a) []
  | starCons (a : Regexp) (s1 s2 : List Char) :
      Matches a s1 → Matches (star a) s2 → Matches (star a) (s1 ++ s2)

end regexp.Regexp

namespace models

/-- A lowercase letter, `a` to `z`. -/
def isLowerLetter (c : Char) : Bool := 'a'.toNat ≤ c.toNat && c.toNat ≤ 'z'.toNat

/-- A digit, `0` to `9`. -/
def isDigitChar (c : Char) : Bool := '0'.toNat ≤ c.toNat && c.toNat ≤ '9'.toNat

/-- The characters `[a-z0-9._%+-]` of a local part, as the specification lists them. -/
def isLocalPartChar (c : Char) : Bool :=
  isLowerLetter c || isDigitChar c || c = '.' || c = '_' || c = '%' || c = '+' || c = '-'

/-- The characters `[a-z0-9.-]` of a domain, as the specification lists them. -/
def isDomainChar (c : Char) : Bool := isLowerLetter c || isDigitChar c || c = '.' || c = '-'

/-- The shape `local@domain.tld` as the specification words it: a local part of one or
more characters of `[a-z0-9._%+-]`, a domain of one or more characters of `[a-z0-9.-]`
and a TLD of 2 to 16 lowercase letters. -/
def HasEmailShape (s : List Char) : Prop :=
  ∃ loc dom tld : List Char, s = loc ++ '@' :: (dom ++ '.' :: tld) ∧
    loc ≠ [] ∧ (∀ c ∈ loc, isLocalPartChar c = true) ∧
    dom ≠ [] ∧ (∀ c ∈ dom, isDomainChar c = true) ∧
    2 ≤ tld.length ∧ tld.length ≤ 16 ∧ ∀ c ∈ tld, isLowerLetter c = true

end models

/-! ## A users table with or without its unique indexes, and sequences of writes -/

namespace models

/-- A users table behind the `gormDB` interface, with the two unique indexes of the
`User` struct (`email`, `remember_hash`) when `indexes` is true and without them when it
is false; the primary key is enforced in both. -/
def tableDB (indexes : Bool) : gormDB (List User) where
  First w dst rows :=
    match rows.find? w.holds with
    | some row => (({ row with Password := dst.Password, Remember := dst.Remember }, none), rows)
    | none => ((dst, some Err.ErrRecordNotFound), rows)
  Create user rows :=
    let u1 : User := { user with ID := if user.ID = 0 then memNextID rows else user.ID }
    if rows.any (fun row => row.ID = u1.ID) || (indexes && memConflict rows u1) then
      ((user, some (Err.other "duplicate key value")), rows)
    else ((u1, none), rows ++ [u1.persisted])
  Save user rows :=
    if rows.any (fun row => row.ID = user.ID) then
      if indexes && rows.any (fun row => row.ID ≠ user.ID &&
          (row.Email = user.Email || row.RememberHash = user.RememberHash)) then
        ((user, some (Err.other "duplicate key value")), rows)
      else
        ((user, none), rows.map fun row => if row.ID = user.ID then user.persisted else row)
    else
      let u1 : User := { user with ID := if user.ID = 0 then memNextID rows else user.ID }
      if rows.any (fun row => row.ID = u1.ID) || (indexes && memConflict rows u1) then
        ((user, some (Err.other "duplicate key value")), rows)
      else ((u1, none), rows ++ [u1.persisted])
  Delete id rows :=
    if id = 0 then (none, []) else (none, rows.filter fun row => row.ID ≠ id)

/-- The validator of `NewUserService` over the table. -/
def tableValidator (indexes : Bool) (hmac : hash.HMAC) (pepper : String) :
    userValidator (List User) :=
  newUserValidator (userGorm.toUserDB { db := tableDB indexes }) hmac pepper

/-- A call that writes a user: `Create` or `Update`. -/
inductive UserWrite where
  | Create (user : User)
  | Update (user : User)
  deriving DecidableEq, Repr

/-- The table after a sequence of calls to the validator, executed one after another.
Each call comes with what the packages return during it: every call draws its own
random token and its own bcrypt salt. A call that fails leaves the table as it was. -/
def tableAfter (uv : userValidator (List User)) :
    List (Packages × UserWrite) → List User → List User
  | [], rows => rows
  | (x, UserWrite.Create user) :: calls, rows =>
    tableAfter uv calls (uv.Create x user rows).2
  | (x, UserWrite.Update user) :: calls, rows =>
    tableAfter uv calls (uv.Update x user rows).2

/-- The primary key of a table: no two rows share an ID, and no row has the ID 0 (the
key is serial, from 1). -/
def PrimaryKeyOK (rows : List User) : Prop :=
  (rows.map User.ID).Nodup ∧ 0 ∉ rows.map User.ID

/-- No two users of the table share an email. -/
def EmailsDistinct (rows : List User) : Prop := (rows.map User.Email).Nodup

end models

/-! ## `controllers/users.go`: `Logout` -/

namespace controllers

/-- The fields of `http.Cookie` that the handlers set, without `Expires`: `Logout` sets
it to `time.Now()`, the time of the call. -/
structure Cookie where
  Name : String
  Value : String
  HttpOnly : Bool
  deriving DecidableEq, Repr

/-- What a handler writes to the `http.ResponseWriter`: the cookies set and the
redirect, a location with its status code. -/
structure Response where
  cookies : List Cookie
  redirect : Option (String × Nat)
  deriving DecidableEq, Repr

/-- The struct `Users`, without its two views. -/
structure Users (τ : Type) where
  us : models.userService τ

/-- The handler `Logout`. `user` is the user of the request's context: the route is
behind `RequireUser`, which redirects to the login page when there is none. The errors
of `rand.RememberToken` and of `Update` are discarded; with the former the token is the
empty string that `rand.String` returns beside its error. The result is the response,
the user behind the pointer and the store after the call. -/
def Users.Logout {τ : Type} (x : Packages) (u : Users τ) (user : models.User) (t : τ) :
    Response × models.User × τ :=
  let cookie : Cookie := { Name := "remember_token", Value := "", HttpOnly := true }
  let token : String :=
    match rand.RememberToken x with
    | Except.ok tok => tok
    | Except.error _ => ""
  let r := u.us.UserDB.Update { user with Remember := token } t
  ({ cookies := [cookie], redirect := some ("/", 302) }, r.1.1, r.2)

end controllers

namespace models

/-- The store `db` while the database refuses writes: `Update` returns an error and
changes neither the user nor the store. -/
def UserDB.refusingUpdate {τ : Type} (db : UserDB τ) : UserDB τ :=
  { db with Update := fun user t => ((user, some (Err.other "write refused")), t) }

/-- The controller over the table of the reference instance while the database refuses
writes. -/
def demoUsersRefused (x : Packages) : controllers.Users (List User) :=
  { us := (newUserValidator memStore.refusingUpdate (hash.NewHMAC "secret-hmac-key")
      "secret-pepper").service x }

/-- The stand-ins for the packages with a random source that fails. -/
def demoPackagesNoRandom : Packages :=
  { demoPackages with randRead := Except.error (Err.other "crypto/rand: read failed") }

/-- The stand-ins for the packages with a random source that writes `5 * i + 1`. -/
def demoPackagesNext : Packages :=
  { demoPackages with randRead := Except.ok fun i => 5 * i + 1 }

/-- The controller over the table without indexes, with the keys of the reference
instance. -/
def demoUsers (x : Packages) : controllers.Users (List User) :=
  { us := (tableValidator false (hash.NewHMAC "secret-hmac-key") "secret-pepper").service x }

/-- The token that `Create` gave `demoUser`. -/
def demoToken : String := "AwoRGB8mLTQ7QklQV15lbHN6gYiPlp2kq7K5wMfO1dw="

end models

/-! ## Steps that all return nil -/

namespace models

/-- Every step of `steps` returns nil when the steps are run in order on `user`: each
step, run on the user and the store that the steps before it left, returns nil. -/
def userStepsAllNil {τ : Type} (steps : List (userValidateFunc τ)) (user : User) (t : τ) :
    Prop :=
  ∀ pre f post, steps = pre ++ f :: post →
    ∃ u t1, runUserValFuncs user pre t = ((u, none), t1) ∧ (f u t1).1.2 = none

/-- Every step of `steps` returns nil when the steps are run in order on `gallery`. -/
def galleryStepsAllNil {τ : Type} (steps : List (galleryValidateFunc τ)) (gallery : Gallery)
    (t : τ) : Prop :=
  ∀ pre f post, steps = pre ++ f :: post →
    ∃ g t1, runGalleryValFuncs gallery pre t = ((g, none), t1) ∧ (f g t1).1.2 = none

/-- A gallery validator over a store that keeps nothing and accepts every call. -/
def demoGalleryValidator : galleryValidator Unit :=
  { GalleryDB :=
      { ByUserID := fun _ t => ((none, none), t)
        ByID := fun _ t => ((none, none), t)
        Create := fun g t => ((g, none), t)
        Update := fun g t => ((g, none), t)
        Delete := fun g t => ((g, none), t) } }

end models

/-! ## Lemmas -/

namespace models

theorem runUserValFuncs_nil_ok {τ : Type} (u u1 : User) (t t1 : τ) :
    runUserValFuncs u [] t = ((u1, none), t1) ↔ u1 = u ∧ t1 = t := by
  simp [runUserValFuncs, eq_comm]

theorem runUserValFuncs_cons_ok {τ : Type} (fn : userValidateFunc τ)
    (fns : List (userValidateFunc τ)) (u u1 : User) (t t1 : τ) :
    runUserValFuncs u (fn :: fns) t = ((u1, none), t1) ↔
      ∃ um tm, fn u t = ((um, none), tm) ∧ runUserValFuncs um fns tm = ((u1, none), t1) := by
  rcases h : fn u t with ⟨⟨um, _ | e⟩, tm⟩
  · simp only [runUserValFuncs, h]
    constructor
    · intro h1
      exact ⟨um, tm, rfl, h1⟩
    · rintro ⟨a, b, hab, h1⟩
      cases hab
      exact h1
  · simp only [runUserValFuncs, h]
    constructor
    · intro h1
      cases h1
    · rintro ⟨a, b, hab, _⟩
      cases hab

theorem runUserValFuncs_append {τ : Type} (fs gs : List (userValidateFunc τ)) (u : User)
    (t : τ) :
    runUserValFuncs u (fs ++ gs) t =
      match runUserValFuncs u fs t with
      | ((u1, some err), t1) => ((u1, some err), t1)
      | ((u1, none), t1) => runUserValFuncs u1 gs t1 := by
  induction fs generalizing u t with
  | nil => simp [runUserValFuncs]
  | cons f fs ih =>
    rcases h : f u t with ⟨⟨um, _ | e⟩, tm⟩ <;> simp [runUserValFuncs, h, ih]

namespace userValidator
variable {τ : Type}

theorem passwordRequired_ok (uv : userValidator τ) (u um : User) (t tm : τ)
    (h : uv.passwordRequired u t = ((um, none), tm)) : u.Password ≠ "" ∧ um = u ∧ tm = t := by
  unfold passwordRequired at h
  split at h <;> cases h
  exact ⟨by assumption, rfl, rfl⟩

theorem passwordMinLength_ok (uv : userValidator τ) (u um : User) (t tm : τ)
    (h : uv.passwordMinLength u t = ((um, none), tm)) :
    (u.Password = "" ∨ 8 ≤ u.Password.utf8ByteSize) ∧ um = u ∧ tm = t := by
  unfold passwordMinLength at h
  split at h
  · cases h
    exact ⟨Or.inl (by assumption), rfl, rfl⟩
  · split at h <;> cases h
    exact ⟨Or.inr (by omega), rfl, rfl⟩

theorem bcryptPassword_ok (x : Packages) (uv : userValidator τ) (u um : User) (t tm : τ)
    (h : uv.bcryptPassword x u t = ((um, none), tm)) :
    ((u.Password = "" ∧ um = u) ∨
      (u.Password ≠ "" ∧ ∃ hashed,
        x.bcryptGenerate (u.Password ++ uv.pepper) bcryptDefaultCost = Except.ok hashed ∧
        um = { u with PasswordHash := hashed, Password := "" })) ∧ tm = t := by
  unfold bcryptPassword at h
  split at h
  · cases h
    exact ⟨Or.inl ⟨by assumption, rfl⟩, rfl⟩
  · split at h <;> cases h
    rename_i hne _ hashed hgen
    exact ⟨Or.inr ⟨hne, hashed, hgen, rfl⟩, rfl⟩

theorem passwordHashRequired_ok (uv : userValidator τ) (u um : User) (t tm : τ)
    (h : uv.passwordHashRequired u t = ((um, none), tm)) :
    u.PasswordHash ≠ "" ∧ um = u ∧ tm = t := by
  unfold passwordHashRequired at h
  split at h <;> cases h
  exact ⟨by assumption, rfl, rfl⟩

theorem setRememberIfUnset_ok (x : Packages) (uv : userValidator τ) (u um : User)
    (t tm : τ) (h : uv.setRememberIfUnset x u t = ((um, none), tm)) :
    ((u.Remember ≠ "" ∧ um = u) ∨
      (u.Remember = "" ∧ ∃ tok, rand.RememberToken x = Except.ok tok ∧
        um = { u with Remember := tok })) ∧ tm = t := by
  unfold setRememberIfUnset at h
  split at h
  · cases h
    exact ⟨Or.inl ⟨by assumption, rfl⟩, rfl⟩
  · split at h <;> cases h
    rename_i hne _ tok htok
    exact ⟨Or.inr ⟨by simpa using hne, tok, htok, rfl⟩, rfl⟩

theorem rememberMinBytes_ok (uv : userValidator τ) (u um : User) (t tm : τ)
    (h : uv.rememberMinBytes u t = ((um, none), tm)) :
    (u.Remember = "" ∨ ∃ n : Int, rand.NBytes u.Remember = (n, none) ∧ 32 ≤ n) ∧
      um = u ∧ tm = t := by
  unfold rememberMinBytes at h
  split at h
  · cases h
    exact ⟨Or.inl (by assumption), rfl, rfl⟩
  · split at h
    · cases h
    · split at h <;> cases h
      rename_i n hn hlt
      exact ⟨Or.inr ⟨n, hn, by omega⟩, rfl, rfl⟩

theorem hmacRemember_ok (x : Packages) (uv : userValidator τ) (u um : User) (t tm : τ)
    (h : uv.hmacRemember x u t = ((um, none), tm)) :
    ((u.Remember = "" ∧ um = u) ∨
      (u.Remember ≠ "" ∧ um = { u with RememberHash := uv.hmac.Hash x u.Remember })) ∧
      tm = t := by
  unfold hmacRemember at h
  split at h <;> cases h
  · exact ⟨Or.inl ⟨by assumption, rfl⟩, rfl⟩
  · exact ⟨Or.inr ⟨by assumption, rfl⟩, rfl⟩

theorem rememberHashRequired_ok (uv : userValidator τ) (u um : User) (t tm : τ)
    (h : uv.rememberHashRequired u t = ((um, none), tm)) :
    u.RememberHash ≠ "" ∧ um = u ∧ tm = t := by
  unfold rememberHashRequired at h
  split at h <;> cases h
  exact ⟨by assumption, rfl, rfl⟩

theorem normalizeEmail_ok (x : Packages) (uv : userValidator τ) (u um : User) (t tm : τ)
    (h : uv.normalizeEmail x u t = ((um, none), tm)) :
    um = { u with Email := strings.TrimSpace (strings.ToLower x u.Email) } ∧ tm = t := by
  unfold normalizeEmail at h
  cases h
  exact ⟨rfl, rfl⟩

theorem requireEmail_ok (uv : userValidator τ) (u um : User) (t tm : τ)
    (h : uv.requireEmail u t = ((um, none), tm)) : u.Email ≠ "" ∧ um = u ∧ tm = t := by
  unfold requireEmail at h
  split at h <;> cases h
  exact ⟨by assumption, rfl, rfl⟩

theorem emailFormat_ok (uv : userValidator τ) (u um : User) (t tm : τ)
    (h : uv.emailFormat u t = ((um, none), tm)) :
    uv.emailRegex.fullMatch u.Email.data = true ∧ um = u ∧ tm = t := by
  unfold emailFormat at h
  split at h <;> cases h
  rename_i hm
  exact ⟨by simpa using hm, rfl, rfl⟩

end userValidator
end models

namespace base64

theorem decodeMap_encode (i : Nat) (h : i < 64) : decodeMap (encode i) = some i := by
  have key : ∀ j : Fin 64, decodeMap (encode j.val) = some j.val := by decide
  exact key ⟨i, h⟩

theorem decodeMap_pad : decodeMap '=' = none := by decide

theorem decodeLoop_sextet (i : Nat) (h : i < 64) (cs : List Char) (si : Nat)
    (dbuf out : List Nat) :
    decodeLoop (encode i :: cs) si dbuf out
      = if dbuf.length = 3 then decodeLoop cs (si + 1) [] (out ++ quantumBytes (dbuf ++ [i]))
        else decodeLoop cs (si + 1) (dbuf ++ [i]) out := by
  rw [decodeLoop, decodeMap_encode i h]

theorem decodeLoop_Encode (bs : List Nat) :
    (∀ b ∈ bs, b < 256) → ∀ (si : Nat) (out : List Nat),
      decodeLoop (Encode bs) si [] out = (out ++ bs, none) := by
  induction bs using Encode.induct with
  | case1 => intro _ si out; simp [Encode, decodeLoop]
  | case2 b0 =>
    intro hb si out
    have h0 : b0 < 256 := hb b0 (by simp)
    simp only [Encode]
    rw [decodeLoop_sextet _ (Nat.mod_lt _ (by norm_num)),
      if_neg (by simp), decodeLoop_sextet _ (Nat.mod_lt _ (by norm_num)), if_neg (by simp)]
    simp [decodeLoop, decodeMap_pad, skipNewlines, quantumBytes]
    omega
  | case3 b0 b1 =>
    intro hb si out
    have h0 : b0 < 256 := hb b0 (by simp)
    have h1 : b1 < 256 := hb b1 (by simp)
    simp only [Encode]
    rw [decodeLoop_sextet _ (Nat.mod_lt _ (by norm_num)),
      if_neg (by simp), decodeLoop_sextet _ (Nat.mod_lt _ (by norm_num)), if_neg (by simp),
      decodeLoop_sextet _ (Nat.mod_lt _ (by norm_num)), if_neg (by simp)]
    simp [decodeLoop, decodeMap_pad, skipNewlines, quantumBytes]
    omega
  | case4 b0 b1 b2 rest ih =>
    intro hb si out
    have h0 : b0 < 256 := hb b0 (by simp)
    have h1 : b1 < 256 := hb b1 (by simp)
    have h2 : b2 < 256 := hb b2 (by simp)
    have hrest : ∀ b ∈ rest, b < 256 := fun b hm => hb b (by simp [hm])
    simp only [Encode]
    rw [decodeLoop_sextet _ (Nat.mod_lt _ (by norm_num)),
      if_neg (by simp), decodeLoop_sextet _ (Nat.mod_lt _ (by norm_num)), if_neg (by simp),
      decodeLoop_sextet _ (Nat.mod_lt _ (by norm_num)), if_neg (by simp),
      decodeLoop_sextet _ (Nat.mod_lt _ (by norm_num)), if_pos (by simp), ih hrest]
    have hq : quantumBytes
        ([] ++ [(b0 * 2 ^ 16 + b1 * 2 ^ 8 + b2) / 2 ^ 18 % 64]
          ++ [(b0 * 2 ^ 16 + b1 * 2 ^ 8 + b2) / 2 ^ 12 % 64]
          ++ [(b0 * 2 ^ 16 + b1 * 2 ^ 8 + b2) / 2 ^ 6 % 64]
          ++ [(b0 * 2 ^ 16 + b1 * 2 ^ 8 + b2) % 64]) = [b0, b1, b2] := by
      simp [quantumBytes]
      omega
    rw [hq]
    simp

/-- Decoding what `EncodeToString` produced gives the bytes back, without error. -/
theorem DecodeString_EncodeToString (bs : List Nat) (hb : ∀ b ∈ bs, b < 256) :
    DecodeString (EncodeToString bs) = (bs, none) := by
  simpa [DecodeString, EncodeToString] using decodeLoop_Encode bs hb 0 []

end base64

theorem randBytes_ok (x : Packages) (n : Nat) (b : List Nat)
    (h : rand.Bytes x n = Except.ok b) : b.length = n ∧ ∀ v ∈ b, v < 256 := by
  unfold rand.Bytes at h
  split at h
  · cases h
  · cases h
    constructor
    · simp
    · intro v hv
      simp only [List.mem_map] at hv
      obtain ⟨i, _, rfl⟩ := hv
      exact Nat.mod_lt _ (by norm_num)

theorem randString_ok (x : Packages) (n : Nat) (t : String)
    (h : rand.String x n = Except.ok t) :
    ∃ b, b.length = n ∧ (∀ v ∈ b, v < 256) ∧ t = base64.EncodeToString b := by
  unfold rand.String at h
  split at h
  · cases h
  · rename_i b hb
    cases h
    exact ⟨b, (randBytes_ok x n b hb).1, (randBytes_ok x n b hb).2, rfl⟩

theorem randNBytes_String (x : Packages) (n : Nat) (t : String)
    (h : rand.String x n = Except.ok t) : rand.NBytes t = ((n : Int), none) := by
  obtain ⟨b, hlen, hb, rfl⟩ := randString_ok x n t h
  simp [rand.NBytes, base64.DecodeString_EncodeToString b hb, hlen]

theorem randRememberToken_ne_empty (x : Packages) (tok : String)
    (h : rand.RememberToken x = Except.ok tok) : tok ≠ "" := by
  intro he
  have h32 := randNBytes_String x rand.RemberTokenBytes tok h
  subst he
  have h0 : rand.NBytes "" = (0, none) := by decide
  rw [h0] at h32
  simp [rand.RemberTokenBytes] at h32

namespace models
namespace userValidator
variable {τ : Type}

/-- The steps of `Create` that come before `emailNotTaken`. -/
theorem createFuncs_dropLast (x : Packages) (uv : userValidator τ) :
    (uv.createFuncs x).dropLast =
      [uv.passwordRequired, uv.passwordMinLength, uv.bcryptPassword x,
        uv.passwordHashRequired, uv.setRememberIfUnset x, uv.rememberMinBytes,
        uv.hmacRemember x, uv.rememberHashRequired, uv.normalizeEmail x, uv.requireEmail,
        uv.emailFormat] := rfl

theorem createFuncs_eq_append (x : Packages) (uv : userValidator τ) :
    uv.createFuncs x = (uv.createFuncs x).dropLast ++ [uv.emailNotTaken x] := rfl

/-- What the eleven steps before `emailNotTaken` have established when they all return
nil: the store is untouched and the user is the given one with the password replaced by
its hash, the token present and hashed, and the email normalised and well-formed. -/
theorem createChecks_ok (x : Packages) (uv : userValidator τ) (user u : User) (t t1 : τ)
    (h : runUserValFuncs user (uv.createFuncs x).dropLast t = ((u, none), t1)) :
    t1 = t ∧ ∃ hashed tok,
      user.Password ≠ "" ∧ 8 ≤ user.Password.utf8ByteSize ∧
      x.bcryptGenerate (user.Password ++ uv.pepper) bcryptDefaultCost = Except.ok hashed ∧
      hashed ≠ "" ∧
      (if user.Remember = "" then rand.RememberToken x = Except.ok tok
        else tok = user.Remember) ∧
      tok ≠ "" ∧ (∃ n : Int, rand.NBytes tok = (n, none) ∧ 32 ≤ n) ∧
      uv.hmac.Hash x tok ≠ "" ∧
      strings.TrimSpace (strings.ToLower x user.Email) ≠ "" ∧
      uv.emailRegex.fullMatch (strings.TrimSpace (strings.ToLower x user.Email)).data = true ∧
      u = { ID := user.ID, Name := user.Name, Age := user.Age,
            Email := strings.TrimSpace (strings.ToLower x user.Email), Password := "",
            PasswordHash := hashed, Remember := tok,
            RememberHash := uv.hmac.Hash x tok } := by
  rw [createFuncs_dropLast] at h
  simp only [runUserValFuncs_cons_ok, runUserValFuncs_nil_ok] at h
  obtain ⟨u1, s1, h1, u2, s2, h2, u3, s3, h3, u4, s4, h4, u5, s5, h5, u6, s6, h6, u7, s7, h7,
    u8, s8, h8, u9, s9, h9, u10, s10, h10, u11, s11, h11, hu, ht⟩ := h
  subst hu ht
  obtain ⟨hpw, e1, e2⟩ := passwordRequired_ok uv _ _ _ _ h1
  subst u1 s1
  obtain ⟨hlen, e1, e2⟩ := passwordMinLength_ok uv _ _ _ _ h2
  subst u2 s2
  obtain ⟨hb, e2⟩ := bcryptPassword_ok x uv _ _ _ _ h3
  subst s3
  obtain ⟨hph, e1, e2⟩ := passwordHashRequired_ok uv _ _ _ _ h4
  subst u4 s4
  obtain ⟨hset, e2⟩ := setRememberIfUnset_ok x uv _ _ _ _ h5
  subst s5
  obtain ⟨hmin, e1, e2⟩ := rememberMinBytes_ok uv _ _ _ _ h6
  subst u6 s6
  obtain ⟨hh, e2⟩ := hmacRemember_ok x uv _ _ _ _ h7
  subst s7
  obtain ⟨hrh, e1, e2⟩ := rememberHashRequired_ok uv _ _ _ _ h8
  subst u8 s8
  obtain ⟨e1, e2⟩ := normalizeEmail_ok x uv _ _ _ _ h9
  subst u9 s9
  obtain ⟨hre, e1, e2⟩ := requireEmail_ok uv _ _ _ _ h10
  subst u10 s10
  obtain ⟨hfm, hu, ht⟩ := emailFormat_ok uv _ _ _ _ h11
  clear h1 h2 h3 h4 h5 h6 h7 h8 h9 h10 h11
  refine ⟨ht, ?_⟩
  have hlen8 := hlen.resolve_left hpw
  rcases hb with ⟨he, _⟩ | ⟨_, hashed, hgen, e3⟩
  · exact absurd he hpw
  subst u3
  simp only at hset hph
  rcases hset with ⟨hne, e5⟩ | ⟨he, tok, hrt, e5⟩
  · subst u5
    simp only at hmin hh hrh hre hfm
    have hn := hmin.resolve_left hne
    rcases hh with ⟨he, _⟩ | ⟨_, e7⟩
    · exact absurd he hne
    subst u7
    exact ⟨hashed, _, hpw, hlen8, hgen, hph, by simp [hne], hne, hn, hrh, hre, hfm, hu⟩
  · subst u5
    have htne : tok ≠ "" := randRememberToken_ne_empty x tok hrt
    simp only at hmin hh hrh hre hfm
    have hn := hmin.resolve_left htne
    rcases hh with ⟨he1, _⟩ | ⟨_, e7⟩
    · exact absurd he1 htne
    subst u7
    exact ⟨hashed, tok, hpw, hlen8, hgen, hph, by simp [he, hrt], htne, hn, hrh, hre, hfm,
      hu⟩

theorem emailNotTaken_ok (x : Packages) (uv : userValidator τ) (u um : User) (t tm : τ)
    (h : uv.emailNotTaken x u t = ((um, none), tm)) :
    um = u ∧ tm = (uv.UserDB.ByEmail (strings.TrimSpace (strings.ToLower x u.Email)) t).2 := by
  unfold emailNotTaken ByEmail at h
  simp only [runUserValFuncs, normalizeEmail] at h
  split at h
  · split at h <;> cases h
    rename_i heq hc
    exact ⟨rfl, by rw [hc]⟩
  · split at h <;> cases h
    rename_i heq hc
    exact ⟨rfl, by rw [hc]⟩

end userValidator
end models

namespace regexp.Regexp

theorem mkCat_fail (b : Regexp) : mkCat fail b = fail := by
  cases b <;> rfl

theorem mkAlt_fail_fail : mkAlt fail fail = fail := rfl

theorem alphabet_mkCat (a b : Regexp) (c : Char) (h : (mkCat a b).alphabet c = true) :
    a.alphabet c = true ∨ b.alphabet c = true := by
  cases a <;> cases b <;> simp_all [mkCat, alphabet]

theorem alphabet_mkAlt (a b : Regexp) (c : Char) (h : (mkAlt a b).alphabet c = true) :
    a.alphabet c = true ∨ b.alphabet c = true := by
  cases a <;> cases b <;> simp_all [mkAlt, alphabet]

theorem deriv_eq_fail (r : Regexp) (c : Char) (h : r.alphabet c = false) :
    r.deriv c = fail := by
  induction r with
  | fail => rfl
  | empty => rfl
  | cls ranges => simp_all [deriv, alphabet]
  | cat a b iha ihb =>
    simp only [alphabet, Bool.or_eq_false_iff] at h
    simp [deriv, iha h.1, ihb h.2, mkCat_fail, mkAlt_fail_fail]
  | alt a b iha ihb =>
    simp only [alphabet, Bool.or_eq_false_iff] at h
    simp [deriv, iha h.1, ihb h.2, mkAlt_fail_fail]
  | star a iha =>
    simp only [alphabet] at h
    simp [deriv, iha h, mkCat_fail]

theorem alphabet_deriv (r : Regexp) (c d : Char) (h : (r.deriv c).alphabet d = true) :
    r.alphabet d = true := by
  induction r with
  | fail => simp [deriv, alphabet] at h
  | empty => simp [deriv, alphabet] at h
  | cls ranges =>
    simp only [deriv] at h
    split at h <;> simp [alphabet] at h
  | cat a b iha ihb =>
    simp only [deriv] at h
    simp only [alphabet, Bool.or_eq_true]
    split at h
    · rcases alphabet_mkAlt _ _ _ h with h1 | h1
      · rcases alphabet_mkCat _ _ _ h1 with h2 | h2
        · exact Or.inl (iha h2)
        · exact Or.inr h2
      · exact Or.inr (ihb h1)
    · rcases alphabet_mkCat _ _ _ h with h2 | h2
      · exact Or.inl (iha h2)
      · exact Or.inr h2
  | alt a b iha ihb =>
    simp only [deriv] at h
    simp only [alphabet, Bool.or_eq_true]
    rcases alphabet_mkAlt _ _ _ h with h1 | h1
    · exact Or.inl (iha h1)
    · exact Or.inr (ihb h1)
  | star a iha =>
    simp only [deriv] at h
    simp only [alphabet]
    rcases alphabet_mkCat _ _ _ h with h2 | h2
    · exact iha h2
    · simpa [alphabet] using h2

theorem foldl_deriv_fail (s : List Char) : s.foldl (fun q c => q.deriv c) fail = fail := by
  induction s with
  | nil => rfl
  | cons c s ih => simpa [List.foldl, deriv] using ih

/-- A string that the expression matches is made of runes of its classes. -/
theorem alphabet_of_fullMatch (s : List Char) :
    ∀ r : Regexp, r.fullMatch s = true → ∀ c ∈ s, r.alphabet c = true := by
  induction s with
  | nil => intro r _ c hc; cases hc
  | cons a s ih =>
    intro r h c hc
    have h1 : (r.deriv a).fullMatch s = true := by simpa [fullMatch, List.foldl] using h
    have ha : r.alphabet a = true := by
      by_contra hn
      have hf := deriv_eq_fail r a (by simpa using hn)
      rw [hf] at h1
      simp [fullMatch, foldl_deriv_fail, nullable] at h1
    rcases List.mem_cons.mp hc with rfl | hc1
    · exact ha
    · exact alphabet_deriv r a c (ih _ h1 c hc1)

end regexp.Regexp

namespace models

/-- The runes of the email pattern are ASCII, none is an upper-case letter and none is
white space. -/
theorem emailPattern_alphabet (c : Char) (h : emailPattern.alphabet c = true) :
    c.toNat ≤ 127 ∧ ¬ ('A'.toNat ≤ c.toNat ∧ c.toNat ≤ 'Z'.toNat) ∧
      strings.unicodeIsSpace c = false := by
  simp only [emailPattern, regexp.Regexp.alphabet, regexp.Regexp.plus,
    regexp.Regexp.rep2to16, regexp.Regexp.upTo, regexp.Regexp.inClass, List.any_cons,
    List.any_nil, Bool.or_false, Bool.or_eq_true, Bool.and_eq_true, decide_eq_true_eq,
    Bool.false_or] at h
  have e1 : 'a'.toNat = 97 := rfl
  have e2 : 'z'.toNat = 122 := rfl
  have e3 : '0'.toNat = 48 := rfl
  have e4 : '9'.toNat = 57 := rfl
  have e5 : '.'.toNat = 46 := rfl
  have e6 : '_'.toNat = 95 := rfl
  have e7 : '%'.toNat = 37 := rfl
  have e8 : '+'.toNat = 43 := rfl
  have e9 : '-'.toNat = 45 := rfl
  have e10 : '@'.toNat = 64 := rfl
  have e11 : 'A'.toNat = 65 := rfl
  have e12 : 'Z'.toNat = 90 := rfl
  simp only [e1, e2, e3, e4, e5, e6, e7, e8, e9, e10] at h
  refine ⟨by omega, by rw [e11, e12]; omega, ?_⟩
  simp only [strings.unicodeIsSpace]
  have hle : c.toNat ≤ 255 := by omega
  simp only [hle, if_true, decide_eq_false_iff_not]
  omega

theorem dropWhile_eq_self {α : Type} (p : α → Bool) (l : List α)
    (h : ∀ a ∈ l, p a = false) : l.dropWhile p = l := by
  cases l with
  | nil => rfl
  | cons a l => simp [List.dropWhile, h a (by simp)]

/-- An address that matches the email pattern is left as it is by normalisation. -/
theorem normalize_of_match (x : Packages) (e : String)
    (h : emailPattern.fullMatch e.data = true) :
    strings.TrimSpace (strings.ToLower x e) = e := by
  have hall := regexp.Regexp.alphabet_of_fullMatch e.data emailPattern h
  have hlow : e.data.map (strings.unicodeToLower x) = e.data := by
    conv => rhs; rw [← List.map_id e.data]
    apply List.map_congr_left
    intro c hc
    obtain ⟨h1, h2, _⟩ := emailPattern_alphabet c (hall c hc)
    show strings.unicodeToLower x c = c
    unfold strings.unicodeToLower
    rw [if_pos h1, if_neg h2]
  have hsp : ∀ c ∈ e.data, strings.unicodeIsSpace c = false :=
    fun c hc => (emailPattern_alphabet c (hall c hc)).2.2
  have hsp2 : ∀ c ∈ e.data.reverse, strings.unicodeIsSpace c = false :=
    fun c hc => hsp c (List.mem_reverse.mp hc)
  simp only [strings.TrimSpace, strings.ToLower, hlow]
  rw [dropWhile_eq_self _ _ hsp, dropWhile_eq_self _ _ hsp2, List.reverse_reverse]

end models

namespace models

namespace userValidator
variable {τ : Type}

/-- When all twelve steps of `Create` return nil, the first eleven did and left the user
that `emailNotTaken` then accepted. -/
theorem createFuncs_ok (x : Packages) (uv : userValidator τ) (user u : User) (t t1 : τ)
    (h : runUserValFuncs user (uv.createFuncs x) t = ((u, none), t1)) :
    runUserValFuncs user (uv.createFuncs x).dropLast t = ((u, none), t) ∧
      uv.emailNotTaken x u t = ((u, none), t1) := by
  rw [createFuncs_eq_append, runUserValFuncs_append] at h
  rcases hr : runUserValFuncs user (uv.createFuncs x).dropLast t with ⟨⟨um, _ | e⟩, tm⟩
  · rw [hr] at h
    simp only [runUserValFuncs_cons_ok, runUserValFuncs_nil_ok] at h
    obtain ⟨u2, t2, h2, hu, ht⟩ := h
    subst hu ht
    obtain ⟨hum, _⟩ := emailNotTaken_ok x uv _ _ _ _ h2
    subst hum
    obtain ⟨htm, _⟩ := createChecks_ok x uv _ _ _ _ hr
    subst htm
    exact ⟨rfl, h2⟩
  · rw [hr] at h
    cases h

/-- A successful `Create` went through the twelve steps and then the store's `Create`. -/
theorem Create_ok (x : Packages) (uv : userValidator τ) (user u1 : User) (t t1 : τ)
    (h : uv.Create x user t = ((u1, none), t1)) :
    ∃ u tm, runUserValFuncs user (uv.createFuncs x).dropLast t = ((u, none), t) ∧
      uv.emailNotTaken x u t = ((u, none), tm) ∧ uv.UserDB.Create u tm = ((u1, none), t1) := by
  unfold Create at h
  split at h
  · cases h
  · rename_i u tm hr
    obtain ⟨h1, h2⟩ := createFuncs_ok x uv _ _ _ _ hr
    exact ⟨u, tm, h1, h2, h⟩

end userValidator

theorem find_append_new {α : Type} (p : α → Bool) (rows : List α) (a : α)
    (hnone : ∀ r ∈ rows, p r = false) (ha : p a = true) :
    (rows ++ [a]).find? p = some a := by
  induction rows with
  | nil => simp [List.find?, ha]
  | cons r rows ih =>
    have hr : p r = false := hnone r (by simp)
    simp only [List.cons_append, List.find?, hr]
    exact ih (fun q hq => hnone q (by simp [hq]))

theorem memDB_Create_ok (u u1 : User) (rows rows1 : List User)
    (h : memDB.Create u rows = ((u1, none), rows1)) :
    u1 = { u with ID := u1.ID } ∧ rows1 = rows ++ [u1.persisted] ∧
      ∀ r ∈ rows, ¬ r.Email = u.Email ∧ ¬ r.RememberHash = u.RememberHash := by
  by_cases hc : memConflict rows
      { u with ID := if u.ID = 0 then memNextID rows else u.ID } = true
  · simp only [memDB, hc, if_true] at h
    cases h
  · simp only [memDB, hc] at h
    cases h
    refine ⟨rfl, rfl, ?_⟩
    intro r hr
    simp only [memConflict, List.any_eq_true, not_exists, not_and, Bool.or_eq_true,
      decide_eq_true_eq, not_or] at hc
    have := hc r hr
    exact ⟨this.1.2, this.2⟩

theorem memStore_CreateWritesOnlyID : memStore.CreateWritesOnlyID := by
  intro u rows
  by_cases hc : memConflict rows
      { u with ID := if u.ID = 0 then memNextID rows else u.ID } = true
  · simp only [memStore, userGorm.toUserDB, userGorm.Create, memDB, hc, if_true]
  · simp only [memStore, userGorm.toUserDB, userGorm.Create, memDB, hc]
    rfl

theorem memStore_AnswersByRemember : memStore.AnswersByRemember := by
  intro u rows u1 rows1 h
  have h1 : memDB.Create u rows = ((u1, none), rows1) := h
  obtain ⟨hu, hrows, hnone⟩ := memDB_Create_ok u u1 rows rows1 h1
  refine ⟨rows1, ?_⟩
  have hfind : rows1.find? (Where.remember_hash u.RememberHash).holds = some u1.persisted := by
    rw [hrows]
    apply find_append_new
    · intro r hr
      have := (hnone r hr).2
      simpa [Where.holds] using this
    · rw [hu]
      simp [Where.holds, User.persisted]
  simp only [memStore, userGorm.toUserDB, userGorm.ByRemember, first, memDB, hfind]
  simp [User.persisted, User.zero]

theorem memStore_AnswersByEmail : memStore.AnswersByEmail := by
  intro u rows u1 rows1 h
  have h1 : memDB.Create u rows = ((u1, none), rows1) := h
  obtain ⟨hu, hrows, hnone⟩ := memDB_Create_ok u u1 rows rows1 h1
  refine ⟨rows1, ?_⟩
  have hfind : rows1.find? (Where.email u.Email).holds = some u1.persisted := by
    rw [hrows]
    apply find_append_new
    · intro r hr
      have := (hnone r hr).1
      simpa [Where.holds] using this
    · rw [hu]
      simp [Where.holds, User.persisted]
  simp only [memStore, userGorm.toUserDB, userGorm.ByEmail, userGorm.withPointer, first, memDB,
    hfind]
  simp [User.persisted, User.zero]

theorem demoPackages_BcryptVerifies : BcryptVerifies demoPackages := by
  intro pwd hashed cost h
  simp only [demoPackages, Except.ok.injEq] at h
  simp [demoPackages, h]

end models

namespace models

theorem utf8ByteSize_go_ge (cs : List Char) : cs.length ≤ String.utf8ByteSize.go cs := by
  induction cs with
  | nil => simp [String.utf8ByteSize.go]
  | cons c cs ih =>
    have hc := Char.utf8Size_pos c
    simp only [String.utf8ByteSize.go, List.length_cons]
    omega

/-- A string has at least as many bytes as characters. -/
theorem length_le_utf8ByteSize (s : String) : s.length ≤ s.utf8ByteSize := by
  cases s with
  | mk data => exact utf8ByteSize_go_ge data

/-- With the length counted in bytes the minimum-length step is as documented: a
non-empty password of fewer than 8 bytes makes `Create` and `Update` fail with
`ErrPasswordTooShort`, the user and the store being left as they were. -/
theorem short_password_rejected {τ : Type} (x : Packages) (uv : userValidator τ)
    (user : User) (t : τ) (hne : user.Password ≠ "") (hlt : user.Password.utf8ByteSize < 8) :
    uv.Create x user t = ((user, some ErrPasswordTooShort), t) ∧
      uv.Update x user t = ((user, some ErrPasswordTooShort), t) := by
  constructor
  · simp [userValidator.Create, userValidator.createFuncs, runUserValFuncs,
      userValidator.passwordRequired, userValidator.passwordMinLength, hne, hlt]
  · simp [userValidator.Update, userValidator.updateFuncs, runUserValFuncs,
      userValidator.passwordMinLength, hne, hlt]

/-- A password of at least 8 characters passes the minimum-length step. -/
theorem long_password_accepted {τ : Type} (uv : userValidator τ) (user : User) (t : τ)
    (h : 8 ≤ user.Password.length) : uv.passwordMinLength user t = ((user, none), t) := by
  have hb := length_le_utf8ByteSize user.Password
  have h8 : ¬ user.Password.utf8ByteSize < 8 := by omega
  simp [userValidator.passwordMinLength, h8]

end models

namespace models

/-- A list of steps none of which touches the store leaves the store as it was, whatever
the outcome. -/
theorem runUserValFuncs_state {τ : Type} (fns : List (userValidateFunc τ))
    (h : ∀ f ∈ fns, ∀ (u : User) (t : τ), (f u t).2 = t) (u : User) (t : τ) :
    (runUserValFuncs u fns t).2 = t := by
  induction fns generalizing u t with
  | nil => rfl
  | cons f fns ih =>
    have hf := h f (by simp) u t
    rcases hr : f u t with ⟨⟨um, _ | e⟩, tm⟩
    · rw [hr] at hf
      simp only [runUserValFuncs, hr]
      rw [ih (fun g hg => h g (by simp [hg]))]
      exact hf
    · rw [hr] at hf
      simp only [runUserValFuncs, hr]
      exact hf

namespace userValidator
variable {τ : Type}

theorem passwordRequired_state (uv : userValidator τ) (u : User) (t : τ) :
    (uv.passwordRequired u t).2 = t := by
  unfold passwordRequired; split <;> rfl

theorem passwordMinLength_state (uv : userValidator τ) (u : User) (t : τ) :
    (uv.passwordMinLength u t).2 = t := by
  unfold passwordMinLength; split
  · rfl
  · split <;> rfl

theorem bcryptPassword_state (x : Packages) (uv : userValidator τ) (u : User) (t : τ) :
    (uv.bcryptPassword x u t).2 = t := by
  unfold bcryptPassword; split
  · rfl
  · split <;> rfl

theorem passwordHashRequired_state (uv : userValidator τ) (u : User) (t : τ) :
    (uv.passwordHashRequired u t).2 = t := by
  unfold passwordHashRequired; split <;> rfl

theorem setRememberIfUnset_state (x : Packages) (uv : userValidator τ) (u : User) (t : τ) :
    (uv.setRememberIfUnset x u t).2 = t := by
  unfold setRememberIfUnset; split
  · rfl
  · split <;> rfl

theorem rememberMinBytes_state (uv : userValidator τ) (u : User) (t : τ) :
    (uv.rememberMinBytes u t).2 = t := by
  unfold rememberMinBytes; split
  · rfl
  · split
    · rfl
    · split <;> rfl

theorem hmacRemember_state (x : Packages) (uv : userValidator τ) (u : User) (t : τ) :
    (uv.hmacRemember x u t).2 = t := by
  unfold hmacRemember; split <;> rfl

theorem rememberHashRequired_state (uv : userValidator τ) (u : User) (t : τ) :
    (uv.rememberHashRequired u t).2 = t := by
  unfold rememberHashRequired; split <;> rfl

theorem normalizeEmail_state (x : Packages) (uv : userValidator τ) (u : User) (t : τ) :
    (uv.normalizeEmail x u t).2 = t := rfl

theorem requireEmail_state (uv : userValidator τ) (u : User) (t : τ) :
    (uv.requireEmail u t).2 = t := by
  unfold requireEmail; split <;> rfl

theorem emailFormat_state (uv : userValidator τ) (u : User) (t : τ) :
    (uv.emailFormat u t).2 = t := by
  unfold emailFormat; split <;> rfl

/-- The one step that reaches the store makes the `ByEmail` lookup and nothing else. -/
theorem emailNotTaken_state (x : Packages) (uv : userValidator τ) (u : User) (t : τ) :
    (uv.emailNotTaken x u t).2
      = (uv.UserDB.ByEmail (strings.TrimSpace (strings.ToLower x u.Email)) t).2 := by
  unfold emailNotTaken ByEmail
  simp only [runUserValFuncs, normalizeEmail]
  split
  · rename_i heq
    split <;> rw [heq]
  · rename_i heq
    split <;> rw [heq]

/-- The steps of `Update` that come before `emailNotTaken`. -/
theorem updateFuncs_dropLast (x : Packages) (uv : userValidator τ) :
    (uv.updateFuncs x).dropLast =
      [uv.passwordMinLength, uv.bcryptPassword x, uv.passwordHashRequired,
        uv.rememberMinBytes, uv.hmacRemember x, uv.rememberHashRequired,
        uv.normalizeEmail x, uv.requireEmail, uv.emailFormat] := rfl

theorem updateFuncs_eq_append (x : Packages) (uv : userValidator τ) :
    uv.updateFuncs x = (uv.updateFuncs x).dropLast ++ [uv.emailNotTaken x] := rfl

theorem createChecks_state (x : Packages) (uv : userValidator τ) (u : User) (t : τ) :
    (runUserValFuncs u (uv.createFuncs x).dropLast t).2 = t := by
  apply runUserValFuncs_state
  intro f hf v s
  rw [createFuncs_dropLast] at hf
  simp only [List.mem_cons, List.mem_singleton, List.not_mem_nil, or_false] at hf
  rcases hf with rfl | rfl | rfl | rfl | rfl | rfl | rfl | rfl | rfl | rfl | rfl
  · exact passwordRequired_state uv v s
  · exact passwordMinLength_state uv v s
  · exact bcryptPassword_state x uv v s
  · exact passwordHashRequired_state uv v s
  · exact setRememberIfUnset_state x uv v s
  · exact rememberMinBytes_state uv v s
  · exact hmacRemember_state x uv v s
  · exact rememberHashRequired_state uv v s
  · exact normalizeEmail_state x uv v s
  · exact requireEmail_state uv v s
  · exact emailFormat_state uv v s

theorem updateChecks_state (x : Packages) (uv : userValidator τ) (u : User) (t : τ) :
    (runUserValFuncs u (uv.updateFuncs x).dropLast t).2 = t := by
  apply runUserValFuncs_state
  intro f hf v s
  rw [updateFuncs_dropLast] at hf
  simp only [List.mem_cons, List.mem_singleton, List.not_mem_nil, or_false] at hf
  rcases hf with rfl | rfl | rfl | rfl | rfl | rfl | rfl | rfl | rfl
  · exact passwordMinLength_state uv v s
  · exact bcryptPassword_state x uv v s
  · exact passwordHashRequired_state uv v s
  · exact rememberMinBytes_state uv v s
  · exact hmacRemember_state x uv v s
  · exact rememberHashRequired_state uv v s
  · exact normalizeEmail_state x uv v s
  · exact requireEmail_state uv v s
  · exact emailFormat_state uv v s

/-- A run of steps that ends with `emailNotTaken` after steps that do not touch the
store adds no call to the record, or the one `ByEmail` lookup. -/
theorem checks_then_emailNotTaken_log {σ : Type} (x : Packages) (uv : userValidator σ)
    (fns : List (userValidateFunc (σ × List UserCall)))
    (hfns : ∀ (u : User) (t : σ × List UserCall), (runUserValFuncs u fns t).2 = t)
    (user : User) (s : σ) (log : List UserCall) :
    ∃ reads : List UserCall,
      (runUserValFuncs user (fns ++ [uv.tracing.emailNotTaken x]) (s, log)).2.2
        = log ++ reads ∧
      ∀ c ∈ reads, c.isMutating = false := by
  rw [runUserValFuncs_append]
  have hst := hfns user (s, log)
  rcases hr : runUserValFuncs user fns (s, log) with ⟨⟨um, _ | e⟩, tm⟩
  · rw [hr] at hst
    simp only at hst
    subst hst
    have hen := emailNotTaken_state x uv.tracing um (s, log)
    refine ⟨[UserCall.ByEmail (strings.TrimSpace (strings.ToLower x um.Email))], ?_, ?_⟩
    · rcases he : uv.tracing.emailNotTaken x um (s, log) with ⟨⟨v, _ | e⟩, tv⟩
      · rw [he] at hen
        simp only [runUserValFuncs, he]
        simp only at hen
        rw [hen]
        rfl
      · rw [he] at hen
        simp only [runUserValFuncs, he]
        simp only at hen
        rw [hen]
        rfl
    · intro c hc
      simp only [List.mem_singleton] at hc
      subst hc
      rfl
  · rw [hr] at hst
    simp only at hst
    subst hst
    exact ⟨[], by simp, by intro c hc; cases hc⟩

end userValidator

theorem runGalleryValFuncs_state {τ : Type} (fns : List (galleryValidateFunc τ))
    (h : ∀ f ∈ fns, ∀ (g : Gallery) (t : τ), (f g t).2 = t) (g : Gallery) (t : τ) :
    (runGalleryValFuncs g fns t).2 = t := by
  induction fns generalizing g t with
  | nil => rfl
  | cons f fns ih =>
    have hf := h f (by simp) g t
    rcases hr : f g t with ⟨⟨gm, _ | e⟩, tm⟩
    · rw [hr] at hf
      simp only [runGalleryValFuncs, hr]
      rw [ih (fun k hk => h k (by simp [hk]))]
      exact hf
    · rw [hr] at hf
      simp only [runGalleryValFuncs, hr]
      exact hf

theorem galleryValidator.saveValidation_state {τ : Type} (gv : galleryValidator τ)
    (g : Gallery) (t : τ) : (gv.saveValidation g t).2 = t := by
  apply runGalleryValFuncs_state
  intro f hf k s
  simp only [List.mem_cons, List.mem_singleton, List.not_mem_nil, or_false] at hf
  rcases hf with rfl | rfl
  · unfold galleryValidator.userIDRequired; split <;> rfl
  · unfold galleryValidator.titleRequired; split <;> rfl

theorem galleryValidator.deleteValidation_state {τ : Type} (gv : galleryValidator τ)
    (g : Gallery) (t : τ) : (gv.deleteValidation g t).2 = t := by
  apply runGalleryValFuncs_state
  intro f hf k s
  simp only [List.mem_singleton] at hf
  subst hf
  unfold galleryValidator.idBeGreaterThan; split <;> rfl

end models

namespace models
namespace userValidator
variable {τ : Type}

/-- What the nine steps of `Update` before `emailNotTaken` have established when they
all return nil: the store is untouched; the hash of the password is the one given, or
the hash of a new password; the hash of the token is the one given, or the hash of a new
token; the email is normalised and well-formed. -/
theorem updateChecks_ok (x : Packages) (uv : userValidator τ) (user u : User) (t t1 : τ)
    (h : runUserValFuncs user (uv.updateFuncs x).dropLast t = ((u, none), t1)) :
    t1 = t ∧ ∃ ph rh : String,
      ph ≠ "" ∧ rh ≠ "" ∧
      (user.Password = "" → ph = user.PasswordHash) ∧
      (user.Password ≠ "" →
        x.bcryptGenerate (user.Password ++ uv.pepper) bcryptDefaultCost = Except.ok ph) ∧
      (user.Remember = "" → rh = user.RememberHash) ∧
      (user.Remember ≠ "" → rh = uv.hmac.Hash x user.Remember) ∧
      strings.TrimSpace (strings.ToLower x user.Email) ≠ "" ∧
      uv.emailRegex.fullMatch (strings.TrimSpace (strings.ToLower x user.Email)).data = true ∧
      u = { ID := user.ID, Name := user.Name, Age := user.Age,
            Email := strings.TrimSpace (strings.ToLower x user.Email), Password := "",
            PasswordHash := ph, Remember := user.Remember, RememberHash := rh } := by
  rw [updateFuncs_dropLast] at h
  simp only [runUserValFuncs_cons_ok, runUserValFuncs_nil_ok] at h
  obtain ⟨u2, s2, h2, u3, s3, h3, u4, s4, h4, u6, s6, h6, u7, s7, h7,
    u8, s8, h8, u9, s9, h9, u10, s10, h10, u11, s11, h11, hu, ht⟩ := h
  subst hu ht
  obtain ⟨hlen, e1, e2⟩ := passwordMinLength_ok uv _ _ _ _ h2
  subst u2 s2
  obtain ⟨hb, e2⟩ := bcryptPassword_ok x uv _ _ _ _ h3
  subst s3
  obtain ⟨hph, e1, e2⟩ := passwordHashRequired_ok uv _ _ _ _ h4
  subst u4 s4
  obtain ⟨hmin, e1, e2⟩ := rememberMinBytes_ok uv _ _ _ _ h6
  subst u6 s6
  obtain ⟨hh, e2⟩ := hmacRemember_ok x uv _ _ _ _ h7
  subst s7
  obtain ⟨hrh, e1, e2⟩ := rememberHashRequired_ok uv _ _ _ _ h8
  subst u8 s8
  obtain ⟨e1, e2⟩ := normalizeEmail_ok x uv _ _ _ _ h9
  subst u9 s9
  obtain ⟨hre, e1, e2⟩ := requireEmail_ok uv _ _ _ _ h10
  subst u10 s10
  obtain ⟨hfm, hu, ht⟩ := emailFormat_ok uv _ _ _ _ h11
  clear h2 h3 h4 h6 h7 h8 h9 h10 h11
  refine ⟨ht, ?_⟩
  rcases hb with ⟨hpe, e3⟩ | ⟨hpne, hashed, hgen, e3⟩
  · subst u3
    rcases hh with ⟨hre0, e7⟩ | ⟨hrne, e7⟩
    · subst u7
      exact ⟨user.PasswordHash, user.RememberHash, hph, hrh, fun _ => rfl,
        fun hne => absurd hpe hne, fun _ => rfl, fun hne => absurd hre0 hne, hre, hfm,
        by rw [hu]; simp [hpe]⟩
    · subst u7
      exact ⟨user.PasswordHash, uv.hmac.Hash x user.Remember, hph, hrh, fun _ => rfl,
        fun hne => absurd hpe hne, fun he => absurd he hrne, fun _ => rfl, hre, hfm,
        by rw [hu]; simp [hpe]⟩
  · subst u3
    simp only at hh hph hmin
    rcases hh with ⟨hre0, e7⟩ | ⟨hrne, e7⟩
    · subst u7
      exact ⟨hashed, user.RememberHash, hph, hrh, fun he => absurd he hpne, fun _ => hgen,
        fun _ => rfl, fun hne => absurd hre0 hne, hre, hfm, hu⟩
    · subst u7
      exact ⟨hashed, uv.hmac.Hash x user.Remember, hph, hrh, fun he => absurd he hpne,
        fun _ => hgen, fun he => absurd he hrne, fun _ => rfl, hre, hfm, hu⟩

/-- When all ten steps of `Update` return nil, the first nine did and left the user that
`emailNotTaken` then accepted. -/
theorem updateFuncs_ok (x : Packages) (uv : userValidator τ) (user u : User) (t t1 : τ)
    (h : runUserValFuncs user (uv.updateFuncs x) t = ((u, none), t1)) :
    runUserValFuncs user (uv.updateFuncs x).dropLast t = ((u, none), t) ∧
      uv.emailNotTaken x u t = ((u, none), t1) := by
  rw [updateFuncs_eq_append, runUserValFuncs_append] at h
  rcases hr : runUserValFuncs user (uv.updateFuncs x).dropLast t with ⟨⟨um, _ | e⟩, tm⟩
  · rw [hr] at h
    simp only [runUserValFuncs_cons_ok, runUserValFuncs_nil_ok] at h
    obtain ⟨u2, t2, h2, hu, ht⟩ := h
    subst hu ht
    obtain ⟨hum, _⟩ := emailNotTaken_ok x uv _ _ _ _ h2
    subst hum
    obtain ⟨htm, _⟩ := updateChecks_ok x uv _ _ _ _ hr
    subst htm
    exact ⟨rfl, h2⟩
  · rw [hr] at h
    cases h

end userValidator

/-- An address that matches the email pattern has no upper-case letter: lowercasing
leaves it as it is. -/
theorem toLower_of_match (x : Packages) (e : String)
    (h : emailPattern.fullMatch e.data = true) : strings.ToLower x e = e := by
  have hall := regexp.Regexp.alphabet_of_fullMatch e.data emailPattern h
  have hlow : e.data.map (strings.unicodeToLower x) = e.data := by
    conv => rhs; rw [← List.map_id e.data]
    apply List.map_congr_left
    intro c hc
    obtain ⟨h1, h2, _⟩ := emailPattern_alphabet c (hall c hc)
    show strings.unicodeToLower x c = c
    unfold strings.unicodeToLower
    rw [if_pos h1, if_neg h2]
  simp only [strings.ToLower, hlow]

/-- An address that matches the email pattern has no white space: trimming leaves it as
it is. -/
theorem trimSpace_of_match (e : String) (h : emailPattern.fullMatch e.data = true) :
    strings.TrimSpace e = e := by
  have hall := regexp.Regexp.alphabet_of_fullMatch e.data emailPattern h
  have hsp : ∀ c ∈ e.data, strings.unicodeIsSpace c = false :=
    fun c hc => (emailPattern_alphabet c (hall c hc)).2.2
  have hsp2 : ∀ c ∈ e.data.reverse, strings.unicodeIsSpace c = false :=
    fun c hc => hsp c (List.mem_reverse.mp hc)
  simp only [strings.TrimSpace]
  rw [dropWhile_eq_self _ _ hsp, dropWhile_eq_self _ _ hsp2, List.reverse_reverse]

end models

namespace models

/-- Trimming at both ends keeps only runes of the list. -/
theorem mem_of_mem_trim {α : Type} (p : α → Bool) (l : List α) (a : α)
    (h : a ∈ ((l.dropWhile p).reverse.dropWhile p).reverse) : a ∈ l := by
  have h1 : a ∈ (l.dropWhile p).reverse.dropWhile p := List.mem_reverse.mp h
  have h2 : a ∈ (l.dropWhile p).reverse := (List.dropWhile_sublist p).subset h1
  exact (List.dropWhile_sublist p).subset (List.mem_reverse.mp h2)

/-- After the leading run is dropped, dropping the trailing run leaves a list whose
first element does not satisfy the predicate. -/
theorem dropWhile_rdropWhile_dropWhile {α : Type} (p : α → Bool) (l : List α) :
    ((l.dropWhile p).rdropWhile p).dropWhile p = (l.dropWhile p).rdropWhile p := by
  have hpre : (l.dropWhile p).rdropWhile p <+: l.dropWhile p := List.rdropWhile_prefix p _
  have hhead := List.head?_dropWhile_not p l
  obtain ⟨rest, hrest⟩ := hpre
  rcases hT : (l.dropWhile p).rdropWhile p with _ | ⟨a, T⟩
  · rfl
  · rw [hT] at hrest
    rw [← hrest] at hhead
    simp only [List.cons_append, List.head?_cons] at hhead
    rw [List.dropWhile_cons_of_neg (by simp [hhead])]

/-- Trimming at both ends twice is trimming once. -/
theorem trim_trim {α : Type} (p : α → Bool) (l : List α) :
    ((((l.dropWhile p).reverse.dropWhile p).reverse.dropWhile p).reverse.dropWhile p).reverse
      = ((l.dropWhile p).reverse.dropWhile p).reverse := by
  have h1 := dropWhile_rdropWhile_dropWhile p l
  have h2 : ((l.dropWhile p).rdropWhile p).rdropWhile p = (l.dropWhile p).rdropWhile p :=
    List.rdropWhile_idempotent p _
  simp only [List.rdropWhile] at h1 h2
  rw [h1]
  exact h2

/-- Runs of elements that satisfy the predicate, put before and after a list, are
trimmed away. -/
theorem trim_padded {α : Type} (p : α → Bool) (pre l post : List α)
    (hpre : ∀ a ∈ pre, p a = true) (hpost : ∀ a ∈ post, p a = true) :
    (((pre ++ l ++ post).dropWhile p).reverse.dropWhile p).reverse
      = ((l.dropWhile p).reverse.dropWhile p).reverse := by
  rw [List.append_assoc, List.dropWhile_append_of_pos hpre, List.dropWhile_append]
  have hpostnil : post.dropWhile p = [] := List.dropWhile_eq_nil_iff.mpr hpost
  split
  · rename_i hemp
    have hD : l.dropWhile p = [] := by simpa using hemp
    rw [hpostnil, hD]
  · rw [List.reverse_append,
      List.dropWhile_append_of_pos (fun a ha => hpost a (List.mem_reverse.mp ha))]

/-- Lowercasing an ASCII rune twice is lowercasing it once. -/
theorem unicodeToLower_ascii (x : Packages) (c : Char) (h : c.toNat ≤ 127) :
    strings.unicodeToLower x (strings.unicodeToLower x c) = strings.unicodeToLower x c := by
  have hc : c = Char.ofNat c.toNat := (Char.ofNat_toNat c).symm
  generalize c.toNat = n at hc h
  subst hc
  interval_cases n <;> rfl

/-- White space of ASCII is white space, and lowercasing leaves it as it is. -/
theorem isASCIISpace_spec (x : Packages) (c : Char) (h : isASCIISpace c = true) :
    strings.unicodeIsSpace c = true ∧ strings.unicodeToLower x c = c := by
  have hn : c.toNat = 32 ∨ c.toNat = 9 ∨ c.toNat = 10 ∨ c.toNat = 13 ∨ c.toNat = 11
      ∨ c.toNat = 12 := by
    simp only [isASCIISpace, Bool.or_eq_true, decide_eq_true_eq] at h
    rcases h with ((((h | h) | h) | h) | h) | h
    · subst h; exact Or.inl rfl
    · subst h; exact Or.inr (Or.inl rfl)
    · subst h; exact Or.inr (Or.inr (Or.inl rfl))
    · subst h; exact Or.inr (Or.inr (Or.inr (Or.inl rfl)))
    · exact Or.inr (Or.inr (Or.inr (Or.inr (Or.inl h))))
    · exact Or.inr (Or.inr (Or.inr (Or.inr (Or.inr h))))
  have hc : c = Char.ofNat c.toNat := (Char.ofNat_toNat c).symm
  generalize c.toNat = n at hc hn
  subst hc
  rcases hn with rfl | rfl | rfl | rfl | rfl | rfl <;> exact ⟨rfl, rfl⟩

end models

namespace models

theorem flatten_set_perm {α : Type} (ret : List (List α)) (b : Nat) (bucket : List α) (a : α)
    (h : ret[b]? = some bucket) :
    (ret.set b (bucket ++ [a])).flatten.Perm (ret.flatten ++ [a]) := by
  induction ret generalizing b with
  | nil => simp at h
  | cons r rs ih =>
    cases b with
    | zero =>
      simp only [List.getElem?_cons_zero, Option.some.injEq] at h
      subst h
      simp only [List.set_cons_zero, List.flatten_cons, List.append_assoc]
      exact List.Perm.append_left _ List.perm_append_comm
    | succ b =>
      simp only [List.getElem?_cons_succ] at h
      simp only [List.set_cons_succ, List.flatten_cons, List.append_assoc]
      exact List.Perm.append_left _ (ih b h)

theorem bucket_length {n k b : Nat} (hn : 0 < n) (hb : b = k % n) (bucket done : List Image)
    (hk : done.length = k) (h : ∀ p, bucket[p]? = done[p * n + b]?) :
    bucket.length = k / n := by
  have hkq : k / n * n + k % n = k := Nat.div_add_mod' k n
  have key : ∀ p, bucket.length ≤ p ↔ k / n ≤ p := by
    intro p
    rw [← List.getElem?_eq_none_iff, h p, List.getElem?_eq_none_iff, hk, hb]
    constructor
    · intro h1
      by_contra hlt
      have : (p + 1) * n ≤ k / n * n := Nat.mul_le_mul_right n (by omega)
      have hm : k % n < n := Nat.mod_lt k hn
      rw [Nat.add_mul] at this
      omega
    · intro h1
      have : k / n * n ≤ p * n := Nat.mul_le_mul_right n h1
      omega
  have h1 := (key (k / n)).mpr (Nat.le_refl _)
  have h2 := (key bucket.length).mp (Nat.le_refl _)
  omega

end models
namespace models

theorem mul_add_ne_of_mod_ne {n k b p : Nat} (hb : b < n) (hne : b ≠ k % n) :
    p * n + b ≠ k := by
  intro h
  apply hne
  rw [← h, Nat.mul_comm, Nat.mul_add_mod, Nat.mod_eq_of_lt hb]

/-- One turn of the loop of `ImageSplitN` keeps the buckets as described. -/
theorem Gallery.SplitInv_step {n : Nat} (hn : 0 < n) (done : List Image)
    (ret : List (List Image)) (a : Image) (h : Gallery.SplitInv n done ret) :
    ∃ bucket, ret[done.length % n]? = some bucket ∧
      Gallery.SplitInv n (done ++ [a]) (ret.set (done.length % n) (bucket ++ [a])) := by
  obtain ⟨hlen, hperm, hpos⟩ := h
  have hm : done.length % n < n := Nat.mod_lt _ hn
  obtain ⟨bucket, hbk, hsub, hget⟩ := hpos _ hm
  refine ⟨bucket, hbk, by simpa using hlen, ?_, ?_⟩
  · exact (flatten_set_perm ret _ bucket a hbk).trans (List.Perm.append_right _ hperm)
  · intro b hb
    by_cases hbe : b = done.length % n
    · subst hbe
      have hbl := bucket_length hn rfl bucket done rfl hget
      have hkq : done.length / n * n + done.length % n = done.length :=
        Nat.div_add_mod' _ n
      refine ⟨bucket ++ [a], ?_, ?_, ?_⟩
      · rw [List.getElem?_set_self (by omega)]
      · exact List.Sublist.append hsub (List.Sublist.refl _)
      · intro p
        rcases Nat.lt_trichotomy p (done.length / n) with hp | hp | hp
        · have h1 : (p + 1) * n ≤ done.length / n * n := Nat.mul_le_mul_right n (by omega)
          rw [Nat.add_mul] at h1
          rw [List.getElem?_append_left (by omega), List.getElem?_append_left (by omega)]
          exact hget p
        · subst hp
          rw [hkq, List.getElem?_append_right (by omega),
            List.getElem?_append_right (Nat.le_refl _), hbl]
          simp
        · have h1 : (done.length / n + 1) * n ≤ p * n := Nat.mul_le_mul_right n (by omega)
          rw [Nat.add_mul] at h1
          rw [List.getElem?_eq_none_iff.mpr (by simp; omega),
            List.getElem?_eq_none_iff.mpr (by simp; omega)]
    · obtain ⟨bk, hbk1, hsub1, hget1⟩ := hpos b hb
      refine ⟨bk, ?_, ?_, ?_⟩
      · rw [List.getElem?_set_ne (fun h => hbe h.symm)]
        exact hbk1
      · exact hsub1.trans (List.sublist_append_left _ _)
      · intro p
        rw [hget1 p]
        have hne : p * n + b ≠ done.length := mul_add_ne_of_mod_ne hb hbe
        rcases Nat.lt_or_gt_of_ne hne with hlt | hgt
        · rw [List.getElem?_append_left hlt]
        · rw [List.getElem?_eq_none_iff.mpr (by omega),
            List.getElem?_eq_none_iff.mpr (by simp; omega)]

/-- The loop of `ImageSplitN` ends without a panic for `n > 0`, with the buckets as
described for all images. -/
theorem Gallery.imageSplitLoop_inv {n : Nat} (hn : 0 < n) (rest : List Image) :
    ∀ (done : List Image) (ret : List (List Image)), Gallery.SplitInv n done ret →
      ∃ lists, Gallery.imageSplitLoop n rest done.length ret = Except.ok lists ∧
        Gallery.SplitInv n (done ++ rest) lists := by
  induction rest with
  | nil =>
    intro done ret h
    exact ⟨ret, rfl, by simpa using h⟩
  | cons a rest ih =>
    intro done ret h
    obtain ⟨bucket, hbk, hstep⟩ := Gallery.SplitInv_step hn done ret a h
    obtain ⟨lists, hl, hinv⟩ := ih (done ++ [a]) _ hstep
    refine ⟨lists, ?_, by simpa using hinv⟩
    simp only [Gallery.imageSplitLoop, Nat.ne_of_gt hn, if_false, hbk]
    simpa using hl

theorem Gallery.SplitInv_replicate (n : Nat) :
    Gallery.SplitInv n [] (List.replicate n []) := by
  refine ⟨by simp, ?_, ?_⟩
  · have : (List.replicate n ([] : List Image)).flatten = [] := by
      induction n with
      | zero => rfl
      | succ n ih => simp [List.replicate_succ, ih]
    rw [this]
  · intro b hb
    exact ⟨[], by simp [hb], List.Sublist.refl _, by simp⟩

end models

namespace models

/-- A run fails at the first step that returns an error, whatever steps follow it. -/
theorem runUserValFuncs_fail_at {τ : Type} (pre post : List (userValidateFunc τ))
    (f : userValidateFunc τ) (user u u1 : User) (t t1 t2 : τ) (e : Err)
    (hpre : runUserValFuncs user pre t = ((u, none), t1))
    (hf : f u t1 = ((u1, some e), t2)) :
    runUserValFuncs user (pre ++ f :: post) t = ((u1, some e), t2) := by
  rw [runUserValFuncs_append, hpre]
  simp only [runUserValFuncs, hf]

/-- A run that fails fails at one of its steps, after the steps before it returned
nil. -/
theorem runUserValFuncs_error_split {τ : Type} (fns : List (userValidateFunc τ)) :
    ∀ (user u1 : User) (t t2 : τ) (e : Err),
      runUserValFuncs user fns t = ((u1, some e), t2) →
      ∃ pre f post u t1, fns = pre ++ f :: post ∧
        runUserValFuncs user pre t = ((u, none), t1) ∧ f u t1 = ((u1, some e), t2) := by
  induction fns with
  | nil => intro user u1 t t2 e h; simp [runUserValFuncs] at h
  | cons g gs ih =>
    intro user u1 t t2 e h
    rcases hg : g user t with ⟨⟨um, _ | e1⟩, tm⟩
    · simp only [runUserValFuncs, hg] at h
      obtain ⟨pre, f, post, u, t1, hsplit, hpre, hf⟩ := ih um u1 tm t2 e h
      refine ⟨g :: pre, f, post, u, t1, by rw [hsplit]; rfl, ?_, hf⟩
      simp only [runUserValFuncs, hg]
      exact hpre
    · simp only [runUserValFuncs, hg] at h
      cases h
      exact ⟨[], g, gs, user, t, rfl, rfl, hg⟩

/-- A run returns nil exactly when each of its steps, run after the ones before it,
returns nil. -/
theorem runUserValFuncs_nil_iff {τ : Type} (fns : List (userValidateFunc τ)) (user : User)
    (t : τ) :
    (runUserValFuncs user fns t).1.2 = none ↔
      ∀ pre f post, fns = pre ++ f :: post →
        ∃ u t1, runUserValFuncs user pre t = ((u, none), t1) ∧ (f u t1).1.2 = none := by
  constructor
  · intro h pre f post hsplit
    subst hsplit
    rw [runUserValFuncs_append] at h
    rcases hp : runUserValFuncs user pre t with ⟨⟨u, _ | e⟩, t1⟩
    · refine ⟨u, t1, rfl, ?_⟩
      rw [hp] at h
      rcases hf : f u t1 with ⟨⟨um, _ | e1⟩, tm⟩
      · rfl
      · simp [runUserValFuncs, hf] at h
    · rw [hp] at h
      simp at h
  · intro h
    rcases hr : runUserValFuncs user fns t with ⟨⟨u1, _ | e⟩, t2⟩
    · rfl
    · obtain ⟨pre, f, post, u, t1, hsplit, hpre, hf⟩ :=
        runUserValFuncs_error_split fns user u1 t t2 e hr
      obtain ⟨v, s, hv, hnone⟩ := h pre f post hsplit
      rw [hpre] at hv
      cases hv
      rw [hf] at hnone
      cases hnone

theorem runGalleryValFuncs_append {τ : Type} (fs gs : List (galleryValidateFunc τ))
    (g : Gallery) (t : τ) :
    runGalleryValFuncs g (fs ++ gs) t =
      match runGalleryValFuncs g fs t with
      | ((g1, some err), t1) => ((g1, some err), t1)
      | ((g1, none), t1) => runGalleryValFuncs g1 gs t1 := by
  induction fs generalizing g t with
  | nil => simp [runGalleryValFuncs]
  | cons f fs ih =>
    rcases h : f g t with ⟨⟨gm, _ | e⟩, tm⟩ <;> simp [runGalleryValFuncs, h, ih]

theorem runGalleryValFuncs_fail_at {τ : Type} (pre post : List (galleryValidateFunc τ))
    (f : galleryValidateFunc τ) (gallery g g1 : Gallery) (t t1 t2 : τ) (e : Err)
    (hpre : runGalleryValFuncs gallery pre t = ((g, none), t1))
    (hf : f g t1 = ((g1, some e), t2)) :
    runGalleryValFuncs gallery (pre ++ f :: post) t = ((g1, some e), t2) := by
  rw [runGalleryValFuncs_append, hpre]
  simp only [runGalleryValFuncs, hf]

theorem runGalleryValFuncs_error_split {τ : Type} (fns : List (galleryValidateFunc τ)) :
    ∀ (gallery g1 : Gallery) (t t2 : τ) (e : Err),
      runGalleryValFuncs gallery fns t = ((g1, some e), t2) →
      ∃ pre f post g t1, fns = pre ++ f :: post ∧
        runGalleryValFuncs gallery pre t = ((g, none), t1) ∧
        f g t1 = ((g1, some e), t2) := by
  induction fns with
  | nil => intro gallery g1 t t2 e h; simp [runGalleryValFuncs] at h
  | cons k ks ih =>
    intro gallery g1 t t2 e h
    rcases hk : k gallery t with ⟨⟨gm, _ | e1⟩, tm⟩
    · simp only [runGalleryValFuncs, hk] at h
      obtain ⟨pre, f, post, g, t1, hsplit, hpre, hf⟩ := ih gm g1 tm t2 e h
      refine ⟨k :: pre, f, post, g, t1, by rw [hsplit]; rfl, ?_, hf⟩
      simp only [runGalleryValFuncs, hk]
      exact hpre
    · simp only [runGalleryValFuncs, hk] at h
      cases h
      exact ⟨[], k, ks, gallery, t, rfl, rfl, hk⟩

theorem runGalleryValFuncs_nil_iff {τ : Type} (fns : List (galleryValidateFunc τ))
    (gallery : Gallery) (t : τ) :
    (runGalleryValFuncs gallery fns t).1.2 = none ↔
      ∀ pre f post, fns = pre ++ f :: post →
        ∃ g t1, runGalleryValFuncs gallery pre t = ((g, none), t1) ∧
          (f g t1).1.2 = none := by
  constructor
  · intro h pre f post hsplit
    subst hsplit
    rw [runGalleryValFuncs_append] at h
    rcases hp : runGalleryValFuncs gallery pre t with ⟨⟨g, _ | e⟩, t1⟩
    · refine ⟨g, t1, rfl, ?_⟩
      rw [hp] at h
      rcases hf : f g t1 with ⟨⟨gm, _ | e1⟩, tm⟩
      · rfl
      · simp [runGalleryValFuncs, hf] at h
    · rw [hp] at h
      simp at h
  · intro h
    rcases hr : runGalleryValFuncs gallery fns t with ⟨⟨g1, _ | e⟩, t2⟩
    · rfl
    · obtain ⟨pre, f, post, g, t1, hsplit, hpre, hf⟩ :=
        runGalleryValFuncs_error_split fns gallery g1 t t2 e hr
      obtain ⟨v, s, hv, hnone⟩ := h pre f post hsplit
      rw [hpre] at hv
      cases hv
      rw [hf] at hnone
      cases hnone

end models

namespace base64

/-- The decoder reports nothing but a `CorruptInputError`. -/
theorem decodeLoop_error (cs : List Char) :
    ∀ (si : Nat) (dbuf out bs : List Nat) (e : Err),
      decodeLoop cs si dbuf out = (bs, some e) → ∃ k, e = Err.CorruptInputError k := by
  induction cs with
  | nil =>
    intro si dbuf out bs e h
    unfold decodeLoop at h
    split at h
    · cases h
    · cases h
      exact ⟨_, rfl⟩
  | cons c cs ih =>
    intro si dbuf out bs e h
    unfold decodeLoop at h
    split at h
    · split at h
      · exact ih _ _ _ _ _ h
      · exact ih _ _ _ _ _ h
    · split at h
      · exact ih _ _ _ _ _ h
      · split at h
        · cases h; exact ⟨_, rfl⟩
        · split at h
          · cases h; exact ⟨_, rfl⟩
          · split at h
            · split at h
              · cases h; exact ⟨_, rfl⟩
              · split at h
                · cases h; exact ⟨_, rfl⟩
                · split at h
                  · cases h
                  · cases h; exact ⟨_, rfl⟩
            · split at h
              · cases h
              · cases h; exact ⟨_, rfl⟩

end base64

theorem randNBytes_error (s : String) (n : Int) (e : Err)
    (h : rand.NBytes s = (n, some e)) : n = -1 ∧ ∃ k, e = Err.CorruptInputError k := by
  unfold rand.NBytes at h
  split at h
  · rename_i bs err hd
    cases h
    exact ⟨rfl, base64.decodeLoop_error _ _ _ _ _ _ hd⟩
  · cases h

namespace models
namespace userValidator
variable {τ : Type}

/-- The steps of `Update` before `emailNotTaken` return `ErrEmailTaken` only if the
package `bcrypt` does. -/
theorem updateChecks_error (x : Packages) (uv : userValidator τ)
    (hb : ∀ (p : String) (c : Nat) (e : Err),
      x.bcryptGenerate p c = Except.error e → e ≠ ErrEmailTaken)
    (user u : User) (t t1 : τ) (e : Err)
    (h : runUserValFuncs user (uv.updateFuncs x).dropLast t = ((u, some e), t1)) :
    e ≠ ErrEmailTaken := by
  obtain ⟨pre, f, post, v, s, hsplit, _, hf⟩ := runUserValFuncs_error_split _ _ _ _ _ _ h
  have hmem : f ∈ (uv.updateFuncs x).dropLast := by rw [hsplit]; simp
  rw [updateFuncs_dropLast] at hmem
  simp only [List.mem_cons, List.mem_singleton, List.not_mem_nil, or_false] at hmem
  rcases hmem with rfl | rfl | rfl | rfl | rfl | rfl | rfl | rfl | rfl
  · unfold passwordMinLength at hf
    split at hf
    · cases hf
    · split at hf <;> cases hf
      decide
  · unfold bcryptPassword at hf
    split at hf
    · cases hf
    · split at hf
      · rename_i err hg
        cases hf
        exact hb _ _ _ hg
      · cases hf
  · unfold passwordHashRequired at hf
    split at hf <;> cases hf
    decide
  · unfold rememberMinBytes at hf
    split at hf
    · cases hf
    · split at hf
      · rename_i n err hn
        cases hf
        obtain ⟨_, k, hk⟩ := randNBytes_error _ _ _ hn
        rw [hk]
        intro hc
        cases hc
      · split at hf <;> cases hf
        decide
  · unfold hmacRemember at hf
    split at hf <;> cases hf
  · unfold rememberHashRequired at hf
    split at hf <;> cases hf
    decide
  · unfold normalizeEmail at hf
    cases hf
  · unfold requireEmail at hf
    split at hf <;> cases hf
    decide
  · unfold emailFormat at hf
    split at hf <;> cases hf
    decide

/-- The validator's `ByEmail` is the store's `ByEmail` on the normalised address. -/
theorem ByEmail_eq (x : Packages) (uv : userValidator τ) (email : String) (t : τ) :
    uv.ByEmail x email t
      = uv.UserDB.ByEmail (strings.TrimSpace (strings.ToLower x email)) t := by
  simp [ByEmail, runUserValFuncs, normalizeEmail]

end userValidator
end models
namespace models

/-- The table's `ByEmail` fails with nothing but `ErrNotFound`. -/
theorem memStore_ByEmail_failed (e : String) (rows rows1 : List User) (p : Option User)
    (err : Err) (h : memStore.ByEmail e rows = (Lookup.failed p err, rows1)) :
    err = ErrNotFound := by
  simp only [memStore, userGorm.toUserDB, userGorm.ByEmail, first, memDB] at h
  cases hf : rows.find? (Where.email e).holds with
  | none =>
    simp only [hf, if_true, userGorm.withPointer] at h
    cases h
    rfl
  | some row =>
    simp [hf, userGorm.withPointer] at h

/-- The table's `Update` fails with nothing but a duplicate key. -/
theorem memStore_Update_error (u : User) (rows : List User) (err : Err)
    (h : (memStore.Update u rows).1.2 = some err) : err = Err.other "duplicate key value" := by
  simp only [memStore, userGorm.toUserDB, userGorm.Update, memDB] at h
  split at h
  · cases h
  · split at h <;> split at h <;> cases h <;> rfl

end models

namespace models

/-- What every step of a list keeps true of the user, the run keeps true of it, whatever
the outcome. -/
theorem runUserValFuncs_keeps {τ : Type} (P : User → Prop) (fns : List (userValidateFunc τ))
    (h : ∀ f ∈ fns, ∀ (u : User) (t : τ), P u → P (f u t).1.1) (u : User) (t : τ)
    (hu : P u) : P (runUserValFuncs u fns t).1.1 := by
  induction fns generalizing u t with
  | nil => exact hu
  | cons f fns ih =>
    have hf := h f (by simp) u t hu
    rcases hr : f u t with ⟨⟨um, _ | e⟩, tm⟩
    · rw [hr] at hf
      simp only [runUserValFuncs, hr]
      exact ih (fun g hg => h g (by simp [hg])) um tm hf
    · rw [hr] at hf
      simp only [runUserValFuncs, hr]
      exact hf

namespace userValidator
variable {τ : Type}

theorem passwordRequired_user (uv : userValidator τ) (u : User) (t : τ) :
    (uv.passwordRequired u t).1.1 = u := by
  unfold passwordRequired; split <;> rfl

theorem passwordMinLength_user (uv : userValidator τ) (u : User) (t : τ) :
    (uv.passwordMinLength u t).1.1 = u := by
  unfold passwordMinLength; split
  · rfl
  · split <;> rfl

theorem passwordHashRequired_user (uv : userValidator τ) (u : User) (t : τ) :
    (uv.passwordHashRequired u t).1.1 = u := by
  unfold passwordHashRequired; split <;> rfl

theorem rememberMinBytes_user (uv : userValidator τ) (u : User) (t : τ) :
    (uv.rememberMinBytes u t).1.1 = u := by
  unfold rememberMinBytes; split
  · rfl
  · split
    · rfl
    · split <;> rfl

theorem rememberHashRequired_user (uv : userValidator τ) (u : User) (t : τ) :
    (uv.rememberHashRequired u t).1.1 = u := by
  unfold rememberHashRequired; split <;> rfl

theorem requireEmail_user (uv : userValidator τ) (u : User) (t : τ) :
    (uv.requireEmail u t).1.1 = u := by
  unfold requireEmail; split <;> rfl

theorem emailFormat_user (uv : userValidator τ) (u : User) (t : τ) :
    (uv.emailFormat u t).1.1 = u := by
  unfold emailFormat; split <;> rfl

theorem emailNotTaken_user (x : Packages) (uv : userValidator τ) (u : User) (t : τ) :
    (uv.emailNotTaken x u t).1.1 = u := by
  unfold emailNotTaken; split <;> split <;> rfl

theorem normalizeEmail_user (x : Packages) (uv : userValidator τ) (u : User) (t : τ) :
    (uv.normalizeEmail x u t).1.1
      = { u with Email := strings.TrimSpace (strings.ToLower x u.Email) } := rfl

theorem bcryptPassword_user (x : Packages) (uv : userValidator τ) (u : User) (t : τ) :
    (uv.bcryptPassword x u t).1.1
      = { u with
          Password := (uv.bcryptPassword x u t).1.1.Password,
          PasswordHash := (uv.bcryptPassword x u t).1.1.PasswordHash } := by
  unfold bcryptPassword; split
  · rfl
  · split <;> rfl

theorem setRememberIfUnset_user (x : Packages) (uv : userValidator τ) (u : User) (t : τ) :
    (uv.setRememberIfUnset x u t).1.1
      = { u with Remember := (uv.setRememberIfUnset x u t).1.1.Remember } ∧
    (u.Remember ≠ "" → (uv.setRememberIfUnset x u t).1.1 = u) := by
  unfold setRememberIfUnset; split
  · exact ⟨rfl, fun _ => rfl⟩
  · rename_i h
    split
    · exact ⟨rfl, fun hne => absurd hne h⟩
    · exact ⟨rfl, fun hne => absurd hne h⟩

theorem hmacRemember_user (x : Packages) (uv : userValidator τ) (u : User) (t : τ) :
    (uv.hmacRemember x u t).1.1
      = { u with RememberHash := (uv.hmacRemember x u t).1.1.RememberHash } := by
  unfold hmacRemember; split <;> rfl

/-- The four email steps leave the password, its hash, the token and its hash as they
are, whatever their outcome. -/
theorem emailSteps_keep (x : Packages) (uv : userValidator τ) (u : User) (t : τ) :
    (runUserValFuncs u
        [uv.normalizeEmail x, uv.requireEmail, uv.emailFormat, uv.emailNotTaken x] t).1.1
      = { u with
          Email := (runUserValFuncs u
            [uv.normalizeEmail x, uv.requireEmail, uv.emailFormat,
              uv.emailNotTaken x] t).1.1.Email } := by
  have key := runUserValFuncs_keeps
    (fun v : User => v.ID = u.ID ∧ v.Name = u.Name ∧ v.Age = u.Age ∧
      v.Password = u.Password ∧ v.PasswordHash = u.PasswordHash ∧
      v.Remember = u.Remember ∧ v.RememberHash = u.RememberHash)
    [uv.normalizeEmail x, uv.requireEmail, uv.emailFormat, uv.emailNotTaken x]
    (by
      intro f hf v s hv
      simp only [List.mem_cons, List.mem_singleton, List.not_mem_nil, or_false] at hf
      rcases hf with rfl | rfl | rfl | rfl
      · rw [normalizeEmail_user]; exact hv
      · rw [requireEmail_user]; exact hv
      · rw [emailFormat_user]; exact hv
      · rw [emailNotTaken_user]; exact hv)
    u t ⟨rfl, rfl, rfl, rfl, rfl, rfl, rfl⟩
  obtain ⟨h1, h2, h3, h4, h5, h6, h7⟩ := key
  generalize (runUserValFuncs u
    [uv.normalizeEmail x, uv.requireEmail, uv.emailFormat, uv.emailNotTaken x] t).1.1 = w
    at h1 h2 h3 h4 h5 h6 h7 ⊢
  cases w
  cases u
  simp_all

/-- The steps of `Create` leave a token that is set as it is, whatever their outcome. -/
theorem createFuncs_keep_remember (x : Packages) (uv : userValidator τ) (u : User) (t : τ)
    (hne : u.Remember ≠ "") :
    (runUserValFuncs u (uv.createFuncs x) t).1.1.Remember = u.Remember := by
  apply runUserValFuncs_keeps (fun v : User => v.Remember = u.Remember)
  · intro f hf v s hv
    simp only [createFuncs, List.mem_cons, List.mem_singleton, List.not_mem_nil,
      or_false] at hf
    rcases hf with rfl | rfl | rfl | rfl | rfl | rfl | rfl | rfl | rfl | rfl | rfl | rfl
    · rw [passwordRequired_user]; exact hv
    · rw [passwordMinLength_user]; exact hv
    · rw [bcryptPassword_user]; exact hv
    · rw [passwordHashRequired_user]; exact hv
    · rw [(setRememberIfUnset_user x uv v s).2 (by rw [hv]; exact hne)]; exact hv
    · rw [rememberMinBytes_user]; exact hv
    · rw [hmacRemember_user]; exact hv
    · rw [rememberHashRequired_user]; exact hv
    · rw [normalizeEmail_user]; exact hv
    · rw [requireEmail_user]; exact hv
    · rw [emailFormat_user]; exact hv
    · rw [emailNotTaken_user]; exact hv
  · rfl

end userValidator
end models
namespace models
namespace userValidator
variable {τ : Type}

/-- The eight steps of `Create` before the email steps. -/
theorem createFuncs_take (x : Packages) (uv : userValidator τ) :
    (uv.createFuncs x).take 8 =
      [uv.passwordRequired, uv.passwordMinLength, uv.bcryptPassword x,
        uv.passwordHashRequired, uv.setRememberIfUnset x, uv.rememberMinBytes,
        uv.hmacRemember x, uv.rememberHashRequired] := rfl

theorem createFuncs_eq_take_append (x : Packages) (uv : userValidator τ) :
    uv.createFuncs x = (uv.createFuncs x).take 8 ++
      [uv.normalizeEmail x, uv.requireEmail, uv.emailFormat, uv.emailNotTaken x] := rfl

/-- What the eight password and token steps of `Create` have established when they all
return nil. -/
theorem createTokenChecks_ok (x : Packages) (uv : userValidator τ) (user u : User)
    (t t1 : τ)
    (h : runUserValFuncs user ((uv.createFuncs x).take 8) t = ((u, none), t1)) :
    t1 = t ∧ ∃ hashed tok,
      user.Password ≠ "" ∧ 8 ≤ user.Password.utf8ByteSize ∧
      x.bcryptGenerate (user.Password ++ uv.pepper) bcryptDefaultCost = Except.ok hashed ∧
      hashed ≠ "" ∧
      (if user.Remember = "" then rand.RememberToken x = Except.ok tok
        else tok = user.Remember) ∧
      tok ≠ "" ∧ (∃ n : Int, rand.NBytes tok = (n, none) ∧ 32 ≤ n) ∧
      uv.hmac.Hash x tok ≠ "" ∧
      u = { ID := user.ID, Name := user.Name, Age := user.Age, Email := user.Email,
            Password := "", PasswordHash := hashed, Remember := tok,
            RememberHash := uv.hmac.Hash x tok } := by
  rw [createFuncs_take] at h
  simp only [runUserValFuncs_cons_ok, runUserValFuncs_nil_ok] at h
  obtain ⟨u1, s1, h1, u2, s2, h2, u3, s3, h3, u4, s4, h4, u5, s5, h5, u6, s6, h6, u7, s7, h7,
    u8, s8, h8, hu, ht⟩ := h
  subst hu ht
  obtain ⟨hpw, e1, e2⟩ := passwordRequired_ok uv _ _ _ _ h1
  subst u1 s1
  obtain ⟨hlen, e1, e2⟩ := passwordMinLength_ok uv _ _ _ _ h2
  subst u2 s2
  obtain ⟨hb, e2⟩ := bcryptPassword_ok x uv _ _ _ _ h3
  subst s3
  obtain ⟨hph, e1, e2⟩ := passwordHashRequired_ok uv _ _ _ _ h4
  subst u4 s4
  obtain ⟨hset, e2⟩ := setRememberIfUnset_ok x uv _ _ _ _ h5
  subst s5
  obtain ⟨hmin, e1, e2⟩ := rememberMinBytes_ok uv _ _ _ _ h6
  subst u6 s6
  obtain ⟨hh, e2⟩ := hmacRemember_ok x uv _ _ _ _ h7
  subst s7
  obtain ⟨hrh, hu, ht⟩ := rememberHashRequired_ok uv _ _ _ _ h8
  clear h1 h2 h3 h4 h5 h6 h7 h8
  subst hu
  refine ⟨ht, ?_⟩
  have hlen8 := hlen.resolve_left hpw
  rcases hb with ⟨he, _⟩ | ⟨_, hashed, hgen, e3⟩
  · exact absurd he hpw
  subst u3
  simp only at hset hph
  rcases hset with ⟨hne, e5⟩ | ⟨he, tok, hrt, e5⟩
  · subst u5
    simp only at hmin hh hrh
    have hn := hmin.resolve_left hne
    rcases hh with ⟨he, _⟩ | ⟨_, e7⟩
    · exact absurd he hne
    subst e7
    exact ⟨hashed, _, hpw, hlen8, hgen, hph, by simp [hne], hne, hn, hrh, rfl⟩
  · subst u5
    have htne : tok ≠ "" := randRememberToken_ne_empty x tok hrt
    simp only at hmin hh hrh
    have hn := hmin.resolve_left htne
    rcases hh with ⟨he1, _⟩ | ⟨_, e7⟩
    · exact absurd he1 htne
    subst e7
    exact ⟨hashed, tok, hpw, hlen8, hgen, hph, by simp [he, hrt], htne, hn, hrh, rfl⟩

end userValidator
end models

namespace models
namespace userValidator
variable {τ : Type}

/-- The steps of `Create` around `rememberMinBytes`. -/
theorem createFuncs_split_minBytes (x : Packages) (uv : userValidator τ) :
    uv.createFuncs x =
      [uv.passwordRequired, uv.passwordMinLength, uv.bcryptPassword x,
        uv.passwordHashRequired, uv.setRememberIfUnset x] ++
      uv.rememberMinBytes ::
        [uv.hmacRemember x, uv.rememberHashRequired, uv.normalizeEmail x, uv.requireEmail,
          uv.emailFormat, uv.emailNotTaken x] := rfl

/-- The steps of `Update` around `rememberMinBytes`. -/
theorem updateFuncs_split_minBytes (x : Packages) (uv : userValidator τ) :
    uv.updateFuncs x =
      [uv.passwordMinLength, uv.bcryptPassword x, uv.passwordHashRequired] ++
      uv.rememberMinBytes ::
        [uv.hmacRemember x, uv.rememberHashRequired, uv.normalizeEmail x, uv.requireEmail,
          uv.emailFormat, uv.emailNotTaken x] := rfl

/-- The steps before `rememberMinBytes` leave a token that is set, and the token's hash,
as they are and do not touch the store, whatever their outcome. -/
theorem beforeMinBytes_keep (x : Packages) (uv : userValidator τ)
    (fns : List (userValidateFunc τ))
    (hfns : ∀ f ∈ fns, f = uv.passwordRequired ∨ f = uv.passwordMinLength ∨
      f = uv.bcryptPassword x ∨ f = uv.passwordHashRequired ∨ f = uv.setRememberIfUnset x)
    (u : User) (t : τ) (hne : u.Remember ≠ "") :
    (runUserValFuncs u fns t).1.1.Remember = u.Remember ∧
      (runUserValFuncs u fns t).1.1.RememberHash = u.RememberHash ∧
      (runUserValFuncs u fns t).2 = t := by
  have hk := runUserValFuncs_keeps
    (fun v : User => v.Remember = u.Remember ∧ v.RememberHash = u.RememberHash) fns
    (by
      intro f hf v s hv
      rcases hfns f hf with rfl | rfl | rfl | rfl | rfl
      · rw [passwordRequired_user]; exact hv
      · rw [passwordMinLength_user]; exact hv
      · rw [bcryptPassword_user]; exact hv
      · rw [passwordHashRequired_user]; exact hv
      · rw [(setRememberIfUnset_user x uv v s).2 (by rw [hv.1]; exact hne)]; exact hv)
    u t ⟨rfl, rfl⟩
  refine ⟨hk.1, hk.2, ?_⟩
  apply runUserValFuncs_state
  intro f hf v s
  rcases hfns f hf with rfl | rfl | rfl | rfl | rfl
  · exact passwordRequired_state uv v s
  · exact passwordMinLength_state uv v s
  · exact bcryptPassword_state x uv v s
  · exact passwordHashRequired_state uv v s
  · exact setRememberIfUnset_state x uv v s

/-- What `rememberMinBytes` returns for a token that is set and does not decode to 32
bytes or more. -/
theorem rememberMinBytes_rejects (uv : userValidator τ) (u : User) (t : τ) (n : Int)
    (oe : Option Err) (hne : u.Remember ≠ "") (hdec : rand.NBytes u.Remember = (n, oe))
    (hbad : oe = none → n < 32) :
    uv.rememberMinBytes u t = ((u, some (oe.getD ErrBytesTooShort)), t) := by
  unfold rememberMinBytes
  rw [if_neg hne, hdec]
  cases oe with
  | none => simp [hbad rfl]
  | some e => rfl

/-- A run of steps with `rememberMinBytes` in it, after steps that keep the token, fails
for a token that does not decode to 32 bytes or more, with the token's hash and the store
as they were. -/
theorem minBytes_run_fails (x : Packages) (uv : userValidator τ)
    (pre post : List (userValidateFunc τ))
    (hpre : ∀ f ∈ pre, f = uv.passwordRequired ∨ f = uv.passwordMinLength ∨
      f = uv.bcryptPassword x ∨ f = uv.passwordHashRequired ∨ f = uv.setRememberIfUnset x)
    (user : User) (t : τ) (n : Int) (oe : Option Err) (hne : user.Remember ≠ "")
    (hdec : rand.NBytes user.Remember = (n, oe)) (hbad : oe = none → n < 32) :
    (∃ u err, runUserValFuncs user (pre ++ uv.rememberMinBytes :: post) t
        = ((u, some err), t) ∧
      u.Remember = user.Remember ∧ u.RememberHash = user.RememberHash) ∧
    (∀ u5 t5, runUserValFuncs user pre t = ((u5, none), t5) →
      runUserValFuncs user (pre ++ uv.rememberMinBytes :: post) t
        = ((u5, some (oe.getD ErrBytesTooShort)), t)) := by
  obtain ⟨hr, hh, hs⟩ := beforeMinBytes_keep x uv pre hpre user t hne
  have hok : ∀ u5 t5, runUserValFuncs user pre t = ((u5, none), t5) →
      runUserValFuncs user (pre ++ uv.rememberMinBytes :: post) t
        = ((u5, some (oe.getD ErrBytesTooShort)), t) := by
    intro u5 t5 h5
    rw [h5] at hr hs
    simp only at hr hs
    subst hs
    apply runUserValFuncs_fail_at pre post _ user u5 u5 _ _ _ _ h5
    exact rememberMinBytes_rejects uv u5 _ n oe (by rw [hr]; exact hne)
      (by rw [hr]; exact hdec) hbad
  refine ⟨?_, hok⟩
  rcases h5 : runUserValFuncs user pre t with ⟨⟨u5, _ | e⟩, t5⟩
  · rw [h5] at hr hh
    exact ⟨u5, _, hok u5 t5 h5, hr, hh⟩
  · rw [h5] at hr hh hs
    simp only at hr hh hs
    subst hs
    refine ⟨u5, e, ?_, hr, hh⟩
    rw [runUserValFuncs_append, h5]

end userValidator
end models

namespace regexp.Regexp

theorem matches_fail (s : List Char) : ¬ Matches fail s := by
  intro h; cases h

theorem matches_empty_iff (s : List Char) : Matches empty s ↔ s = [] := by
  constructor
  · intro h; cases h; rfl
  · rintro rfl; exact Matches.empty

theorem matches_cls_iff (ranges : List (Char × Char)) (s : List Char) :
    Matches (cls ranges) s ↔ ∃ c, s = [c] ∧ inClass ranges c = true := by
  constructor
  · intro h; cases h with | cls _ c hc => exact ⟨c, rfl, hc⟩
  · rintro ⟨c, rfl, hc⟩; exact Matches.cls ranges c hc

theorem matches_cat_iff (a b : Regexp) (s : List Char) :
    Matches (cat a b) s ↔ ∃ s1 s2, s = s1 ++ s2 ∧ Matches a s1 ∧ Matches b s2 := by
  constructor
  · intro h; cases h with | cat _ _ s1 s2 h1 h2 => exact ⟨s1, s2, rfl, h1, h2⟩
  · rintro ⟨s1, s2, rfl, h1, h2⟩; exact Matches.cat a b s1 s2 h1 h2

theorem matches_alt_iff (a b : Regexp) (s : List Char) :
    Matches (alt a b) s ↔ Matches a s ∨ Matches b s := by
  constructor
  · intro h
    cases h with
    | altLeft _ _ _ h1 => exact Or.inl h1
    | altRight _ _ _ h1 => exact Or.inr h1
  · rintro (h | h)
    · exact Matches.altLeft a b s h
    · exact Matches.altRight a b s h

/-- A match of `a*` on a string that starts with `c` begins with a match of `a` that
starts with `c`. -/
theorem matches_star_cons (a : Regexp) (c : Char) (s : List Char)
    (h : Matches (star a) (c :: s)) :
    ∃ s1 s2, s = s1 ++ s2 ∧ Matches a (c :: s1) ∧ Matches (star a) s2 := by
  generalize hr : star a = r at h
  generalize hs : c :: s = cs at h
  induction h with
  | empty => cases hr
  | cls _ _ _ => cases hr
  | cat _ _ _ _ _ _ _ _ => cases hr
  | altLeft _ _ _ _ _ => cases hr
  | altRight _ _ _ _ _ => cases hr
  | starNil _ => cases hs
  | starCons a1 s1 s2 h1 h2 _ ih2 =>
    cases hr
    cases s1 with
    | nil => exact ih2 rfl hs
    | cons d s1 =>
      simp only [List.cons_append, List.cons.injEq] at hs
      obtain ⟨rfl, rfl⟩ := hs
      exact ⟨s1, s2, rfl, h1, h2⟩

theorem nullable_iff (r : Regexp) : r.nullable = true ↔ Matches r [] := by
  induction r with
  | fail => simp [nullable, matches_fail]
  | empty => simp [nullable, matches_empty_iff]
  | cls ranges => simp [nullable, matches_cls_iff]
  | cat a b iha ihb =>
    simp only [nullable, Bool.and_eq_true, iha, ihb, matches_cat_iff]
    constructor
    · rintro ⟨h1, h2⟩; exact ⟨[], [], rfl, h1, h2⟩
    · rintro ⟨s1, s2, hs, h1, h2⟩
      have h := List.append_eq_nil.mp hs.symm
      rw [h.1] at h1
      rw [h.2] at h2
      exact ⟨h1, h2⟩
  | alt a b iha ihb => simp only [nullable, Bool.or_eq_true, iha, ihb, matches_alt_iff]
  | star a _ => simp [nullable, Matches.starNil]

theorem matches_mkCat (a b : Regexp) (s : List Char) :
    Matches (mkCat a b) s ↔ Matches (cat a b) s := by
  have hf1 : ∀ b, ¬ Matches (cat fail b) s := by
    intro b h
    obtain ⟨_, _, _, h1, _⟩ := (matches_cat_iff _ _ _).mp h
    exact matches_fail _ h1
  have hf2 : ∀ a, ¬ Matches (cat a fail) s := by
    intro a h
    obtain ⟨_, _, _, _, h2⟩ := (matches_cat_iff _ _ _).mp h
    exact matches_fail _ h2
  have he : ∀ b, Matches b s ↔ Matches (cat empty b) s := by
    intro b
    rw [matches_cat_iff]
    constructor
    · intro h; exact ⟨[], s, rfl, Matches.empty, h⟩
    · rintro ⟨s1, s2, rfl, h1, h2⟩
      rw [(matches_empty_iff _).mp h1]
      exact h2
  cases a <;> cases b <;>
    first
    | rfl
    | (simp only [mkCat]; exact he _)
    | (simp only [mkCat]; exact ⟨fun h => absurd h (matches_fail _), fun h => absurd h (hf1 _)⟩)
    | (simp only [mkCat]; exact ⟨fun h => absurd h (matches_fail _), fun h => absurd h (hf2 _)⟩)

theorem matches_mkAlt (a b : Regexp) (s : List Char) :
    Matches (mkAlt a b) s ↔ Matches (alt a b) s := by
  have hl : ∀ b, Matches b s ↔ Matches (alt fail b) s := by
    intro b
    rw [matches_alt_iff]
    exact ⟨Or.inr, fun h => h.resolve_left (matches_fail _)⟩
  have hr : ∀ a, Matches a s ↔ Matches (alt a fail) s := by
    intro a
    rw [matches_alt_iff]
    exact ⟨Or.inl, fun h => h.resolve_right (matches_fail _)⟩
  cases a <;> cases b <;>
    first
    | rfl
    | (simp only [mkAlt]; exact hl _)
    | (simp only [mkAlt]; exact hr _)

/-- The derivative by `c` matches what the expression matches after `c`. -/
theorem matches_deriv (r : Regexp) (c : Char) :
    ∀ s : List Char, Matches (r.deriv c) s ↔ Matches r (c :: s) := by
  induction r with
  | fail => intro s; simp [deriv, matches_fail]
  | empty => intro s; simp [deriv, matches_fail, matches_empty_iff]
  | cls ranges =>
    intro s
    simp only [deriv, matches_cls_iff]
    split
    · rename_i hc
      rw [matches_empty_iff]
      constructor
      · rintro rfl; exact ⟨c, rfl, hc⟩
      · rintro ⟨d, hd, _⟩
        simp only [List.cons.injEq] at hd
        exact hd.2
    · rename_i hc
      constructor
      · intro h; exact absurd h (matches_fail _)
      · rintro ⟨d, hd, hdc⟩
        simp only [List.cons.injEq] at hd
        rw [← hd.1] at hdc
        exact absurd hdc hc
  | cat a b iha ihb =>
    intro s
    have hcat : Matches (cat a b) (c :: s) ↔
        (∃ s1 s2, s = s1 ++ s2 ∧ Matches a (c :: s1) ∧ Matches b s2) ∨
          (Matches a [] ∧ Matches b (c :: s)) := by
      rw [matches_cat_iff]
      constructor
      · rintro ⟨s1, s2, hs, h1, h2⟩
        cases s1 with
        | nil =>
          simp only [List.nil_append] at hs
          rw [← hs] at h2
          exact Or.inr ⟨h1, h2⟩
        | cons d s1 =>
          simp only [List.cons_append, List.cons.injEq] at hs
          obtain ⟨rfl, rfl⟩ := hs
          exact Or.inl ⟨s1, s2, rfl, h1, h2⟩
      · rintro (⟨s1, s2, rfl, h1, h2⟩ | ⟨h1, h2⟩)
        · exact ⟨c :: s1, s2, rfl, h1, h2⟩
        · exact ⟨[], c :: s, rfl, h1, h2⟩
    have hleft : Matches (mkCat (a.deriv c) b) s ↔
        ∃ s1 s2, s = s1 ++ s2 ∧ Matches a (c :: s1) ∧ Matches b s2 := by
      rw [matches_mkCat, matches_cat_iff]
      constructor
      · rintro ⟨s1, s2, hs, h1, h2⟩; exact ⟨s1, s2, hs, (iha s1).mp h1, h2⟩
      · rintro ⟨s1, s2, hs, h1, h2⟩; exact ⟨s1, s2, hs, (iha s1).mpr h1, h2⟩
    rw [hcat]
    simp only [deriv]
    split
    · rename_i hn
      rw [matches_mkAlt, matches_alt_iff, hleft, ihb s]
      have hnil := (nullable_iff a).mp hn
      constructor
      · rintro (h | h)
        · exact Or.inl h
        · exact Or.inr ⟨hnil, h⟩
      · rintro (h | ⟨_, h⟩)
        · exact Or.inl h
        · exact Or.inr h
    · rename_i hn
      rw [hleft]
      have hnil : ¬ Matches a [] := fun h => hn ((nullable_iff a).mpr h)
      constructor
      · intro h
        exact Or.inl h
      · rintro (h | ⟨h, _⟩)
        · exact h
        · exact absurd h hnil
  | alt a b iha ihb =>
    intro s
    simp only [deriv]
    rw [matches_mkAlt, matches_alt_iff, matches_alt_iff, iha s, ihb s]
  | star a iha =>
    intro s
    simp only [deriv]
    rw [matches_mkCat, matches_cat_iff]
    constructor
    · rintro ⟨s1, s2, rfl, h1, h2⟩
      have := Matches.starCons a (c :: s1) s2 ((iha s1).mp h1) h2
      simpa using this
    · intro h
      obtain ⟨s1, s2, hs, h1, h2⟩ := matches_star_cons a c s h
      exact ⟨s1, s2, hs, (iha s1).mpr h1, h2⟩

/-- The matcher decides the language of the expression. -/
theorem fullMatch_iff (s : List Char) :
    ∀ r : Regexp, r.fullMatch s = true ↔ Matches r s := by
  induction s with
  | nil => intro r; exact nullable_iff r
  | cons c s ih =>
    intro r
    have h : r.fullMatch (c :: s) = (r.deriv c).fullMatch s := rfl
    rw [h, ih, matches_deriv]

end regexp.Regexp
namespace regexp.Regexp

theorem matches_star_cls (ranges : List (Char × Char)) (s : List Char) :
    Matches (star (cls ranges)) s ↔ ∀ c ∈ s, inClass ranges c = true := by
  constructor
  · intro h
    generalize hr : star (cls ranges) = r at h
    induction h with
    | empty => cases hr
    | cls _ _ _ => cases hr
    | cat _ _ _ _ _ _ _ _ => cases hr
    | altLeft _ _ _ _ _ => cases hr
    | altRight _ _ _ _ _ => cases hr
    | starNil _ => intro c hc; cases hc
    | starCons a s1 s2 h1 _ _ ih2 =>
      cases hr
      obtain ⟨d, rfl, hd⟩ := (matches_cls_iff _ _).mp h1
      intro c hc
      rcases List.mem_append.mp hc with hc1 | hc2
      · rw [List.mem_singleton.mp hc1]; exact hd
      · exact ih2 rfl c hc2
  · intro h
    induction s with
    | nil => exact Matches.starNil _
    | cons c s ih =>
      have h1 := Matches.starCons (cls ranges) [c] s
        (Matches.cls ranges c (h c (by simp))) (ih (fun d hd => h d (by simp [hd])))
      simpa using h1

theorem matches_plus_cls (ranges : List (Char × Char)) (s : List Char) :
    Matches (plus (cls ranges)) s ↔ s ≠ [] ∧ ∀ c ∈ s, inClass ranges c = true := by
  unfold plus
  rw [matches_cat_iff]
  constructor
  · rintro ⟨s1, s2, rfl, h1, h2⟩
    obtain ⟨d, rfl, hd⟩ := (matches_cls_iff _ _).mp h1
    refine ⟨by simp, ?_⟩
    intro c hc
    rcases List.mem_append.mp hc with hc1 | hc2
    · rw [List.mem_singleton.mp hc1]; exact hd
    · exact (matches_star_cls ranges s2).mp h2 c hc2
  · rintro ⟨hne, h⟩
    cases s with
    | nil => exact absurd rfl hne
    | cons c s =>
      exact ⟨[c], s, rfl, Matches.cls ranges c (h c (by simp)),
        (matches_star_cls ranges s).mpr (fun d hd => h d (by simp [hd]))⟩

theorem matches_upTo_cls (ranges : List (Char × Char)) (n : Nat) :
    ∀ s : List Char, Matches (upTo (cls ranges) n) s ↔
      s.length ≤ n ∧ ∀ c ∈ s, inClass ranges c = true := by
  induction n with
  | zero =>
    intro s
    simp only [upTo, matches_empty_iff]
    constructor
    · rintro rfl; exact ⟨by simp, by intro c hc; cases hc⟩
    · rintro ⟨h, _⟩; exact List.length_eq_zero.mp (by omega)
  | succ n ih =>
    intro s
    simp only [upTo, matches_alt_iff, matches_empty_iff, matches_cat_iff, matches_cls_iff]
    constructor
    · rintro (rfl | ⟨s1, s2, rfl, ⟨d, rfl, hd⟩, h2⟩)
      · exact ⟨by simp, by intro c hc; cases hc⟩
      · obtain ⟨hl, hall⟩ := (ih s2).mp h2
        refine ⟨by simp; omega, ?_⟩
        intro c hc
        rcases List.mem_append.mp hc with hc1 | hc2
        · rw [List.mem_singleton.mp hc1]; exact hd
        · exact hall c hc2
    · rintro ⟨hl, hall⟩
      cases s with
      | nil => exact Or.inl rfl
      | cons c s =>
        refine Or.inr ⟨[c], s, rfl, ⟨c, rfl, hall c (by simp)⟩, (ih s).mpr ⟨?_, ?_⟩⟩
        · simp at hl; omega
        · exact fun d hd => hall d (by simp [hd])

theorem matches_rep2to16_cls (ranges : List (Char × Char)) (s : List Char) :
    Matches (rep2to16 (cls ranges)) s ↔
      2 ≤ s.length ∧ s.length ≤ 16 ∧ ∀ c ∈ s, inClass ranges c = true := by
  unfold rep2to16
  simp only [matches_cat_iff, matches_cls_iff, matches_upTo_cls]
  constructor
  · rintro ⟨s1, s2, rfl, ⟨d1, rfl, hd1⟩, s3, s4, rfl, ⟨d2, rfl, hd2⟩, hl, hall⟩
    refine ⟨by simp, by simp; omega, ?_⟩
    intro c hc
    simp only [List.singleton_append, List.mem_cons] at hc
    rcases hc with rfl | rfl | hc
    · exact hd1
    · exact hd2
    · exact hall c hc
  · rintro ⟨h2, h16, hall⟩
    match s, h2, h16, hall with
    | c1 :: c2 :: rest, _, h16, hall =>
      refine ⟨[c1], c2 :: rest, rfl, ⟨c1, rfl, hall c1 (by simp)⟩, [c2], rest, rfl,
        ⟨c2, rfl, hall c2 (by simp)⟩, ?_, ?_⟩
      · simp at h16; omega
      · exact fun d hd => hall d (by simp [hd])

end regexp.Regexp

namespace models

theorem char_eq_iff (c d : Char) : c = d ↔ d.toNat ≤ c.toNat ∧ c.toNat ≤ d.toNat := by
  constructor
  · rintro rfl; exact ⟨Nat.le_refl _, Nat.le_refl _⟩
  · rintro ⟨h1, h2⟩
    apply Char.ext
    apply UInt32.toNat.inj
    exact Nat.le_antisymm h2 h1

theorem inClass_local (c : Char) :
    regexp.Regexp.inClass
      [('a', 'z'), ('0', '9'), ('.', '.'), ('_', '_'), ('%', '%'), ('+', '+'), ('-', '-')] c
      = isLocalPartChar c := by
  rw [Bool.eq_iff_iff]
  simp only [regexp.Regexp.inClass, isLocalPartChar, isLowerLetter, isDigitChar,
    List.any_cons, List.any_nil, Bool.or_false, Bool.or_eq_true, Bool.and_eq_true,
    decide_eq_true_eq, char_eq_iff c, or_assoc]

theorem inClass_domain (c : Char) :
    regexp.Regexp.inClass [('a', 'z'), ('0', '9'), ('.', '.'), ('-', '-')] c
      = isDomainChar c := by
  rw [Bool.eq_iff_iff]
  simp only [regexp.Regexp.inClass, isDomainChar, isLowerLetter, isDigitChar,
    List.any_cons, List.any_nil, Bool.or_false, Bool.or_eq_true, Bool.and_eq_true,
    decide_eq_true_eq, char_eq_iff c, or_assoc]

theorem inClass_letter (c : Char) :
    regexp.Regexp.inClass [('a', 'z')] c = isLowerLetter c := by
  simp [regexp.Regexp.inClass, isLowerLetter]

theorem inClass_single (d c : Char) :
    regexp.Regexp.inClass [(d, d)] c = true ↔ c = d := by
  simp [regexp.Regexp.inClass, char_eq_iff c d]

/-- The email pattern matches exactly the strings of the shape `local@domain.tld`. -/
theorem emailPattern_fullMatch_iff (s : List Char) :
    emailPattern.fullMatch s = true ↔ HasEmailShape s := by
  rw [regexp.Regexp.fullMatch_iff]
  unfold emailPattern HasEmailShape
  simp only [regexp.Regexp.matches_cat_iff, regexp.Regexp.matches_plus_cls,
    regexp.Regexp.matches_rep2to16_cls, regexp.Regexp.matches_cls_iff, inClass_local,
    inClass_domain, inClass_letter, inClass_single]
  constructor
  · rintro ⟨loc, r1, rfl, ⟨hl, hlc⟩, s1, r2, rfl, ⟨c1, rfl, rfl⟩, dom, r3, rfl, ⟨hd, hdc⟩,
      s2, tld, rfl, ⟨c2, rfl, rfl⟩, h2, h16, htld⟩
    exact ⟨loc, dom, tld, by simp, hl, hlc, hd, hdc, h2, h16, htld⟩
  · rintro ⟨loc, dom, tld, rfl, hl, hlc, hd, hdc, h2, h16, htld⟩
    exact ⟨loc, _, rfl, ⟨hl, hlc⟩, ['@'], _, rfl, ⟨'@', rfl, rfl⟩, dom, _, rfl, ⟨hd, hdc⟩,
      ['.'], tld, rfl, ⟨'.', rfl, rfl⟩, h2, h16, htld⟩

end models
namespace models

/-- The part of a string after the last occurrence of `a` is determined by the string. -/
theorem last_segment_unique {α : Type} (a : α) (xs ys xs1 ys1 : List α)
    (h : xs ++ a :: ys = xs1 ++ a :: ys1) (hy : a ∉ ys) (hy1 : a ∉ ys1) : ys = ys1 := by
  rcases List.append_eq_append_iff.mp h with ⟨m, _, hm⟩ | ⟨m, _, hm⟩
  · cases m with
    | nil => simpa using hm
    | cons b m =>
      simp only [List.cons_append, List.cons.injEq] at hm
      exact absurd (by rw [hm.2]; simp) hy
  · cases m with
    | nil => simpa using hm.symm
    | cons b m =>
      simp only [List.cons_append, List.cons.injEq] at hm
      exact absurd (by rw [hm.2]; simp) hy1

theorem count_at_of_shape (s : List Char) (h : HasEmailShape s) : s.count '@' = 1 := by
  obtain ⟨loc, dom, tld, rfl, _, hlc, _, hdc, _, _, htld⟩ := h
  have h1 : loc.count '@' = 0 :=
    List.count_eq_zero.mpr fun hm => absurd (hlc _ hm) (by decide)
  have h2 : dom.count '@' = 0 :=
    List.count_eq_zero.mpr fun hm => absurd (hdc _ hm) (by decide)
  have h3 : tld.count '@' = 0 :=
    List.count_eq_zero.mpr fun hm => absurd (htld _ hm) (by decide)
  simp [List.count_append, List.count_cons, h1, h2, h3]

theorem tld_length_of_shape (s pre tld : List Char) (h : HasEmailShape s)
    (hs : s = pre ++ '.' :: tld) (hl : ∀ c ∈ tld, isLowerLetter c = true) :
    2 ≤ tld.length ∧ tld.length ≤ 16 := by
  obtain ⟨loc, dom, tld1, rfl, _, _, _, _, h2, h16, htld⟩ := h
  have hsplit : (loc ++ '@' :: dom) ++ '.' :: tld1 = pre ++ '.' :: tld := by
    rw [← hs]
    simp
  have he := last_segment_unique '.' _ _ _ _ hsplit
    (fun hm => absurd (htld _ hm) (by decide)) (fun hm => absurd (hl _ hm) (by decide))
  rw [← he]
  exact ⟨h2, h16⟩

end models

namespace models

theorem table_ByEmail (ix : Bool) (e : String) (rows : List User) :
    (userGorm.toUserDB { db := tableDB ix }).ByEmail e rows =
      match rows.find? (fun row => decide (row.Email = e)) with
      | some row => (Lookup.found { row with Password := "", Remember := "" }, rows)
      | none => (Lookup.failed (some User.zero) ErrNotFound, rows) := by
  have hh : (Where.email e).holds = fun row => decide (row.Email = e) := by
    funext row
    simp [Where.holds]
  simp only [userGorm.toUserDB, userGorm.ByEmail, first, tableDB, hh]
  cases rows.find? (fun row => decide (row.Email = e)) with
  | none => simp [userGorm.withPointer]
  | some row => simp [userGorm.withPointer, User.zero]

theorem table_ByEmail_state (ix : Bool) (e : String) (rows : List User) :
    ((userGorm.toUserDB { db := tableDB ix }).ByEmail e rows).2 = rows := by
  rw [table_ByEmail]
  split <;> rfl

/-- The validation steps of `Create` and `Update` leave the table as it is. -/
theorem table_validation_state (ix : Bool) (x : Packages) (hmac : hash.HMAC)
    (pepper : String) (user : User) (rows : List User) :
    (runUserValFuncs user ((tableValidator ix hmac pepper).createFuncs x) rows).2 = rows ∧
    (runUserValFuncs user ((tableValidator ix hmac pepper).updateFuncs x) rows).2 = rows := by
  have hen : ∀ (v : User) (s : List User),
      ((tableValidator ix hmac pepper).emailNotTaken x v s).2 = s := by
    intro v s
    rw [userValidator.emailNotTaken_state]
    exact table_ByEmail_state ix _ s
  constructor
  · rw [userValidator.createFuncs_eq_append, runUserValFuncs_append]
    have h1 := userValidator.createChecks_state x (tableValidator ix hmac pepper) user rows
    rcases hr : runUserValFuncs user ((tableValidator ix hmac pepper).createFuncs x).dropLast
      rows with ⟨⟨u, _ | e⟩, t1⟩
    · rw [hr] at h1
      simp only at h1
      subst h1
      simp only
      have := hen u t1
      rcases he : (tableValidator ix hmac pepper).emailNotTaken x u t1 with ⟨⟨v, _ | e⟩, t2⟩
      · rw [he] at this; simpa [runUserValFuncs, he] using this
      · rw [he] at this; simpa [runUserValFuncs, he] using this
    · rw [hr] at h1
      exact h1
  · rw [userValidator.updateFuncs_eq_append, runUserValFuncs_append]
    have h1 := userValidator.updateChecks_state x (tableValidator ix hmac pepper) user rows
    rcases hr : runUserValFuncs user ((tableValidator ix hmac pepper).updateFuncs x).dropLast
      rows with ⟨⟨u, _ | e⟩, t1⟩
    · rw [hr] at h1
      simp only at h1
      subst h1
      simp only
      have := hen u t1
      rcases he : (tableValidator ix hmac pepper).emailNotTaken x u t1 with ⟨⟨v, _ | e⟩, t2⟩
      · rw [he] at this; simpa [runUserValFuncs, he] using this
      · rw [he] at this; simpa [runUserValFuncs, he] using this
    · rw [hr] at h1
      exact h1

/-- When `emailNotTaken` returns nil for a user whose email is normalised, every row of
the table with that email has the user's ID. -/
theorem table_emailNotTaken_owner (ix : Bool) (x : Packages) (hmac : hash.HMAC)
    (pepper : String) (u v : User) (rows rows1 : List User)
    (hd : EmailsDistinct rows)
    (hnorm : strings.TrimSpace (strings.ToLower x u.Email) = u.Email)
    (h : (tableValidator ix hmac pepper).emailNotTaken x u rows = ((v, none), rows1)) :
    ∀ row ∈ rows, row.Email = u.Email → row.ID = u.ID := by
  intro row hrow hmail
  unfold userValidator.emailNotTaken at h
  rw [userValidator.ByEmail_eq, hnorm] at h
  simp only [tableValidator, newUserValidator] at h
  rw [table_ByEmail] at h
  cases hf : rows.find? (fun row => decide (row.Email = u.Email)) with
  | none =>
    have := List.find?_eq_none.mp hf row hrow
    simp [hmail] at this
  | some r0 =>
    rw [hf] at h
    simp only at h
    split at h
    · cases h
    · rename_i hid
      have hr0 : r0 ∈ rows := List.mem_of_find?_eq_some hf
      have hm0 : r0.Email = u.Email := by
        have := List.find?_some hf
        simpa using this
      have heq : row = r0 :=
        List.inj_on_of_nodup_map hd hrow hr0 (by rw [hmail, hm0])
      rw [heq]
      simpa using hid

end models
namespace models

theorem memNextID_ne_zero (rows : List User) : memNextID rows ≠ 0 := by
  simp [memNextID]

theorem table_insert_inv (rows : List User) (u1 : User)
    (hpk : PrimaryKeyOK rows) (hd : EmailsDistinct rows) (h0 : u1.ID ≠ 0)
    (hid : ∀ row ∈ rows, row.ID ≠ u1.ID) (hmail : ∀ row ∈ rows, row.Email ≠ u1.Email) :
    PrimaryKeyOK (rows ++ [u1.persisted]) ∧ EmailsDistinct (rows ++ [u1.persisted]) := by
  obtain ⟨hnd, hz⟩ := hpk
  refine ⟨⟨?_, ?_⟩, ?_⟩
  · rw [List.map_append, List.nodup_append]
    refine ⟨hnd, by simp, ?_⟩
    intro a ha hb
    simp only [List.map_cons, List.map_nil, List.mem_singleton, User.persisted] at hb
    obtain ⟨row, hrow, rfl⟩ := List.mem_map.mp ha
    exact hid row hrow hb
  · intro hm
    rw [List.map_append, List.mem_append] at hm
    rcases hm with hm | hm
    · exact hz hm
    · simp only [List.map_cons, List.map_nil, List.mem_singleton, User.persisted] at hm
      exact h0 hm.symm
  · unfold EmailsDistinct at hd ⊢
    rw [List.map_append, List.nodup_append]
    refine ⟨hd, by simp, ?_⟩
    intro a ha hb
    simp only [List.map_cons, List.map_nil, List.mem_singleton, User.persisted] at hb
    obtain ⟨row, hrow, rfl⟩ := List.mem_map.mp ha
    exact hmail row hrow hb

theorem table_replace_inv (rows : List User) (u : User)
    (hpk : PrimaryKeyOK rows) (hd : EmailsDistinct rows)
    (hown : ∀ row ∈ rows, row.Email = u.Email → row.ID = u.ID) :
    PrimaryKeyOK (rows.map fun row => if row.ID = u.ID then u.persisted else row) ∧
      EmailsDistinct (rows.map fun row => if row.ID = u.ID then u.persisted else row) := by
  obtain ⟨hnd, hz⟩ := hpk
  have hids : (rows.map fun row => if row.ID = u.ID then u.persisted else row).map User.ID
      = rows.map User.ID := by
    rw [List.map_map]
    apply List.map_congr_left
    intro row _
    simp only [Function.comp]
    split
    · rename_i h; simp [User.persisted, h]
    · rfl
  refine ⟨⟨by rw [hids]; exact hnd, by rw [hids]; exact hz⟩, ?_⟩
  unfold EmailsDistinct at hd ⊢
  rw [List.map_map]
  apply List.Nodup.map_on _ (List.Nodup.of_map _ hnd)
  intro a ha b hb hab
  simp only [Function.comp] at hab
  by_cases h1 : a.ID = u.ID <;> by_cases h2 : b.ID = u.ID
  · exact List.inj_on_of_nodup_map hnd ha hb (by rw [h1, h2])
  · simp only [h1, h2, if_true, if_false, User.persisted] at hab
    exact absurd (hown b hb hab.symm) h2
  · simp only [h1, h2, if_true, if_false, User.persisted] at hab
    exact absurd (hown a ha hab) h1
  · simp only [h1, h2, if_false] at hab
    exact List.inj_on_of_nodup_map hd ha hb hab

/-- The table's `Create` keeps the emails distinct when every row with the new email
has the new user's ID. -/
theorem table_Create_inv (ix : Bool) (u : User) (rows : List User)
    (hpk : PrimaryKeyOK rows) (hd : EmailsDistinct rows)
    (hown : ∀ row ∈ rows, row.Email = u.Email → row.ID = u.ID) :
    PrimaryKeyOK ((tableDB ix).Create u rows).2 ∧
      EmailsDistinct ((tableDB ix).Create u rows).2 := by
  by_cases hc : (rows.any (fun row => row.ID = (if u.ID = 0 then memNextID rows else u.ID))
      || (ix && memConflict rows
        { u with ID := if u.ID = 0 then memNextID rows else u.ID })) = true
  · simp only [tableDB, hc, if_true]
    exact ⟨hpk, hd⟩
  · simp only [tableDB, hc, if_false]
    simp only [Bool.or_eq_true, not_or, List.any_eq_true, decide_eq_true_eq, not_exists,
      not_and] at hc
    have hfresh := hc.1
    apply table_insert_inv rows _ hpk hd
    · show (if u.ID = 0 then memNextID rows else u.ID) ≠ 0
      split
      · exact memNextID_ne_zero rows
      · assumption
    · exact hfresh
    · intro row hrow hm
      have hid := hown row hrow hm
      by_cases h0 : u.ID = 0
      · exact hpk.2 (List.mem_map.mpr ⟨row, hrow, by rw [hid, h0]⟩)
      · exact hfresh row hrow (by simp [h0, hid])

/-- The table's `Save` keeps the emails distinct when every row with the saved email
has the saved user's ID. -/
theorem table_Save_inv (ix : Bool) (u : User) (rows : List User)
    (hpk : PrimaryKeyOK rows) (hd : EmailsDistinct rows)
    (hown : ∀ row ∈ rows, row.Email = u.Email → row.ID = u.ID) :
    PrimaryKeyOK ((tableDB ix).Save u rows).2 ∧
      EmailsDistinct ((tableDB ix).Save u rows).2 := by
  by_cases he : rows.any (fun row => row.ID = u.ID) = true
  · by_cases hc : (ix && rows.any (fun row => row.ID ≠ u.ID &&
        (row.Email = u.Email || row.RememberHash = u.RememberHash))) = true
    · simp only [tableDB, he, hc, if_true]
      exact ⟨hpk, hd⟩
    · simp only [tableDB, he, hc, if_true, if_false]
      exact table_replace_inv rows u hpk hd hown
  · have hcr := table_Create_inv ix u rows hpk hd hown
    simp only [tableDB] at hcr
    simp only [tableDB, he, if_false]
    exact hcr

end models
namespace models

/-- A call to `Create` of the validator over the table keeps the primary key and the
emails distinct. -/
theorem tableValidator_Create_inv (ix : Bool) (x : Packages) (hmac : hash.HMAC)
    (pepper : String) (user : User) (rows : List User)
    (hpk : PrimaryKeyOK rows) (hd : EmailsDistinct rows) :
    PrimaryKeyOK ((tableValidator ix hmac pepper).Create x user rows).2 ∧
      EmailsDistinct ((tableValidator ix hmac pepper).Create x user rows).2 := by
  have hst := (table_validation_state ix x hmac pepper user rows).1
  unfold userValidator.Create
  rcases hv : runUserValFuncs user ((tableValidator ix hmac pepper).createFuncs x) rows
    with ⟨⟨u, _ | e⟩, t1⟩
  · rw [hv] at hst
    simp only at hst
    subst hst
    obtain ⟨hpre, hent⟩ := userValidator.createFuncs_ok x _ _ _ _ _ hv
    obtain ⟨_, hashed, tok, _, _, _, _, _, _, _, _, _, hfm, hu⟩ :=
      userValidator.createChecks_ok x _ _ _ _ _ hpre
    have hnorm : strings.TrimSpace (strings.ToLower x u.Email) = u.Email := by
      apply normalize_of_match
      rw [hu]
      exact hfm
    have hown := table_emailNotTaken_owner ix x hmac pepper u u t1 t1 hd hnorm hent
    exact table_Create_inv ix u t1 hpk hd hown
  · rw [hv] at hst
    simp only at hst
    subst hst
    exact ⟨hpk, hd⟩

/-- A call to `Update` of the validator over the table keeps the primary key and the
emails distinct. -/
theorem tableValidator_Update_inv (ix : Bool) (x : Packages) (hmac : hash.HMAC)
    (pepper : String) (user : User) (rows : List User)
    (hpk : PrimaryKeyOK rows) (hd : EmailsDistinct rows) :
    PrimaryKeyOK ((tableValidator ix hmac pepper).Update x user rows).2 ∧
      EmailsDistinct ((tableValidator ix hmac pepper).Update x user rows).2 := by
  have hst := (table_validation_state ix x hmac pepper user rows).2
  unfold userValidator.Update
  rcases hv : runUserValFuncs user ((tableValidator ix hmac pepper).updateFuncs x) rows
    with ⟨⟨u, _ | e⟩, t1⟩
  · rw [hv] at hst
    simp only at hst
    subst hst
    obtain ⟨hpre, hent⟩ := userValidator.updateFuncs_ok x _ _ _ _ _ hv
    obtain ⟨_, ph, rh, _, _, _, _, _, _, _, hfm, hu⟩ :=
      userValidator.updateChecks_ok x _ _ _ _ _ hpre
    have hnorm : strings.TrimSpace (strings.ToLower x u.Email) = u.Email := by
      apply normalize_of_match
      rw [hu]
      exact hfm
    have hown := table_emailNotTaken_owner ix x hmac pepper u u t1 t1 hd hnorm hent
    exact table_Save_inv ix u t1 hpk hd hown
  · rw [hv] at hst
    simp only at hst
    subst hst
    exact ⟨hpk, hd⟩

end models

namespace models

theorem table_ByRemember (ix : Bool) (h : String) (rows : List User) :
    (userGorm.toUserDB { db := tableDB ix }).ByRemember h rows =
      match rows.find? (fun row => decide (row.RememberHash = h)) with
      | some row => (Lookup.found { row with Password := "", Remember := "" }, rows)
      | none => (Lookup.failed none ErrNotFound, rows) := by
  have hh : (Where.remember_hash h).holds = fun row => decide (row.RememberHash = h) := by
    funext row
    simp [Where.holds]
  simp only [userGorm.toUserDB, userGorm.ByRemember, first, tableDB, hh]
  cases rows.find? (fun row => decide (row.RememberHash = h)) with
  | none => simp
  | some row => simp [User.zero]

/-- The validator's `ByRemember` is the store's `ByRemember` on the hash of the token,
or on the empty string for the empty token. -/
theorem userValidator.ByRemember_eq {τ : Type} (x : Packages) (uv : userValidator τ)
    (token : String) (t : τ) :
    uv.ByRemember x token t
      = uv.UserDB.ByRemember (if token = "" then "" else uv.hmac.Hash x token) t := by
  by_cases h : token = "" <;>
    simp [userValidator.ByRemember, runUserValFuncs, userValidator.hmacRemember, h, User.zero]

/-- What a lookup by token that finds a user says about the table. -/
theorem table_found_by_token (ix : Bool) (x : Packages) (hmac : hash.HMAC) (pepper : String)
    (token : String) (user : User) (rows rows1 : List User)
    (h : (tableValidator ix hmac pepper).ByRemember x token rows
      = (Lookup.found user, rows1)) :
    ∃ row ∈ rows, row.ID = user.ID ∧ row.RememberHash = user.RememberHash ∧
      user.RememberHash = (if token = "" then "" else hmac.Hash x token) := by
  rw [userValidator.ByRemember_eq] at h
  simp only [tableValidator, newUserValidator] at h
  rw [table_ByRemember] at h
  split at h
  · rename_i row hf
    have hm : row ∈ rows := List.mem_of_find?_eq_some hf
    have hk := List.find?_some hf
    simp only [decide_eq_true_eq] at hk
    simp only [Prod.mk.injEq, Lookup.found.injEq] at h
    obtain ⟨hu, _⟩ := h
    subst hu
    exact ⟨row, hm, rfl, rfl, hk⟩
  · cases h

/-- A successful `Update` of the validator over the table, for a user with a row in the
table and a token set, replaces the rows of that ID by rows with the hash of the
token. -/
theorem table_Update_rotates (ix : Bool) (x : Packages) (hmac : hash.HMAC) (pepper : String)
    (user v : User) (rows rows1 : List User) (hne : user.Remember ≠ "")
    (hrow : ∃ row ∈ rows, row.ID = user.ID)
    (h : (tableValidator ix hmac pepper).Update x user rows = ((v, none), rows1)) :
    (∃ row ∈ rows1, row.ID = user.ID) ∧
      ∀ row ∈ rows1, row.ID = user.ID → row.RememberHash = hmac.Hash x user.Remember := by
  have hst := (table_validation_state ix x hmac pepper user rows).2
  unfold userValidator.Update at h
  rcases hv : runUserValFuncs user ((tableValidator ix hmac pepper).updateFuncs x) rows
    with ⟨⟨u, _ | e⟩, t1⟩
  · rw [hv] at hst h
    simp only at hst h
    subst hst
    obtain ⟨hpre, _⟩ := userValidator.updateFuncs_ok x _ _ _ _ _ hv
    obtain ⟨_, ph, rh, _, _, _, _, _, hrh, _, _, hu⟩ :=
      userValidator.updateChecks_ok x _ _ _ _ _ hpre
    have hrh1 : rh = hmac.Hash x user.Remember := hrh hne
    have huid : u.ID = user.ID := by rw [hu]
    have huh : u.RememberHash = hmac.Hash x user.Remember := by rw [hu]; exact hrh1
    obtain ⟨r0, hr0, hr0id⟩ := hrow
    have hany : t1.any (fun row => row.ID = u.ID) = true := by
      simp only [List.any_eq_true, decide_eq_true_eq]
      exact ⟨r0, hr0, by rw [huid]; exact hr0id⟩
    simp only [tableValidator, newUserValidator, userGorm.toUserDB, userGorm.Update,
      tableDB, hany, if_true] at h
    split at h
    · cases h
    · simp only [Prod.mk.injEq] at h
      obtain ⟨_, hrows⟩ := h
      subst hrows
      constructor
      · refine ⟨u.persisted, ?_, by simp [User.persisted, huid]⟩
        apply List.mem_map.mpr
        exact ⟨r0, hr0, by simp [huid, hr0id]⟩
      · intro row hmem hid
        obtain ⟨r, _, hr⟩ := List.mem_map.mp hmem
        by_cases hc : r.ID = u.ID
        · simp only [hc, if_true] at hr
          rw [← hr]
          simpa [User.persisted] using huh
        · simp only [hc, if_false] at hr
          rw [hr, hid, huid] at hc
          exact absurd rfl hc
  · rw [hv] at h
    cases h

end models

namespace models

/-- A validated call on a user, with the store's calls on record: a step that fails after
steps that returned nil ends the call with its error and no mutating call on record; a
mutating call is on record only when every step returned nil, and then it is the one
call to the store's method, on the validated user. -/
theorem validated_user_call {σ : Type} (steps : List (userValidateFunc (σ × List UserCall)))
    (store : User → σ × List UserCall → (User × Option Err) × (σ × List UserCall))
    (call : User → UserCall)
    (hstore : ∀ u t, (store u t).2.2 = t.2 ++ [call u])
    (hread : ∀ (user : User) (t : σ × List UserCall), ∃ reads : List UserCall,
      (runUserValFuncs user steps t).2.2 = t.2 ++ reads ∧ ∀ c ∈ reads, c.isMutating = false)
    (user : User) (t : σ × List UserCall)
    (op : (User × Option Err) × (σ × List UserCall))
    (hfail : ∀ v err s1, runUserValFuncs user steps t = ((v, some err), s1) →
      op = ((v, some err), s1))
    (hpass : ∀ v s1, runUserValFuncs user steps t = ((v, none), s1) → op = store v s1) :
    (∀ pre f post u u1 t1 t2 e, steps = pre ++ f :: post →
      runUserValFuncs user pre t = ((u, none), t1) → f u t1 = ((u1, some e), t2) →
      op = ((u1, some e), t2) ∧
      ∃ reads : List UserCall, t2.2 = t.2 ++ reads ∧ ∀ c ∈ reads, c.isMutating = false) ∧
    (∀ new : List UserCall, op.2.2 = t.2 ++ new →
      (∃ c ∈ new, c.isMutating = true) →
      userStepsAllNil steps user t ∧
      ∃ (reads : List UserCall) (v : User), (runUserValFuncs user steps t).1 = (v, none) ∧
        new = reads ++ [call v] ∧ ∀ c ∈ reads, c.isMutating = false) := by
  obtain ⟨reads, hreads, hnm⟩ := hread user t
  constructor
  · intro pre f post u u1 t1 t2 e hsplit hpre hf
    have hrun := runUserValFuncs_fail_at pre post f user u u1 t t1 t2 e hpre hf
    rw [← hsplit] at hrun
    rw [hrun] at hreads
    exact ⟨hfail _ _ _ hrun, reads, hreads, hnm⟩
  · intro new hnew hex
    rcases hv : runUserValFuncs user steps t with ⟨⟨v, _ | e⟩, s1⟩
    · rw [hpass v s1 hv] at hnew
      rw [hv] at hreads
      simp only at hnew hreads
      refine ⟨(runUserValFuncs_nil_iff steps user t).mp (by rw [hv]), reads, v, rfl, ?_, hnm⟩
      rw [hstore v s1, hreads, List.append_assoc] at hnew
      exact (List.append_cancel_left hnew).symm
    · rw [hfail v e s1 hv] at hnew
      rw [hv] at hreads
      simp only at hnew hreads
      rw [hreads] at hnew
      have := List.append_cancel_left hnew
      subst this
      obtain ⟨c, hc, hcm⟩ := hex
      rw [hnm c hc] at hcm
      cases hcm

/-- A validated call on a gallery, with the store's calls on record: a step that fails
after steps that returned nil ends the call with its error and the record as it was; a
call is on record only when every step returned nil, and then it is the one call to the
store's method, on the validated gallery. -/
theorem validated_gallery_call {ρ : Type}
    (steps : List (galleryValidateFunc (ρ × List GalleryCall)))
    (store : Gallery → ρ × List GalleryCall →
      (Gallery × Option Err) × (ρ × List GalleryCall))
    (call : Gallery → GalleryCall)
    (hstore : ∀ g t, (store g t).2.2 = t.2 ++ [call g])
    (hstate : ∀ (g : Gallery) (t : ρ × List GalleryCall),
      (runGalleryValFuncs g steps t).2 = t)
    (gallery : Gallery) (t : ρ × List GalleryCall)
    (op : (Gallery × Option Err) × (ρ × List GalleryCall))
    (hfail : ∀ v err s1, runGalleryValFuncs gallery steps t = ((v, some err), s1) →
      op = ((v, some err), s1))
    (hpass : ∀ v s1, runGalleryValFuncs gallery steps t = ((v, none), s1) →
      op = store v s1) :
    (∀ pre f post g g1 t1 t2 e, steps = pre ++ f :: post →
      runGalleryValFuncs gallery pre t = ((g, none), t1) → f g t1 = ((g1, some e), t2) →
      op = ((g1, some e), t2) ∧ t2 = t) ∧
    (∀ new : List GalleryCall, op.2.2 = t.2 ++ new →
      new ≠ [] →
      galleryStepsAllNil steps gallery t ∧
      ∃ v : Gallery, (runGalleryValFuncs gallery steps t).1 = (v, none) ∧
        new = [call v]) := by
  have hst := hstate gallery t
  constructor
  · intro pre f post g g1 t1 t2 e hsplit hpre hf
    have hrun := runGalleryValFuncs_fail_at pre post f gallery g g1 t t1 t2 e hpre hf
    rw [← hsplit] at hrun
    rw [hrun] at hst
    exact ⟨hfail _ _ _ hrun, hst⟩
  · intro new hnew hne
    rcases hv : runGalleryValFuncs gallery steps t with ⟨⟨v, _ | e⟩, s1⟩
    · rw [hpass v s1 hv] at hnew
      rw [hv] at hst
      simp only at hnew hst
      subst hst
      refine ⟨(runGalleryValFuncs_nil_iff steps gallery s1).mp (by rw [hv]), v, rfl, ?_⟩
      rw [hstore v s1] at hnew
      exact (List.append_cancel_left hnew).symm
    · rw [hfail v e s1 hv] at hnew
      rw [hv] at hst
      simp only at hnew hst
      subst hst
      have h0 : s1.2 ++ [] = s1.2 ++ new := by simpa using hnew
      exact absurd (List.append_cancel_left h0).symm hne

end models

/-! ## Theorems -/

namespace models

/-- C8. For a `User` and for a `Gallery` whose ID is 0 the validator's `Delete` returns
`ErrInvalidID`, leaves the entity as it was and makes no call to the wrapped store (the
record of calls and the store are unchanged); for an ID greater than 0 exactly one call,
the store's `Delete` on that entity, is made and its result is returned unchanged. -/
theorem delete_guards_zero_id {σ ρ : Type} (uv : userValidator σ) (gv : galleryValidator ρ)
    (user : User) (gallery : Gallery) (s : σ) (r : ρ) (ulog : List UserCall)
    (glog : List GalleryCall) :
    (user.ID = 0 →
      uv.tracing.Delete user (s, ulog) = ((user, some ErrInvalidID), (s, ulog))) ∧
    (0 < user.ID →
      uv.tracing.Delete user (s, ulog)
        = ((uv.UserDB.Delete user s).1,
            ((uv.UserDB.Delete user s).2, ulog ++ [UserCall.Delete user]))) ∧
    (gallery.ID = 0 →
      gv.tracing.Delete gallery (r, glog) = ((gallery, some ErrInvalidID), (r, glog))) ∧
    (0 < gallery.ID →
      gv.tracing.Delete gallery (r, glog)
        = ((gv.GalleryDB.Delete gallery r).1,
            ((gv.GalleryDB.Delete gallery r).2, glog ++ [GalleryCall.Delete gallery]))) := by
  refine ⟨?_, ?_, ?_, ?_⟩
  · intro h
    simp [userValidator.Delete, runUserValFuncs, userValidator.idBeGreaterThan, h]
  · intro h
    have h0 : ¬ user.ID = 0 := by omega
    simp [userValidator.Delete, runUserValFuncs, userValidator.idBeGreaterThan, h0,
      userValidator.tracing, UserDB.traced]
  · intro h
    simp [galleryValidator.Delete, runGalleryValFuncs, galleryValidator.idBeGreaterThan, h]
  · intro h
    have h0 : ¬ gallery.ID = 0 := by omega
    simp [galleryValidator.Delete, runGalleryValFuncs, galleryValidator.idBeGreaterThan, h0,
      galleryValidator.tracing, GalleryDB.traced]

/-- C9. The gallery validator's `Create` and `Update` check the owner before the title:
with `UserID` 0 the result is `ErruserIDRequired` whatever the title; with a `UserID`
above 0 and an empty title it is `ErrTitleRequired`; in both cases the gallery is
unchanged and no call to the store is made. With a `UserID` above 0 and a non-empty
title the one call made is the store's `Create` (or `Update`) on the unmodified gallery,
and its result is returned. -/
theorem gallery_owner_checked_before_title {ρ : Type} (gv : galleryValidator ρ)
    (g : Gallery) (r : ρ) (glog : List GalleryCall) :
    (g.UserID = 0 →
      gv.tracing.Create g (r, glog) = ((g, some ErruserIDRequired), (r, glog)) ∧
      gv.tracing.Update g (r, glog) = ((g, some ErruserIDRequired), (r, glog))) ∧
    (0 < g.UserID → g.Title = "" →
      gv.tracing.Create g (r, glog) = ((g, some ErrTitleRequired), (r, glog)) ∧
      gv.tracing.Update g (r, glog) = ((g, some ErrTitleRequired), (r, glog))) ∧
    (0 < g.UserID → g.Title ≠ "" →
      gv.tracing.Create g (r, glog)
        = ((gv.GalleryDB.Create g r).1,
            ((gv.GalleryDB.Create g r).2, glog ++ [GalleryCall.Create g])) ∧
      gv.tracing.Update g (r, glog)
        = ((gv.GalleryDB.Update g r).1,
            ((gv.GalleryDB.Update g r).2, glog ++ [GalleryCall.Update g]))) := by
  refine ⟨?_, ?_, ?_⟩
  · intro h
    simp [galleryValidator.Create, galleryValidator.Update, runGalleryValFuncs,
      galleryValidator.userIDRequired, h]
  · intro h ht
    have h0 : ¬ g.UserID = 0 := by omega
    simp [galleryValidator.Create, galleryValidator.Update, runGalleryValFuncs,
      galleryValidator.userIDRequired, galleryValidator.titleRequired, h0, ht]
  · intro h ht
    have h0 : ¬ g.UserID = 0 := by omega
    simp [galleryValidator.Create, galleryValidator.Update, runGalleryValFuncs,
      galleryValidator.userIDRequired, galleryValidator.titleRequired, h0, ht,
      galleryValidator.tracing, GalleryDB.traced]

/-- C1. Round trip through the hash derivation: if `Create` succeeds for a user against a
store that answers `ByRemember(h)` with the user it stored under `RememberHash` `h` (and
writes nothing but the ID into the user it is given), then the validator's `ByRemember`
with the plaintext token left in `user.Remember` after `Create` returns that same user
(its stored columns) and no error. -/
theorem byRemember_after_create {τ : Type} (x : Packages) (uv : userValidator τ)
    (hw : uv.UserDB.CreateWritesOnlyID) (ha : uv.UserDB.AnswersByRemember)
    (user u1 : User) (t t1 : τ) (hc : uv.Create x user t = ((u1, none), t1)) :
    ∃ t2, uv.ByRemember x u1.Remember t1 = (Lookup.found u1.persisted, t2) := by
  obtain ⟨u, tm, hpre, _, hst⟩ := userValidator.Create_ok x uv user u1 t t1 hc
  obtain ⟨_, hashed, tok, _, _, _, _, _, htne, _, _, _, _, hu⟩ :=
    userValidator.createChecks_ok x uv user u t t hpre
  obtain ⟨t2, h2⟩ := ha u tm u1 t1 hst
  have hid := hw u tm
  rw [hst] at hid
  simp only at hid
  have hrem : u1.Remember = tok := by rw [hid, hu]
  have hhash : u.RememberHash = uv.hmac.Hash x tok := by rw [hu]
  refine ⟨t2, ?_⟩
  rw [hhash] at h2
  simp only [userValidator.ByRemember, runUserValFuncs, userValidator.hmacRemember, hrem,
    User.zero, htne, if_false]
  exact h2

theorem byRemember_after_create_witness :
    ∃ t2, demoValidator.ByRemember demoPackages
        (demoValidator.Create demoPackages demoUser []).1.1.Remember
        (demoValidator.Create demoPackages demoUser []).2
      = (Lookup.found (demoValidator.Create demoPackages demoUser []).1.1.persisted, t2) :=
  byRemember_after_create demoPackages demoValidator memStore_CreateWritesOnlyID
    memStore_AnswersByRemember demoUser _ [] _ (by decide)

/-- C2. Once `Create` has succeeded for a user with email `e` and password `p`, against
a store that answers `ByEmail` with the user it stored under that email, the service's
`Authenticate(e, p)` with the same pepper returns that stored user and no error, bcrypt
verifying a password against a hash generated from the same password. -/
theorem authenticate_after_create {τ : Type} (x : Packages) (uv : userValidator τ)
    (hb : BcryptVerifies x) (hw : uv.UserDB.CreateWritesOnlyID)
    (ha : uv.UserDB.AnswersByEmail) (e p : String) (user u1 : User) (t t1 : τ)
    (he : user.Email = e) (hp : user.Password = p)
    (hc : uv.Create x user t = ((u1, none), t1)) :
    ∃ t2, (uv.service x).Authenticate x e p t1 = (Lookup.found u1.persisted, t2) := by
  obtain ⟨u, tm, hpre, _, hst⟩ := userValidator.Create_ok x uv user u1 t t1 hc
  obtain ⟨_, hashed, tok, _, _, hgen, _, _, _, _, _, _, _, hu⟩ :=
    userValidator.createChecks_ok x uv user u t t hpre
  obtain ⟨t2, h2⟩ := ha u tm u1 t1 hst
  have hid := hw u tm
  rw [hst] at hid
  simp only at hid
  have hmail : u.Email = strings.TrimSpace (strings.ToLower x e) := by rw [hu, he]
  have hph : u1.persisted.PasswordHash = hashed := by rw [hid, hu]; rfl
  rw [hmail] at h2
  rw [hp] at hgen
  have hcmp := hb _ _ _ hgen
  refine ⟨t2, ?_⟩
  simp only [userService.Authenticate, userValidator.service, userValidator.toUserDB,
    userValidator.ByEmail, runUserValFuncs, userValidator.normalizeEmail, User.zero, h2, hph,
    hcmp]

theorem authenticate_after_create_witness :
    ∃ t2, (demoValidator.service demoPackages).Authenticate demoPackages "A@B.com"
        "adequate1" (demoValidator.Create demoPackages demoUser []).2
      = (Lookup.found (demoValidator.Create demoPackages demoUser []).1.1.persisted, t2) :=
  authenticate_after_create demoPackages demoValidator demoPackages_BcryptVerifies
    memStore_CreateWritesOnlyID memStore_AnswersByEmail "A@B.com" "adequate1" demoUser _ []
    _ (by decide) (by decide) (by decide)

/-- C3. For an existing user (the lookup by email finds one) and a supplied password
whose peppered value bcrypt reports as not matching the stored `PasswordHash`,
`Authenticate` returns a nil user with `ErrInvalidPassword`; any other failure of the
verification is returned unchanged, also with a nil user. -/
theorem authenticate_wrong_password {τ : Type} (x : Packages) (us : userService τ)
    (email password : String) (foundUser : User) (t t1 : τ)
    (hfound : us.UserDB.ByEmail email t = (Lookup.found foundUser, t1)) :
    (x.bcryptCompare foundUser.PasswordHash (password ++ us.pepper)
        = some Err.ErrMismatchedHashAndPassword →
      us.Authenticate x email password t = (Lookup.failed none ErrInvalidPassword, t1)) ∧
    (∀ err : Err, x.bcryptCompare foundUser.PasswordHash (password ++ us.pepper) = some err →
      err ≠ Err.ErrMismatchedHashAndPassword →
      us.Authenticate x email password t = (Lookup.failed none err, t1)) := by
  constructor
  · intro hm
    simp [userService.Authenticate, hfound, hm]
  · intro err he hne
    simp [userService.Authenticate, hfound, he, hne]

theorem authenticate_wrong_password_witness :
    (demoValidator.service demoPackages).Authenticate demoPackages "a@b.com" "adequate2"
        demoRows
      = (Lookup.failed none ErrInvalidPassword, demoRows) :=
  (authenticate_wrong_password demoPackages (demoValidator.service demoPackages) "a@b.com"
    "adequate2" (demoValidator.Create demoPackages demoUser []).1.1.persisted demoRows
    demoRows (by decide)).1 (by decide)

/-- C4. When the database reports "record not found" for the normalised form of the
email, `Authenticate` returns a nil user and `ErrNotFound`, whatever the password. The
translation is made by `first`: it turns `gorm.ErrRecordNotFound` into `ErrNotFound`,
passes every other error through unchanged, and nil stays nil. -/
theorem authenticate_unknown_email {τ : Type} (x : Packages) (db : gormDB τ)
    (pepper hmacKey email password : String) (d : User) (t t1 : τ)
    (hnone : db.First (Where.email (strings.TrimSpace (strings.ToLower x email))) User.zero t
      = ((d, some Err.ErrRecordNotFound), t1)) :
    (NewUserService x db pepper hmacKey).Authenticate x email password t
      = (Lookup.failed none ErrNotFound, t1) ∧
    (∀ (q : User → τ → (User × Option Err) × τ) (dst r : User) (s s1 : τ),
      (q dst s = ((r, some Err.ErrRecordNotFound), s1) →
        first q dst s = ((r, some ErrNotFound), s1)) ∧
      (∀ err : Err, q dst s = ((r, some err), s1) → err ≠ Err.ErrRecordNotFound →
        first q dst s = ((r, some err), s1)) ∧
      (q dst s = ((r, none), s1) → first q dst s = ((r, none), s1))) := by
  constructor
  · simp [userService.Authenticate, NewUserService, userValidator.toUserDB,
      userValidator.ByEmail, runUserValFuncs, userValidator.normalizeEmail, newUserValidator,
      userGorm.toUserDB, userGorm.ByEmail, userGorm.withPointer, first, User.zero] at hnone ⊢
    simp [hnone]
  · intro q dst r s s1
    refine ⟨?_, ?_, ?_⟩
    · intro h
      simp [first, h]
    · intro err h hne
      simp [first, h, hne]
    · intro h
      simp [first, h]

theorem authenticate_unknown_email_witness :
    (NewUserService demoPackages memDB "secret-pepper" "secret-hmac-key").Authenticate
        demoPackages " C@b.com" "adequate1" demoRows
      = (Lookup.failed none ErrNotFound, demoRows) :=
  (authenticate_unknown_email demoPackages memDB "secret-pepper" "secret-hmac-key" " C@b.com"
    "adequate1" User.zero demoRows demoRows (by decide)).1

/-- C5, as stated, fails: the table holds a user whose email is `a@b.com`, the new user
has ID 0 and an email that is `a@b.com` after lowercasing and trimming, and `Create`
fails with `ErrPasswordRequired`, not with `ErrEmailTaken`, because the password steps
run before the email steps. -/
theorem create_taken_email_counterexample :
    demoRows.map User.Email = ["a@b.com"] ∧
    (memStore.ByEmail "a@b.com" demoRows).1
      = Lookup.found (demoValidator.Create demoPackages demoUser []).1.1.persisted ∧
    demoNoPassword.ID = 0 ∧
    strings.TrimSpace (strings.ToLower demoPackages demoNoPassword.Email) = "a@b.com" ∧
    (demoValidator.Create demoPackages demoNoPassword demoRows).1.2
      = some ErrPasswordRequired ∧
    (demoValidator.Create demoPackages demoNoPassword demoRows).1.2 ≠ some ErrEmailTaken := by
  decide

/-- C5, amended. Let every step that `Create` runs before `emailNotTaken` return nil for
a new user (ID 0), leaving the user `u`, whose email `e` is the given one lowercased and
trimmed. If the store answers `ByEmail(e)` with a user whose ID is not 0, then `Create`
fails with `ErrEmailTaken`, and the only call made to the store is that lookup: the
store's `Create` is not called. -/
theorem create_rejects_taken_email {σ : Type} (x : Packages) (db : UserDB σ)
    (hmac : hash.HMAC) (pepper : String) (user u existing : User) (s s1 : σ)
    (log : List UserCall) (hnew : user.ID = 0)
    (hchecks : runUserValFuncs user
      ((newUserValidator db hmac pepper).tracing.createFuncs x).dropLast (s, log)
        = ((u, none), (s, log)))
    (hheld : db.ByEmail u.Email s = (Lookup.found existing, s1))
    (hid : existing.ID ≠ 0) :
    u.Email = strings.TrimSpace (strings.ToLower x user.Email) ∧
    (newUserValidator db hmac pepper).tracing.Create x user (s, log)
      = ((u, some ErrEmailTaken), (s1, log ++ [UserCall.ByEmail u.Email])) := by
  obtain ⟨_, hashed, tok, _, _, _, _, _, _, _, _, _, hfm, hu⟩ :=
    userValidator.createChecks_ok x _ user u _ _ hchecks
  have hmail : u.Email = strings.TrimSpace (strings.ToLower x user.Email) := by rw [hu]
  have hfix : strings.TrimSpace (strings.ToLower x u.Email) = u.Email := by
    apply normalize_of_match
    rw [hmail]
    exact hfm
  have huid : u.ID = 0 := by rw [hu]; exact hnew
  have hne : ¬ existing.ID = u.ID := by rw [huid]; exact hid
  refine ⟨hmail, ?_⟩
  unfold userValidator.Create
  rw [userValidator.createFuncs_eq_append, runUserValFuncs_append, hchecks]
  simp only [runUserValFuncs, userValidator.emailNotTaken, userValidator.ByEmail,
    userValidator.normalizeEmail, User.zero, hfix, userValidator.tracing, newUserValidator,
    UserDB.traced, hheld, ne_eq, hne, not_false_eq_true, if_true]

theorem create_rejects_taken_email_witness :
    (demoValidator.Create demoPackages demoSecond demoRows).1.1.Email
      = strings.TrimSpace (strings.ToLower demoPackages demoSecond.Email) ∧
    demoValidator.tracing.Create demoPackages demoSecond (demoRows, [])
      = (((demoValidator.Create demoPackages demoSecond demoRows).1.1, some ErrEmailTaken),
          (demoRows, [] ++ [UserCall.ByEmail
            (demoValidator.Create demoPackages demoSecond demoRows).1.1.Email])) :=
  create_rejects_taken_email demoPackages memStore (hash.NewHMAC "secret-hmac-key")
    "secret-pepper" demoSecond (demoValidator.Create demoPackages demoSecond demoRows).1.1
    (demoValidator.Create demoPackages demoUser []).1.1.persisted demoRows demoRows []
    (by decide) (by decide) (by decide) (by decide)

/-- C6, at a password of five characters: `len` counts bytes, `ééééé` has ten of them,
so `passwordMinLength` returns nil and `Create` goes through to the store, where the
claim (and the message of `ErrPasswordTooShort`) asks for `ErrPasswordTooShort`. -/
theorem passwordMinLength_five_characters :
    demoFiveChars.Password.length = 5 ∧ demoFiveChars.Password ≠ "" ∧
    demoFiveChars.Password.utf8ByteSize = 10 ∧
    (demoValidator.passwordMinLength demoFiveChars []).1.2 = none ∧
    (demoValidator.Create demoPackages demoFiveChars []).1.2 = none ∧
    (demoValidator.Create demoPackages demoFiveChars []).2.length = 1 := by
  decide

/-- C7. Whenever `Create` returns nil (against a store that writes nothing but the ID
into the user it is given), `user.Password` is empty and `user.PasswordHash` is not
afterwards, and the user handed to the store's `Create`, the one mutating call on
record, already has the password cleared and the hash set. -/
theorem create_clears_password {σ : Type} (x : Packages) (uv : userValidator σ)
    (hw : uv.UserDB.CreateWritesOnlyID) (user u1 : User) (s s1 : σ)
    (log log1 : List UserCall)
    (hc : uv.tracing.Create x user (s, log) = ((u1, none), (s1, log1))) :
    u1.Password = "" ∧ u1.PasswordHash ≠ "" ∧
    ∃ (handed : User) (e : String),
      log1 = log ++ [UserCall.ByEmail e, UserCall.Create handed] ∧
      handed.Password = "" ∧ handed.PasswordHash ≠ "" ∧
      u1 = { handed with ID := u1.ID } := by
  obtain ⟨u, tm, hpre, hent, hst⟩ := userValidator.Create_ok x uv.tracing user u1 _ _ hc
  obtain ⟨_, hashed, tok, _, _, _, hhne, _, _, _, _, _, _, hu⟩ :=
    userValidator.createChecks_ok x uv.tracing user u _ _ hpre
  obtain ⟨_, htm⟩ := userValidator.emailNotTaken_ok x uv.tracing _ _ _ _ hent
  have hid := hw u tm.1
  simp only [userValidator.tracing, UserDB.traced] at hst htm
  have hu1 : u1 = (uv.UserDB.Create u tm.1).1.1 := by
    have := congrArg (fun r => r.1.1) hst
    simpa using this.symm
  have hlog1 : log1 = tm.2 ++ [UserCall.Create u] := by
    have := congrArg (fun r => r.2.2) hst
    simpa using this.symm
  have hlogm : tm.2 = log ++ [UserCall.ByEmail
      (strings.TrimSpace (strings.ToLower x u.Email))] := by
    rw [htm]
  rw [← hu1] at hid
  have hpw : u.Password = "" := by rw [hu]
  have hph : u.PasswordHash = hashed := by rw [hu]
  refine ⟨by rw [hid]; exact hpw, by rw [hid]; simpa [hph] using hhne, u,
    strings.TrimSpace (strings.ToLower x u.Email), ?_, hpw, by simpa [hph] using hhne, hid⟩
  rw [hlog1, hlogm]
  simp

theorem create_clears_password_witness :
    (demoValidator.Create demoPackages demoUser []).1.1.Password = "" ∧
    (demoValidator.Create demoPackages demoUser []).1.1.PasswordHash ≠ "" ∧
    ∃ (handed : User) (e : String),
      (demoValidator.tracing.Create demoPackages demoUser ([], [])).2.2
        = [] ++ [UserCall.ByEmail e, UserCall.Create handed] ∧
      handed.Password = "" ∧ handed.PasswordHash ≠ "" ∧
      (demoValidator.Create demoPackages demoUser []).1.1
        = { handed with ID := (demoValidator.Create demoPackages demoUser []).1.1.ID } :=
  create_clears_password demoPackages demoValidator memStore_CreateWritesOnlyID demoUser
    (demoValidator.Create demoPackages demoUser []).1.1 [] demoRows []
    (demoValidator.tracing.Create demoPackages demoUser ([], [])).2.2 (by decide)

/-- C10. If `rand.String(n)` returns a token without error, whatever the random source
wrote, then `rand.NBytes` of the token is `(n, nil)`; in particular every token that
`rand.RememberToken` produces decodes to exactly 32 bytes. -/
theorem nbytes_of_generated_token (x : Packages) (n : Nat) (t : String)
    (h : rand.String x n = Except.ok t) :
    rand.NBytes t = ((n : Int), none) ∧
    ∀ tok : String, rand.RememberToken x = Except.ok tok →
      rand.NBytes tok = ((32 : Int), none) := by
  refine ⟨randNBytes_String x n t h, ?_⟩
  intro tok htok
  exact randNBytes_String x rand.RemberTokenBytes tok htok

theorem nbytes_of_generated_token_witness :
    rand.NBytes "AwoRGB8mLTQ7QklQV15lbHN6gYiPlp2kq7K5wMfO1dw=" = ((32 : Int), none) ∧
    ∀ tok : String, rand.RememberToken demoPackages = Except.ok tok →
      rand.NBytes tok = ((32 : Int), none) :=
  nbytes_of_generated_token demoPackages 32 "AwoRGB8mLTQ7QklQV15lbHN6gYiPlp2kq7K5wMfO1dw="
    (by rfl)

/-- C11. `HMAC.Hash` is deterministic: the digest of an input does not depend on which
inputs the same hasher hashed before (the state is reset before each computation), a
second call on the same input returns the same digest, and two hashers that hold the
same key, such as two built by `NewHMAC` from the same key, agree on every input. -/
theorem hash_is_deterministic (x : Packages) (h g : hash.HMAC) (input : String)
    (before : List String) :
    (before.foldl (fun k o => (k.HashState x o).2) h).Hash x input = h.Hash x input ∧
    ((h.HashState x input).2).Hash x input = h.Hash x input ∧
    (h.key = g.key → h.Hash x input = g.Hash x input) ∧
    (∀ key : String, g.key = (hash.NewHMAC key).key →
      g.Hash x input = (hash.NewHMAC key).Hash x input) := by
  have hkey : ∀ (l : List String) (k : hash.HMAC),
      (l.foldl (fun k o => (k.HashState x o).2) k).key = k.key := by
    intro l
    induction l with
    | nil => intro k; rfl
    | cons o l ih => intro k; simp only [List.foldl]; rw [ih]; rfl
  have hdep : ∀ a b : hash.HMAC, a.key = b.key → a.Hash x input = b.Hash x input := by
    intro a b hab
    simp [hash.HMAC.Hash, hash.HMAC.HashState, hash.HMAC.Reset, hash.HMAC.Write,
      hash.HMAC.Sum, hab]
  exact ⟨hdep _ _ (hkey before h), hdep _ _ rfl, hdep h g, fun key hk => hdep _ _ hk⟩

/-- C12, at `ErrEmailTaken`: `Public` appends the period as one more element of the
slice it joins with spaces, so the text ends in a space and a period, where the claim
(and its example) has the period directly after the last word. -/
theorem public_puts_space_before_period (x : Packages) :
    modelError.Public x "models: Email address is already taken"
      = "Email address is already taken ." ∧
    modelError.Public x "models: Email address is already taken"
      ≠ "Email address is already taken." := by
  have h : modelError.Public x "models: Email address is already taken"
      = "Email address is already taken ." := by rfl
  exact ⟨h, by rw [h]; decide⟩

/-- C13. `Data.SetAlert` classifies an error by its kind. For each of the ten public
kinds, and for every value of type `modelError`, the alert message is the error's
`Public()` text; for every other error (one that is not a `modelError`: the private
kinds `ErrBytesTooShort`, `ErruserIDRequired` and `ErrInvalidID`, the errors of imported
packages, and nil) the message is exactly `AlertMsgGeneric`. The level is always
`"danger"`, and nothing but the alert is changed. -/
theorem setAlert_classifies_by_kind {υ : Type} (x : Packages) (d : views.Data υ) :
    (∀ e ∈ publicErrors, ∃ msg : String, e = Err.modelError msg ∧
      (d.SetAlert x (some e)).Alert
        = some (views.Alert.mk views.AlertLvlError (modelError.Public x msg))) ∧
    (∀ msg : String, (d.SetAlert x (some (Err.modelError msg))).Alert
        = some (views.Alert.mk views.AlertLvlError (modelError.Public x msg))) ∧
    (∀ err : Option Err, (∀ msg : String, err ≠ some (Err.modelError msg)) →
      (d.SetAlert x err).Alert
        = some (views.Alert.mk views.AlertLvlError views.AlertMsgGeneric)) ∧
    (∀ e ∈ privateErrors,
      (d.SetAlert x (some e)).Alert
        = some (views.Alert.mk views.AlertLvlError views.AlertMsgGeneric)) ∧
    (∀ err : Option Err, ∃ m : String,
      (d.SetAlert x err).Alert = some (views.Alert.mk "danger" m)) ∧
    (∀ err : Option Err,
      (d.SetAlert x err).Yield = d.Yield ∧ (d.SetAlert x err).User = d.User) := by
  have hpub : ∀ msg : String, (d.SetAlert x (some (Err.modelError msg))).Alert
      = some (views.Alert.mk views.AlertLvlError (modelError.Public x msg)) := by
    intro msg
    simp [views.Data.SetAlert, views.asPublicError]
  have hgen : ∀ err : Option Err, (∀ msg : String, err ≠ some (Err.modelError msg)) →
      (d.SetAlert x err).Alert
        = some (views.Alert.mk views.AlertLvlError views.AlertMsgGeneric) := by
    intro err hne
    rcases err with _ | e
    · simp [views.Data.SetAlert, views.asPublicError]
    · cases e with
      | modelError msg => exact absurd rfl (hne msg)
      | _ => simp [views.Data.SetAlert, views.asPublicError]
  refine ⟨?_, hpub, hgen, ?_, ?_, ?_⟩
  · intro e he
    simp only [publicErrors, List.mem_cons, List.mem_singleton, List.not_mem_nil,
      or_false] at he
    rcases he with rfl | rfl | rfl | rfl | rfl | rfl | rfl | rfl | rfl | rfl <;>
      exact ⟨_, rfl, hpub _⟩
  · intro e he
    simp only [privateErrors, List.mem_cons, List.mem_singleton, List.not_mem_nil,
      or_false] at he
    rcases he with rfl | rfl | rfl <;> exact hgen _ (by intro msg h; cases h)
  · intro err
    rcases err with _ | e
    · exact ⟨_, hgen none (by intro msg h; cases h)⟩
    · cases e with
      | modelError msg => exact ⟨_, hpub msg⟩
      | privateError msg => exact ⟨_, hgen _ (by intro m h; cases h)⟩
      | ErrRecordNotFound => exact ⟨_, hgen _ (by intro m h; cases h)⟩
      | ErrMismatchedHashAndPassword => exact ⟨_, hgen _ (by intro m h; cases h)⟩
      | CorruptInputError n => exact ⟨_, hgen _ (by intro m h; cases h)⟩
      | other msg => exact ⟨_, hgen _ (by intro m h; cases h)⟩
  · intro err
    simp only [views.Data.SetAlert]
    split <;> exact ⟨rfl, rfl⟩

/-- C14. For `userValidator.Create` and `Update` and `galleryValidator.Create`, `Update`
and `Delete`, on a store whose calls are recorded. Whenever a validation step returns an
error, after the steps before it returned nil, the validator returns exactly that error,
with the entity and the store as the step left them, and the record has gained no
mutating call (for a user nothing but lookups, for a gallery nothing at all). And
whenever the record has gained a mutating call, every step has returned nil, and the
call is the one call to the store's method, made after the steps on the validated
entity. -/
theorem store_reached_only_after_validation {σ ρ : Type} (x : Packages)
    (uv : userValidator σ) (gv : galleryValidator ρ) (user : User) (gallery : Gallery)
    (s : σ) (r : ρ) (ulog : List UserCall) (glog : List GalleryCall) :
    ((∀ pre f post u u1 t1 t2 e, uv.tracing.createFuncs x = pre ++ f :: post →
        runUserValFuncs user pre (s, ulog) = ((u, none), t1) →
        f u t1 = ((u1, some e), t2) →
        uv.tracing.Create x user (s, ulog) = ((u1, some e), t2) ∧
        ∃ reads : List UserCall, t2.2 = ulog ++ reads ∧ ∀ c ∈ reads, c.isMutating = false) ∧
      (∀ new : List UserCall, (uv.tracing.Create x user (s, ulog)).2.2 = ulog ++ new →
        (∃ c ∈ new, c.isMutating = true) →
        userStepsAllNil (uv.tracing.createFuncs x) user (s, ulog) ∧
        ∃ (reads : List UserCall) (v : User),
          (uv.tracing.createValidation x user (s, ulog)).1 = (v, none) ∧
          new = reads ++ [UserCall.Create v] ∧ ∀ c ∈ reads, c.isMutating = false)) ∧
    ((∀ pre f post u u1 t1 t2 e, uv.tracing.updateFuncs x = pre ++ f :: post →
        runUserValFuncs user pre (s, ulog) = ((u, none), t1) →
        f u t1 = ((u1, some e), t2) →
        uv.tracing.Update x user (s, ulog) = ((u1, some e), t2) ∧
        ∃ reads : List UserCall, t2.2 = ulog ++ reads ∧ ∀ c ∈ reads, c.isMutating = false) ∧
      (∀ new : List UserCall, (uv.tracing.Update x user (s, ulog)).2.2 = ulog ++ new →
        (∃ c ∈ new, c.isMutating = true) →
        userStepsAllNil (uv.tracing.updateFuncs x) user (s, ulog) ∧
        ∃ (reads : List UserCall) (v : User),
          (uv.tracing.updateValidation x user (s, ulog)).1 = (v, none) ∧
          new = reads ++ [UserCall.Update v] ∧ ∀ c ∈ reads, c.isMutating = false)) ∧
    ((∀ pre f post g g1 t1 t2 e,
        [gv.tracing.userIDRequired, gv.tracing.titleRequired] = pre ++ f :: post →
        runGalleryValFuncs gallery pre (r, glog) = ((g, none), t1) →
        f g t1 = ((g1, some e), t2) →
        gv.tracing.Create gallery (r, glog) = ((g1, some e), t2) ∧ t2 = (r, glog)) ∧
      (∀ new : List GalleryCall, (gv.tracing.Create gallery (r, glog)).2.2 = glog ++ new →
        new ≠ [] →
        galleryStepsAllNil [gv.tracing.userIDRequired, gv.tracing.titleRequired] gallery
          (r, glog) ∧
        ∃ v : Gallery, (gv.tracing.saveValidation gallery (r, glog)).1 = (v, none) ∧
          new = [GalleryCall.Create v])) ∧
    ((∀ pre f post g g1 t1 t2 e,
        [gv.tracing.userIDRequired, gv.tracing.titleRequired] = pre ++ f :: post →
        runGalleryValFuncs gallery pre (r, glog) = ((g, none), t1) →
        f g t1 = ((g1, some e), t2) →
        gv.tracing.Update gallery (r, glog) = ((g1, some e), t2) ∧ t2 = (r, glog)) ∧
      (∀ new : List GalleryCall, (gv.tracing.Update gallery (r, glog)).2.2 = glog ++ new →
        new ≠ [] →
        galleryStepsAllNil [gv.tracing.userIDRequired, gv.tracing.titleRequired] gallery
          (r, glog) ∧
        ∃ v : Gallery, (gv.tracing.saveValidation gallery (r, glog)).1 = (v, none) ∧
          new = [GalleryCall.Update v])) ∧
    ((∀ pre f post g g1 t1 t2 e, [gv.tracing.idBeGreaterThan 0] = pre ++ f :: post →
        runGalleryValFuncs gallery pre (r, glog) = ((g, none), t1) →
        f g t1 = ((g1, some e), t2) →
        gv.tracing.Delete gallery (r, glog) = ((g1, some e), t2) ∧ t2 = (r, glog)) ∧
      (∀ new : List GalleryCall, (gv.tracing.Delete gallery (r, glog)).2.2 = glog ++ new →
        new ≠ [] →
        galleryStepsAllNil [gv.tracing.idBeGreaterThan 0] gallery (r, glog) ∧
        ∃ v : Gallery, (gv.tracing.deleteValidation gallery (r, glog)).1 = (v, none) ∧
          new = [GalleryCall.Delete v])) := by
  have hsave : ∀ (g : Gallery) (t : ρ × List GalleryCall),
      (runGalleryValFuncs g [gv.tracing.userIDRequired, gv.tracing.titleRequired] t).2 = t :=
    fun g t => galleryValidator.saveValidation_state gv.tracing g t
  have hdel : ∀ (g : Gallery) (t : ρ × List GalleryCall),
      (runGalleryValFuncs g [gv.tracing.idBeGreaterThan 0] t).2 = t :=
    fun g t => galleryValidator.deleteValidation_state gv.tracing g t
  refine ⟨?_, ?_, ?_, ?_, ?_⟩
  · exact validated_user_call (uv.tracing.createFuncs x) uv.tracing.UserDB.Create
      UserCall.Create (fun u t => rfl)
      (fun v t => by
        rw [userValidator.createFuncs_eq_append]
        exact userValidator.checks_then_emailNotTaken_log x uv _
          (fun u t => userValidator.createChecks_state x uv.tracing u t) v t.1 t.2)
      user (s, ulog) _
      (fun v err s1 h => by unfold userValidator.Create; rw [h])
      (fun v s1 h => by unfold userValidator.Create; rw [h])
  · exact validated_user_call (uv.tracing.updateFuncs x) uv.tracing.UserDB.Update
      UserCall.Update (fun u t => rfl)
      (fun v t => by
        rw [userValidator.updateFuncs_eq_append]
        exact userValidator.checks_then_emailNotTaken_log x uv _
          (fun u t => userValidator.updateChecks_state x uv.tracing u t) v t.1 t.2)
      user (s, ulog) _
      (fun v err s1 h => by unfold userValidator.Update; rw [h])
      (fun v s1 h => by unfold userValidator.Update; rw [h])
  · exact validated_gallery_call [gv.tracing.userIDRequired, gv.tracing.titleRequired]
      gv.tracing.GalleryDB.Create GalleryCall.Create (fun g t => rfl) hsave gallery (r, glog)
      _ (fun v err s1 h => by unfold galleryValidator.Create; rw [h])
      (fun v s1 h => by unfold galleryValidator.Create; rw [h])
  · exact validated_gallery_call [gv.tracing.userIDRequired, gv.tracing.titleRequired]
      gv.tracing.GalleryDB.Update GalleryCall.Update (fun g t => rfl) hsave gallery (r, glog)
      _ (fun v err s1 h => by unfold galleryValidator.Update; rw [h])
      (fun v s1 h => by unfold galleryValidator.Update; rw [h])
  · exact validated_gallery_call [gv.tracing.idBeGreaterThan 0]
      gv.tracing.GalleryDB.Delete GalleryCall.Delete (fun g t => rfl) hdel gallery (r, glog)
      _ (fun v err s1 h => by unfold galleryValidator.Delete; rw [h])
      (fun v s1 h => by unfold galleryValidator.Delete; rw [h])

theorem store_reached_only_after_validation_witness :
    (demoValidator.tracing.Create demoPackages demoNoPassword (demoRows, [])
        = ((demoNoPassword, some ErrPasswordRequired), (demoRows, [])) ∧
      ∃ reads : List UserCall, (demoRows, ([] : List UserCall)).2 = [] ++ reads ∧
        ∀ c ∈ reads, c.isMutating = false) ∧
    (userStepsAllNil (demoValidator.tracing.createFuncs demoPackages) demoUser ([], []) ∧
      ∃ (reads : List UserCall) (v : User),
        (demoValidator.tracing.createValidation demoPackages demoUser ([], [])).1 = (v, none) ∧
        (demoValidator.tracing.Create demoPackages demoUser ([], [])).2.2
          = reads ++ [UserCall.Create v] ∧ ∀ c ∈ reads, c.isMutating = false) :=
  ⟨(store_reached_only_after_validation demoPackages demoValidator
      demoGalleryValidator
      demoNoPassword { ID := 0, Title := "", UserID := 0, Images := [] } demoRows () []
      []).1.1 [] demoValidator.tracing.passwordRequired _ demoNoPassword demoNoPassword
      (demoRows, []) (demoRows, []) ErrPasswordRequired rfl rfl (by decide),
    (store_reached_only_after_validation demoPackages demoValidator
      demoGalleryValidator
      demoUser { ID := 0, Title := "", UserID := 0, Images := [] } [] () []
      []).1.2 (demoValidator.tracing.Create demoPackages demoUser ([], [])).2.2 rfl
      ⟨UserCall.Create (demoValidator.tracing.createValidation demoPackages demoUser
        ([], [])).1.1, by decide, rfl⟩⟩

/-- C15. Every user that `Create` or `Update` of a validator built by `newUserValidator`
hands to the store's `Create` or `Update` (the calls on record, starting from an empty
record) has a non-empty `PasswordHash`, a non-empty `RememberHash`, and an `Email` that
is non-empty, matches the email pattern, and is left as it is by lowercasing and by
trimming white space. -/
theorem stored_user_is_valid {σ : Type} (x : Packages) (db : UserDB σ) (hmac : hash.HMAC)
    (pepper : String) (user handed : User) (s : σ)
    (h : UserCall.Create handed
          ∈ ((newUserValidator db hmac pepper).tracing.Create x user (s, [])).2.2 ∨
        UserCall.Update handed
          ∈ ((newUserValidator db hmac pepper).tracing.Update x user (s, [])).2.2) :
    handed.PasswordHash ≠ "" ∧ handed.RememberHash ≠ "" ∧ handed.Email ≠ "" ∧
    emailPattern.fullMatch handed.Email.data = true ∧
    strings.ToLower x handed.Email = handed.Email ∧
    strings.TrimSpace handed.Email = handed.Email := by
  have key : ∀ u : User, u.PasswordHash ≠ "" → u.RememberHash ≠ "" → u.Email ≠ "" →
      emailPattern.fullMatch u.Email.data = true →
      u.PasswordHash ≠ "" ∧ u.RememberHash ≠ "" ∧ u.Email ≠ "" ∧
      emailPattern.fullMatch u.Email.data = true ∧
      strings.ToLower x u.Email = u.Email ∧ strings.TrimSpace u.Email = u.Email :=
    fun u h1 h2 h3 h4 => ⟨h1, h2, h3, h4, toLower_of_match x _ h4, trimSpace_of_match _ h4⟩
  rcases h with h | h
  · obtain ⟨reads, hreads, hnm⟩ := userValidator.checks_then_emailNotTaken_log x
      (newUserValidator db hmac pepper) _
      (fun u t => userValidator.createChecks_state x
        (newUserValidator db hmac pepper).tracing u t) user s []
    rw [← userValidator.createFuncs_eq_append] at hreads
    unfold userValidator.Create at h
    rcases hv : runUserValFuncs user ((newUserValidator db hmac pepper).tracing.createFuncs x)
      (s, []) with ⟨⟨u, _ | e⟩, t⟩
    · rw [hv] at h hreads
      simp only [userValidator.tracing, UserDB.traced, List.mem_append,
        List.mem_singleton] at h
      rcases h with h | h
      · simp only [List.nil_append] at hreads
        rw [hreads] at h
        have := hnm _ h
        simp [UserCall.isMutating] at this
      · cases h
        obtain ⟨hpre, _⟩ := userValidator.createFuncs_ok x _ user handed _ _ hv
        obtain ⟨_, hashed, tok, _, _, _, hph, _, _, _, hrh, hre, hfm, hu⟩ :=
          userValidator.createChecks_ok x _ user handed _ _ hpre
        apply key
        · rw [hu]; exact hph
        · rw [hu]; exact hrh
        · rw [hu]; exact hre
        · rw [hu]; exact hfm
    · rw [hv] at h hreads
      simp only [List.nil_append] at hreads
      simp only at h
      rw [hreads] at h
      have := hnm _ h
      simp [UserCall.isMutating] at this
  · obtain ⟨reads, hreads, hnm⟩ := userValidator.checks_then_emailNotTaken_log x
      (newUserValidator db hmac pepper) _
      (fun u t => userValidator.updateChecks_state x
        (newUserValidator db hmac pepper).tracing u t) user s []
    rw [← userValidator.updateFuncs_eq_append] at hreads
    unfold userValidator.Update at h
    rcases hv : runUserValFuncs user ((newUserValidator db hmac pepper).tracing.updateFuncs x)
      (s, []) with ⟨⟨u, _ | e⟩, t⟩
    · rw [hv] at h hreads
      simp only [userValidator.tracing, UserDB.traced, List.mem_append,
        List.mem_singleton] at h
      rcases h with h | h
      · simp only [List.nil_append] at hreads
        rw [hreads] at h
        have := hnm _ h
        simp [UserCall.isMutating] at this
      · cases h
        obtain ⟨hpre, _⟩ := userValidator.updateFuncs_ok x _ user handed _ _ hv
        obtain ⟨_, ph, rh, hph, hrh, _, _, _, _, hre, hfm, hu⟩ :=
          userValidator.updateChecks_ok x _ user handed _ _ hpre
        apply key
        · rw [hu]; exact hph
        · rw [hu]; exact hrh
        · rw [hu]; exact hre
        · rw [hu]; exact hfm
    · rw [hv] at h hreads
      simp only [List.nil_append] at hreads
      simp only at h
      rw [hreads] at h
      have := hnm _ h
      simp [UserCall.isMutating] at this

theorem stored_user_is_valid_witness :
    ({ (demoValidator.Create demoPackages demoUser []).1.1 with ID := 0 } : User).PasswordHash
      ≠ "" ∧
    ({ (demoValidator.Create demoPackages demoUser []).1.1 with ID := 0 } : User).RememberHash
      ≠ "" ∧
    ({ (demoValidator.Create demoPackages demoUser []).1.1 with ID := 0 } : User).Email
      ≠ "" ∧
    emailPattern.fullMatch
      ({ (demoValidator.Create demoPackages demoUser []).1.1 with ID := 0 } : User).Email.data
      = true ∧
    strings.ToLower demoPackages
      ({ (demoValidator.Create demoPackages demoUser []).1.1 with ID := 0 } : User).Email
      = ({ (demoValidator.Create demoPackages demoUser []).1.1 with ID := 0 } : User).Email ∧
    strings.TrimSpace
      ({ (demoValidator.Create demoPackages demoUser []).1.1 with ID := 0 } : User).Email
      = ({ (demoValidator.Create demoPackages demoUser []).1.1 with ID := 0 } : User).Email :=
  stored_user_is_valid demoPackages memStore (hash.NewHMAC "secret-hmac-key") "secret-pepper"
    demoUser { (demoValidator.Create demoPackages demoUser []).1.1 with ID := 0 } []
    (Or.inl (by decide))

/-- C17. For a user passed to `Update` with an empty `Password` and an empty `Remember`:
if `PasswordHash` is empty the result is `ErrPasswordRequired`; if it is not and
`RememberHash` is empty the result is `ErrRememberRequired`; in both cases the user and
the store are left as they were and no call is made. The user that reaches the store's
`Update` (the call on record, starting from an empty record) has exactly the
`PasswordHash` and `RememberHash` the caller passed in: nothing is hashed again and no
token is generated. -/
theorem update_keeps_hashes {σ : Type} (x : Packages) (uv : userValidator σ) (user : User)
    (s : σ) (log : List UserCall) (hp : user.Password = "") (hr : user.Remember = "") :
    (user.PasswordHash = "" →
      uv.tracing.Update x user (s, log) = ((user, some ErrPasswordRequired), (s, log))) ∧
    (user.PasswordHash ≠ "" → user.RememberHash = "" →
      uv.tracing.Update x user (s, log) = ((user, some ErrRememberRequired), (s, log))) ∧
    (∀ handed : User, UserCall.Update handed ∈ (uv.tracing.Update x user (s, [])).2.2 →
      handed.PasswordHash = user.PasswordHash ∧ handed.RememberHash = user.RememberHash ∧
      handed.Password = "" ∧ handed.Remember = "") := by
  refine ⟨?_, ?_, ?_⟩
  · intro hph
    simp [userValidator.Update, userValidator.updateFuncs, runUserValFuncs,
      userValidator.passwordMinLength, userValidator.bcryptPassword,
      userValidator.passwordHashRequired, hp, hph]
  · intro hph hrh
    simp [userValidator.Update, userValidator.updateFuncs, runUserValFuncs,
      userValidator.passwordMinLength, userValidator.bcryptPassword,
      userValidator.passwordHashRequired, userValidator.rememberMinBytes,
      userValidator.hmacRemember, userValidator.rememberHashRequired, hp, hr, hph, hrh]
  · intro handed h
    obtain ⟨reads, hreads, hnm⟩ := userValidator.checks_then_emailNotTaken_log x uv _
      (fun u t => userValidator.updateChecks_state x uv.tracing u t) user s []
    rw [← userValidator.updateFuncs_eq_append] at hreads
    unfold userValidator.Update at h
    rcases hv : runUserValFuncs user (uv.tracing.updateFuncs x) (s, [])
      with ⟨⟨u, _ | e⟩, t⟩
    · rw [hv] at h hreads
      simp only [userValidator.tracing, UserDB.traced, List.mem_append,
        List.mem_singleton] at h
      rcases h with h | h
      · simp only [List.nil_append] at hreads
        rw [hreads] at h
        have := hnm _ h
        simp [UserCall.isMutating] at this
      · cases h
        obtain ⟨hpre, _⟩ := userValidator.updateFuncs_ok x _ user handed _ _ hv
        obtain ⟨_, ph, rh, _, _, hph, _, hrh, _, _, _, hu⟩ :=
          userValidator.updateChecks_ok x _ user handed _ _ hpre
        rw [hu]
        exact ⟨hph hp, hrh hr, rfl, hr⟩
    · rw [hv] at h hreads
      simp only [List.nil_append] at hreads
      simp only at h
      rw [hreads] at h
      have := hnm _ h
      simp [UserCall.isMutating] at this

theorem update_keeps_hashes_witness :
    (demoValidator.Update demoPackages demoUpdate demoRows).1.1.PasswordHash
      = demoUpdate.PasswordHash ∧
    (demoValidator.Update demoPackages demoUpdate demoRows).1.1.RememberHash
      = demoUpdate.RememberHash ∧
    (demoValidator.Update demoPackages demoUpdate demoRows).1.1.Password = "" ∧
    (demoValidator.Update demoPackages demoUpdate demoRows).1.1.Remember = "" :=
  (update_keeps_hashes demoPackages demoValidator demoUpdate demoRows [] (by decide)
    (by decide)).2.2 (demoValidator.Update demoPackages demoUpdate demoRows).1.1 (by decide)

/-- C18, as stated, fails: `Update` skips two steps of `Create`, "password required"
and the generation of a token. For a user with a password and no token the validation
run of `Create` returns nil, and that of `Update`, like the run of the steps as the
specification words them, does not give the same outcome: `Update` returns
`ErrRememberRequired`. -/
theorem update_same_as_create_counterexample :
    demoUser.Password ≠ "" ∧
    (demoValidator.createValidation demoPackages demoUser []).1.2 = none ∧
    (demoValidator.updateValidation demoPackages demoUser []).1.2
      = some ErrRememberRequired ∧
    (runUserValFuncs demoUser (demoValidator.updateFuncsAsSpecified demoPackages) []).1.2
      = none ∧
    (demoValidator.updateValidation demoPackages demoUser []).1.1.Remember = "" ∧
    (demoValidator.createValidation demoPackages demoUser []).1.1.Remember ≠ "" := by
  decide

/-- C18, amended. `Update` runs the steps of `Create` in the same order except that it
skips the "password required" step and the step that generates a token: for a user with
a non-empty password and a non-empty token, and every store, the validation run of
`Update` has the outcome of that of `Create` (the error, the user after the run, the
store after the run). -/
theorem update_same_as_create {τ : Type} (x : Packages) (uv : userValidator τ)
    (user : User) (t : τ) (hp : user.Password ≠ "") (hr : user.Remember ≠ "") :
    uv.updateFuncs x = ((uv.createFuncs x).tail.take 3) ++ ((uv.createFuncs x).drop 5) ∧
    uv.updateValidation x user t = uv.createValidation x user t := by
  refine ⟨rfl, ?_⟩
  unfold userValidator.updateValidation userValidator.createValidation
  have hc : uv.createFuncs x
      = [uv.passwordRequired] ++ ([uv.passwordMinLength, uv.bcryptPassword x,
          uv.passwordHashRequired] ++ ([uv.setRememberIfUnset x]
          ++ [uv.rememberMinBytes, uv.hmacRemember x, uv.rememberHashRequired,
            uv.normalizeEmail x, uv.requireEmail, uv.emailFormat, uv.emailNotTaken x])) := rfl
  have hu : uv.updateFuncs x
      = [uv.passwordMinLength, uv.bcryptPassword x, uv.passwordHashRequired]
          ++ [uv.rememberMinBytes, uv.hmacRemember x, uv.rememberHashRequired,
            uv.normalizeEmail x, uv.requireEmail, uv.emailFormat, uv.emailNotTaken x] := rfl
  generalize [uv.rememberMinBytes, uv.hmacRemember x, uv.rememberHashRequired,
    uv.normalizeEmail x, uv.requireEmail, uv.emailFormat, uv.emailNotTaken x] = rest at hc hu
  rw [hc, hu, runUserValFuncs_append, runUserValFuncs_append]
  have h1 : runUserValFuncs user [uv.passwordRequired] t = ((user, none), t) := by
    simp [runUserValFuncs, userValidator.passwordRequired, hp]
  rw [h1]
  simp only
  rw [runUserValFuncs_append]
  rcases hv : runUserValFuncs user
      [uv.passwordMinLength, uv.bcryptPassword x, uv.passwordHashRequired] t
    with ⟨⟨u, _ | e⟩, t1⟩
  · simp only
    have hrem : u.Remember = user.Remember := by
      simp only [runUserValFuncs_cons_ok, runUserValFuncs_nil_ok] at hv
      obtain ⟨u2, s2, h2, u3, s3, h3, u4, s4, h4, hu4, _⟩ := hv
      obtain ⟨_, e2, _⟩ := userValidator.passwordMinLength_ok uv _ _ _ _ h2
      obtain ⟨hb, _⟩ := userValidator.bcryptPassword_ok x uv _ _ _ _ h3
      obtain ⟨_, e4, _⟩ := userValidator.passwordHashRequired_ok uv _ _ _ _ h4
      rw [hu4, e4]
      rcases hb with ⟨_, e3⟩ | ⟨_, hashed, _, e3⟩
      · rw [e3, e2]
      · rw [e3, e2]
    have hne : u.Remember ≠ "" := by rw [hrem]; exact hr
    rw [runUserValFuncs_append]
    have h2 : runUserValFuncs u [uv.setRememberIfUnset x] t1 = ((u, none), t1) := by
      simp [runUserValFuncs, userValidator.setRememberIfUnset, hne]
    rw [h2]
  · rfl

theorem update_same_as_create_witness :
    demoValidator.updateFuncs demoPackages
      = ((demoValidator.createFuncs demoPackages).tail.take 3)
          ++ ((demoValidator.createFuncs demoPackages).drop 5) ∧
    demoValidator.updateValidation demoPackages demoWithToken demoRows
      = demoValidator.createValidation demoPackages demoWithToken demoRows :=
  update_same_as_create demoPackages demoValidator demoWithToken demoRows (by decide)
    (by decide)

/-- C19, as stated, fails at the empty token: the hashing step returns at once for an
empty `Remember`, so the store is queried with the empty string, which is the plaintext
token and not its keyed hash. -/
theorem byRemember_empty_token_counterexample :
    (demoValidator.tracing.ByRemember demoPackages "" (demoRows, [])).2.2
      = [UserCall.ByRemember ""] ∧
    demoValidator.hmac.Hash demoPackages "" ≠ "" := by
  decide

/-- C19, amended. For every non-empty token `t`, `ByRemember(t)` makes exactly one call
to the wrapped store, `ByRemember` with the keyed hash `hmac.Hash(t)` as its argument,
and returns the store's answer unchanged; for the empty token the one call is
`ByRemember("")`. -/
theorem byRemember_queries_hash {σ : Type} (x : Packages) (uv : userValidator σ)
    (t : String) (s : σ) (log : List UserCall) (ht : t ≠ "") :
    uv.tracing.ByRemember x t (s, log)
      = ((uv.UserDB.ByRemember (uv.hmac.Hash x t) s).1,
          ((uv.UserDB.ByRemember (uv.hmac.Hash x t) s).2,
            log ++ [UserCall.ByRemember (uv.hmac.Hash x t)])) ∧
    uv.tracing.ByRemember x "" (s, log)
      = ((uv.UserDB.ByRemember "" s).1,
          ((uv.UserDB.ByRemember "" s).2, log ++ [UserCall.ByRemember ""])) := by
  constructor
  · simp [userValidator.ByRemember, runUserValFuncs, userValidator.hmacRemember, User.zero,
      ht, userValidator.tracing, UserDB.traced]
  · simp [userValidator.ByRemember, runUserValFuncs, userValidator.hmacRemember, User.zero,
      userValidator.tracing, UserDB.traced]

theorem byRemember_queries_hash_witness :
    demoValidator.tracing.ByRemember demoPackages
        "AwoRGB8mLTQ7QklQV15lbHN6gYiPlp2kq7K5wMfO1dw=" (demoRows, [])
      = ((memStore.ByRemember (demoValidator.hmac.Hash demoPackages
            "AwoRGB8mLTQ7QklQV15lbHN6gYiPlp2kq7K5wMfO1dw=") demoRows).1,
          ((memStore.ByRemember (demoValidator.hmac.Hash demoPackages
            "AwoRGB8mLTQ7QklQV15lbHN6gYiPlp2kq7K5wMfO1dw=") demoRows).2,
            [] ++ [UserCall.ByRemember (demoValidator.hmac.Hash demoPackages
              "AwoRGB8mLTQ7QklQV15lbHN6gYiPlp2kq7K5wMfO1dw=")])) :=
  (byRemember_queries_hash demoPackages demoValidator
    "AwoRGB8mLTQ7QklQV15lbHN6gYiPlp2kq7K5wMfO1dw=" demoRows [] (by decide)).1

/-- Normalising twice is normalising once, for a string whose runes above ASCII are
lowercased by the table to runes that lowercasing leaves alone. -/
theorem normalize_normalize (x : Packages) (e : String)
    (htable : ∀ c ∈ e.data, 127 < c.toNat →
      strings.unicodeToLower x (x.unicodeLower c) = x.unicodeLower c) :
    strings.TrimSpace (strings.ToLower x (strings.TrimSpace (strings.ToLower x e)))
      = strings.TrimSpace (strings.ToLower x e) := by
  have hlow : ∀ c ∈ e.data, strings.unicodeToLower x (strings.unicodeToLower x c)
      = strings.unicodeToLower x c := by
    intro c hc
    by_cases ha : c.toNat ≤ 127
    · exact unicodeToLower_ascii x c ha
    · have h1 : strings.unicodeToLower x c = x.unicodeLower c := by
        unfold strings.unicodeToLower
        rw [if_neg ha]
      rw [h1]
      exact htable c hc (by omega)
  have hfix : ∀ a ∈ (((e.data.map (strings.unicodeToLower x)).dropWhile
      strings.unicodeIsSpace).reverse.dropWhile strings.unicodeIsSpace).reverse,
      strings.unicodeToLower x a = a := by
    intro a ha
    have hm := mem_of_mem_trim _ _ a ha
    obtain ⟨c, hc, rfl⟩ := List.mem_map.mp hm
    exact hlow c hc
  have hmap : ((((e.data.map (strings.unicodeToLower x)).dropWhile
      strings.unicodeIsSpace).reverse.dropWhile strings.unicodeIsSpace).reverse).map
        (strings.unicodeToLower x)
      = (((e.data.map (strings.unicodeToLower x)).dropWhile
      strings.unicodeIsSpace).reverse.dropWhile strings.unicodeIsSpace).reverse := by
    conv => rhs; rw [← List.map_id ((((e.data.map (strings.unicodeToLower x)).dropWhile
      strings.unicodeIsSpace).reverse.dropWhile strings.unicodeIsSpace).reverse)]
    exact List.map_congr_left hfix
  simp only [strings.TrimSpace, strings.ToLower, hmap, trim_trim]

/-- Two strings that differ only in case and in ASCII white space around them have the
same normal form. -/
theorem normalize_eq_of_same (x : Packages) (e1 e2 : String)
    (h : SameUpToCaseAndPadding x e1 e2) :
    strings.TrimSpace (strings.ToLower x e2) = strings.TrimSpace (strings.ToLower x e1) := by
  obtain ⟨pre1, core1, post1, pre2, core2, post2, h1, h2, hsp, hcore⟩ := h
  have hmapfix : ∀ l : List Char, (∀ c ∈ l, isASCIISpace c = true) →
      l.map (strings.unicodeToLower x) = l := by
    intro l hl
    conv => rhs; rw [← List.map_id l]
    exact List.map_congr_left (fun c hc => (isASCIISpace_spec x c (hl c hc)).2)
  have hs1 : ∀ c ∈ pre1, isASCIISpace c = true := fun c hc => hsp c (by simp [hc])
  have hs2 : ∀ c ∈ post1, isASCIISpace c = true := fun c hc => hsp c (by simp [hc])
  have hs3 : ∀ c ∈ pre2, isASCIISpace c = true := fun c hc => hsp c (by simp [hc])
  have hs4 : ∀ c ∈ post2, isASCIISpace c = true := fun c hc => hsp c (by simp [hc])
  have hu : ∀ l : List Char, (∀ c ∈ l, isASCIISpace c = true) →
      ∀ c ∈ l, strings.unicodeIsSpace c = true :=
    fun l hl c hc => (isASCIISpace_spec x c (hl c hc)).1
  simp only [strings.TrimSpace, strings.ToLower, h1, h2, List.map_append, hmapfix pre1 hs1,
    hmapfix post1 hs2, hmapfix pre2 hs3, hmapfix post2 hs4]
  rw [trim_padded _ pre1 _ post1 (hu pre1 hs1) (hu post1 hs2),
    trim_padded _ pre2 _ post2 (hu pre2 hs3) (hu post2 hs4), hcore]

/-- C16. Email normalisation is idempotent: normalising (lowercase, then trim) an
already normalised email leaves it unchanged, and `normalizeEmail` never returns an
error. The case table of package `unicode` enters for the runes above ASCII: it maps
them to runes that lowercasing leaves alone. -/
theorem normalizeEmail_idempotent {τ : Type} (x : Packages) (uv : userValidator τ)
    (user : User) (t : τ)
    (htable : ∀ c ∈ user.Email.data, 127 < c.toNat →
      strings.unicodeToLower x (x.unicodeLower c) = x.unicodeLower c) :
    strings.TrimSpace (strings.ToLower x (strings.TrimSpace (strings.ToLower x user.Email)))
      = strings.TrimSpace (strings.ToLower x user.Email) ∧
    (uv.normalizeEmail x user t).1.2 = none ∧
    uv.normalizeEmail x (uv.normalizeEmail x user t).1.1 (uv.normalizeEmail x user t).2
      = uv.normalizeEmail x user t := by
  have h := normalize_normalize x user.Email htable
  refine ⟨h, rfl, ?_⟩
  simp only [userValidator.normalizeEmail, h]

theorem normalizeEmail_idempotent_witness :
    strings.TrimSpace (strings.ToLower demoPackages
        (strings.TrimSpace (strings.ToLower demoPackages demoSecond.Email)))
      = strings.TrimSpace (strings.ToLower demoPackages demoSecond.Email) ∧
    (demoValidator.normalizeEmail demoPackages demoSecond demoRows).1.2 = none ∧
    demoValidator.normalizeEmail demoPackages
        (demoValidator.normalizeEmail demoPackages demoSecond demoRows).1.1
        (demoValidator.normalizeEmail demoPackages demoSecond demoRows).2
      = demoValidator.normalizeEmail demoPackages demoSecond demoRows :=
  normalizeEmail_idempotent demoPackages demoValidator demoSecond demoRows (by decide)

/-- C20. `ByEmail(e)` makes exactly one call to the wrapped store, `ByEmail` with the
lowercased and trimmed form of `e`, and returns its answer; so two emails that differ
only in letter case or in leading and trailing white space produce the same store query
and the same result. -/
theorem byEmail_queries_normalised {σ : Type} (x : Packages) (uv : userValidator σ)
    (e1 e2 : String) (s : σ) (log : List UserCall)
    (hsame : SameUpToCaseAndPadding x e1 e2) :
    uv.tracing.ByEmail x e1 (s, log)
      = ((uv.UserDB.ByEmail (strings.TrimSpace (strings.ToLower x e1)) s).1,
          ((uv.UserDB.ByEmail (strings.TrimSpace (strings.ToLower x e1)) s).2,
            log ++ [UserCall.ByEmail (strings.TrimSpace (strings.ToLower x e1))])) ∧
    strings.TrimSpace (strings.ToLower x e2) = strings.TrimSpace (strings.ToLower x e1) ∧
    uv.tracing.ByEmail x e2 (s, log) = uv.tracing.ByEmail x e1 (s, log) := by
  have hn := normalize_eq_of_same x e1 e2 hsame
  refine ⟨?_, hn, ?_⟩
  · simp [userValidator.ByEmail, runUserValFuncs, userValidator.normalizeEmail, User.zero,
      userValidator.tracing, UserDB.traced]
  · simp [userValidator.ByEmail, runUserValFuncs, userValidator.normalizeEmail, User.zero,
      hn]

theorem byEmail_queries_normalised_witness :
    demoValidator.tracing.ByEmail demoPackages "  a@b.COM\t" (demoRows, [])
      = demoValidator.tracing.ByEmail demoPackages "A@B.com" (demoRows, []) :=
  (byEmail_queries_normalised demoPackages demoValidator "A@B.com" "  a@b.COM\t" demoRows []
    ⟨[], "A@B.com".data, [], [' ', ' '], "a@b.COM".data, ['\t'], by decide, by decide,
      by decide, by decide⟩).2.2

/-- C29, as stated, fails: `n` may be any `int` above 0, and for `n = 2^50` the
`make([][]Image, n)` of the first line panics with `makeslice: len out of range`, so no
lists are returned. -/
theorem imageSplitN_large_n_panics :
    (0 : Int) < 2 ^ 50 ∧ (2 : Int) ^ 50 < 2 ^ 63 ∧
    demoGallery.ImageSplitN demoLimits (2 ^ 50)
      = Except.error RuntimePanic.makesliceLenOutOfRange :=
  ⟨by decide, by decide, by rfl⟩

/-- C29, amended: for `n > 0` within what `make([][]Image, n)` allows (at most `maxLen`
and `heapLen`), `ImageSplitN(n)` returns `n` lists; list `b` holds at position `p` the
image of index `p * n + b`, so the image of index `i` is at position `i / n` of list
`i % n`; the lists together hold every image once, each list keeps the order of the
images, and the lengths of two lists differ by at most one. -/
theorem imageSplitN_round_robin (rt : MakeLimits) (g : Gallery) (n : Nat) (hn : 0 < n)
    (hmax : n ≤ rt.maxLen) (hheap : n ≤ rt.heapLen) :
    ∃ lists, g.ImageSplitN rt (n : Int) = Except.ok lists ∧ lists.length = n ∧
      (∀ i, i < g.Images.length → (lists.getD (i % n) [])[i / n]? = g.Images[i]?) ∧
      (∀ b, b < n → ∀ p, (lists.getD b [])[p]? = g.Images[p * n + b]?) ∧
      lists.flatten.Perm g.Images ∧
      (∀ b, b < n → (lists.getD b []).Sublist g.Images) ∧
      (∀ b1 b2, b1 < n → b2 < n →
        (lists.getD b1 []).length ≤ (lists.getD b2 []).length + 1) := by
  obtain ⟨lists, hl, hlen, hperm, hpos⟩ :=
    Gallery.imageSplitLoop_inv hn g.Images [] _ (Gallery.SplitInv_replicate n)
  simp only [List.nil_append, List.length_nil] at hl hperm hpos
  have hget : ∀ b, b < n → ∀ p, (lists.getD b [])[p]? = g.Images[p * n + b]? := by
    intro b hb p
    obtain ⟨bucket, hbk, _, hg⟩ := hpos b hb
    rw [List.getD_eq_getElem?_getD, hbk]
    exact hg p
  have hlength : ∀ b, b < n → ∀ p,
      (lists.getD b []).length ≤ p ↔ g.Images.length ≤ p * n + b := by
    intro b hb p
    rw [← List.getElem?_eq_none_iff, hget b hb p, List.getElem?_eq_none_iff]
  refine ⟨lists, ?_, hlen, ?_, hget, hperm, ?_, ?_⟩
  · have h0 : ¬ ((n : Int) < 0 ∨ (rt.maxLen : Int) < (n : Int)) := by omega
    have h1 : ¬ ((rt.heapLen : Int) < (n : Int)) := by omega
    simp only [Gallery.ImageSplitN, h0, h1, if_false, Int.toNat_ofNat]
    exact hl
  · intro i _
    rw [hget (i % n) (Nat.mod_lt i hn) (i / n), Nat.div_add_mod']
  · intro b hb
    obtain ⟨bucket, hbk, hsub, _⟩ := hpos b hb
    rw [List.getD_eq_getElem?_getD, hbk]
    exact hsub
  · intro b1 b2 hb1 hb2
    have h2 := (hlength b2 hb2 (lists.getD b2 []).length).mp (Nat.le_refl _)
    apply (hlength b1 hb1 _).mpr
    rw [Nat.add_mul]
    omega

theorem imageSplitN_round_robin_witness :
    (0 < 3) ∧ ∃ lists, demoGallery.ImageSplitN demoLimits ((3 : Nat) : Int)
        = Except.ok lists ∧
      lists.length = 3 ∧
      (∀ i, i < demoGallery.Images.length →
        (lists.getD (i % 3) [])[i / 3]? = demoGallery.Images[i]?) ∧
      (∀ b, b < 3 → ∀ p, (lists.getD b [])[p]? = demoGallery.Images[p * 3 + b]?) ∧
      lists.flatten.Perm demoGallery.Images ∧
      (∀ b, b < 3 → (lists.getD b []).Sublist demoGallery.Images) ∧
      (∀ b1 b2, b1 < 3 → b2 < 3 →
        (lists.getD b1 []).length ≤ (lists.getD b2 []).length + 1) :=
  ⟨by decide, imageSplitN_round_robin demoLimits demoGallery 3 (by decide) (by decide)
    (by decide)⟩

/-- C30, as stated, fails: `ImageSplitN` is not total from 1 on. For the largest `int`,
`n = 2^63 - 1`, and for `n = 2^62`, `make([][]Image, n)` panics with `makeslice: len
out of range`, also for a gallery without images. -/
theorem imageSplitN_not_total_from_one :
    (1 : Int) ≤ 2 ^ 63 - 1 ∧
    Gallery.ImageSplitN demoLimits { demoGallery with Images := [] } (2 ^ 63 - 1)
      = Except.error RuntimePanic.makesliceLenOutOfRange ∧
    demoGallery.ImageSplitN demoLimits (2 ^ 62)
      = Except.error RuntimePanic.makesliceLenOutOfRange :=
  ⟨by decide, by rfl, by rfl⟩

/-- C30, amended: `ImageSplitN` returns a result for every `n ≥ 1` within what
`make([][]Image, n)` allows; above `maxLen` it panics in `make`, and between the heap's
room and `maxLen` the program ends out of memory. For `n = 0` it returns the empty list
when the gallery has no images and panics with the division by zero of `i % n` exactly
when the gallery has an image. -/
theorem imageSplitN_total_within_make (rt : MakeLimits) (g : Gallery) :
    (∀ n : Int, 1 ≤ n → n ≤ rt.maxLen → n ≤ rt.heapLen →
      ∃ lists, g.ImageSplitN rt n = Except.ok lists) ∧
    (∀ n : Int, (rt.maxLen : Int) < n →
      g.ImageSplitN rt n = Except.error RuntimePanic.makesliceLenOutOfRange) ∧
    (∀ n : Int, 0 ≤ n → n ≤ rt.maxLen → (rt.heapLen : Int) < n →
      g.ImageSplitN rt n = Except.error RuntimePanic.outOfMemory) ∧
    (g.ImageSplitN rt 0 = Except.ok [] ↔ g.Images = []) ∧
    (g.ImageSplitN rt 0 = Except.error RuntimePanic.integerDivideByZero ↔ g.Images ≠ []) ∧
    (∀ e, g.ImageSplitN rt 0 = Except.error e → e = RuntimePanic.integerDivideByZero) := by
  have hzero : g.ImageSplitN rt 0 = Gallery.imageSplitLoop 0 g.Images 0 [] := by
    have h0 : ¬ ((rt.maxLen : Int) < 0) := by omega
    have h1 : ¬ ((rt.heapLen : Int) < 0) := by omega
    simp [Gallery.ImageSplitN, h0, h1]
  refine ⟨?_, ?_, ?_, ?_, ?_, ?_⟩
  · intro n hn hmax hheap
    have h0 : ¬ (n < 0 ∨ (rt.maxLen : Int) < n) := by omega
    have h1 : ¬ ((rt.heapLen : Int) < n) := by omega
    obtain ⟨lists, hl, _⟩ :=
      Gallery.imageSplitLoop_inv (n := n.toNat) (by omega) g.Images [] _
        (Gallery.SplitInv_replicate n.toNat)
    exact ⟨lists, by simpa [Gallery.ImageSplitN, h0, h1] using hl⟩
  · intro n hn
    simp [Gallery.ImageSplitN, hn]
  · intro n h0 hmax hheap
    have h1 : ¬ (n < 0 ∨ (rt.maxLen : Int) < n) := by omega
    simp [Gallery.ImageSplitN, h1, hheap]
  · rw [hzero]
    cases hi : g.Images with
    | nil => simp [Gallery.imageSplitLoop]
    | cons a rest => simp [Gallery.imageSplitLoop]
  · rw [hzero]
    cases hi : g.Images with
    | nil => simp [Gallery.imageSplitLoop]
    | cons a rest => simp [Gallery.imageSplitLoop]
  · intro e
    rw [hzero]
    cases hi : g.Images with
    | nil => simp [Gallery.imageSplitLoop]
    | cons a rest =>
      simp only [Gallery.imageSplitLoop]
      intro h
      simp at h
      exact h.symm

theorem imageSplitN_total_within_make_witness :
    (∃ lists, demoGallery.ImageSplitN demoLimits 3 = Except.ok lists) ∧
    demoGallery.ImageSplitN demoLimits (2 ^ 48)
      = Except.error RuntimePanic.makesliceLenOutOfRange ∧
    demoGallery.ImageSplitN demoLimits (2 ^ 40) = Except.error RuntimePanic.outOfMemory ∧
    demoGallery.ImageSplitN demoLimits 0
      = Except.error RuntimePanic.integerDivideByZero :=
  ⟨(imageSplitN_total_within_make demoLimits demoGallery).1 3 (by decide) (by decide)
      (by decide),
    (imageSplitN_total_within_make demoLimits demoGallery).2.1 (2 ^ 48) (by decide),
    (imageSplitN_total_within_make demoLimits demoGallery).2.2.1 (2 ^ 40) (by decide)
      (by decide) (by decide),
    (imageSplitN_total_within_make demoLimits demoGallery).2.2.2.2.1.mpr (by decide)⟩

/-- The runners stop at the first failure. `runUserValFuncs` and `runGalleryValFuncs` run
the steps in the order given: when the steps `pre` return nil and the next step `f`
returns an error, the run returns that error with the user and the store as `f` left
them, whatever steps `post` follow; a failed run failed at one of its steps in this way;
and the result is nil exactly when every step, run after the ones before it, returns
nil. So `Create` reports the earliest failing check: an empty password gives
`ErrPasswordRequired` whatever the email is (for example "bad"), and a password of one
to seven bytes, such as "short", gives `ErrPasswordTooShort` whatever the email is. -/
theorem runners_stop_at_first_failure {σ ρ : Type} (x : Packages)
    (uv : userValidator σ) :
    (∀ (pre post : List (userValidateFunc σ)) (f : userValidateFunc σ) (user u u1 : User)
        (t t1 t2 : σ) (e : Err), runUserValFuncs user pre t = ((u, none), t1) →
        f u t1 = ((u1, some e), t2) →
        runUserValFuncs user (pre ++ f :: post) t = ((u1, some e), t2)) ∧
    (∀ (fns : List (userValidateFunc σ)) (user u1 : User) (t t2 : σ) (e : Err),
        runUserValFuncs user fns t = ((u1, some e), t2) →
        ∃ pre f post u t1, fns = pre ++ f :: post ∧
          runUserValFuncs user pre t = ((u, none), t1) ∧ f u t1 = ((u1, some e), t2)) ∧
    (∀ (fns : List (userValidateFunc σ)) (user : User) (t : σ),
        (runUserValFuncs user fns t).1.2 = none ↔
          ∀ pre f post, fns = pre ++ f :: post →
            ∃ u t1, runUserValFuncs user pre t = ((u, none), t1) ∧ (f u t1).1.2 = none) ∧
    (∀ (pre post : List (galleryValidateFunc ρ)) (f : galleryValidateFunc ρ)
        (gallery g g1 : Gallery) (t t1 t2 : ρ) (e : Err),
        runGalleryValFuncs gallery pre t = ((g, none), t1) →
        f g t1 = ((g1, some e), t2) →
        runGalleryValFuncs gallery (pre ++ f :: post) t = ((g1, some e), t2)) ∧
    (∀ (fns : List (galleryValidateFunc ρ)) (gallery g1 : Gallery) (t t2 : ρ) (e : Err),
        runGalleryValFuncs gallery fns t = ((g1, some e), t2) →
        ∃ pre f post g t1, fns = pre ++ f :: post ∧
          runGalleryValFuncs gallery pre t = ((g, none), t1) ∧
          f g t1 = ((g1, some e), t2)) ∧
    (∀ (fns : List (galleryValidateFunc ρ)) (gallery : Gallery) (t : ρ),
        (runGalleryValFuncs gallery fns t).1.2 = none ↔
          ∀ pre f post, fns = pre ++ f :: post →
            ∃ g t1, runGalleryValFuncs gallery pre t = ((g, none), t1) ∧
              (f g t1).1.2 = none) ∧
    (∀ (user : User) (t : σ), user.Password = "" →
        uv.Create x user t = ((user, some ErrPasswordRequired), t)) ∧
    (∀ (t : σ), uv.Create x { User.zero with Email := "bad" } t
        = (({ User.zero with Email := "bad" }, some ErrPasswordRequired), t)) ∧
    (∀ (user : User) (t : σ), user.Password ≠ "" → user.Password.utf8ByteSize < 8 →
        uv.Create x user t = ((user, some ErrPasswordTooShort), t)) ∧
    (∀ (t : σ), uv.Create x { User.zero with Password := "short" } t
        = (({ User.zero with Password := "short" }, some ErrPasswordTooShort), t)) := by
  have hreq : ∀ (user : User) (t : σ), user.Password = "" →
      uv.Create x user t = ((user, some ErrPasswordRequired), t) := by
    intro user t h
    simp [userValidator.Create, userValidator.createFuncs, runUserValFuncs,
      userValidator.passwordRequired, h]
  have hshort : ∀ (user : User) (t : σ), user.Password ≠ "" →
      user.Password.utf8ByteSize < 8 →
      uv.Create x user t = ((user, some ErrPasswordTooShort), t) :=
    fun user t h1 h2 => (short_password_rejected x uv user t h1 h2).1
  refine ⟨runUserValFuncs_fail_at, runUserValFuncs_error_split, runUserValFuncs_nil_iff,
    runGalleryValFuncs_fail_at, runGalleryValFuncs_error_split, runGalleryValFuncs_nil_iff,
    hreq, fun t => hreq _ t rfl, hshort, fun t => hshort _ t (by decide) (by decide)⟩

/-- C26: `emailNotTaken` returns nil when the lookup by the user's email fails with
`ErrNotFound` or finds a user with the ID of the user being validated, `ErrEmailTaken`
when it finds a user with another ID, and any other error of the lookup as it is. Hence
an `Update` of a user under whose email the lookup finds nobody else does not fail with
`ErrEmailTaken`, the package `bcrypt` and the store returning no `ErrEmailTaken` of
their own. -/
theorem emailNotTaken_compares_owner {τ : Type} (x : Packages) (uv : userValidator τ)
    (user : User) (t : τ) :
    (∀ p t1, uv.ByEmail x user.Email t = (Lookup.failed p ErrNotFound, t1) →
        uv.emailNotTaken x user t = ((user, none), t1)) ∧
    (∀ existing t1, uv.ByEmail x user.Email t = (Lookup.found existing, t1) →
        existing.ID = user.ID → uv.emailNotTaken x user t = ((user, none), t1)) ∧
    (∀ existing t1, uv.ByEmail x user.Email t = (Lookup.found existing, t1) →
        existing.ID ≠ user.ID →
        uv.emailNotTaken x user t = ((user, some ErrEmailTaken), t1)) ∧
    (∀ p err t1, uv.ByEmail x user.Email t = (Lookup.failed p err, t1) →
        err ≠ ErrNotFound → uv.emailNotTaken x user t = ((user, some err), t1)) ∧
    ((∀ (p : String) (c : Nat) (e : Err),
        x.bcryptGenerate p c = Except.error e → e ≠ ErrEmailTaken) →
      (∀ (e : String) (s s1 : τ) (p : Option User) (err : Err),
        uv.UserDB.ByEmail e s = (Lookup.failed p err, s1) → err ≠ ErrEmailTaken) →
      (∀ (u : User) (s : τ), (uv.UserDB.Update u s).1.2 ≠ some ErrEmailTaken) →
      (∀ existing t1,
        uv.ByEmail x (strings.TrimSpace (strings.ToLower x user.Email)) t
          = (Lookup.found existing, t1) → existing.ID = user.ID) →
      (uv.Update x user t).1.2 ≠ some ErrEmailTaken) := by
  refine ⟨?_, ?_, ?_, ?_, ?_⟩
  · intro p t1 h
    simp [userValidator.emailNotTaken, h]
  · intro existing t1 h hid
    simp [userValidator.emailNotTaken, h, hid]
  · intro existing t1 h hid
    simp [userValidator.emailNotTaken, h, hid]
  · intro p err t1 h hne
    simp [userValidator.emailNotTaken, h, hne]
  · intro hb hl hs hown
    unfold userValidator.Update
    rw [userValidator.updateFuncs_eq_append, runUserValFuncs_append]
    rcases hr : runUserValFuncs user (uv.updateFuncs x).dropLast t with ⟨⟨u, _ | e⟩, t1⟩
    · obtain ⟨ht, ph, rh, _, _, _, _, _, _, _, _, hu⟩ :=
        userValidator.updateChecks_ok x uv _ _ _ _ hr
      subst ht
      have hmail : u.Email = strings.TrimSpace (strings.ToLower x user.Email) := by
        rw [hu]
      have hid : u.ID = user.ID := by rw [hu]
      simp only [runUserValFuncs]
      rcases hl1 : uv.ByEmail x u.Email t1 with ⟨_ | ⟨p, err⟩, t2⟩
      · rename_i existing
        have hsame := hown existing t2 (by rw [← hmail]; exact hl1)
        have he : uv.emailNotTaken x u t1 = ((u, none), t2) := by
          simp [userValidator.emailNotTaken, hl1, hsame, hid]
        simp only [he]
        exact hs u t2
      · have hne : err ≠ ErrEmailTaken := by
          rw [userValidator.ByEmail_eq] at hl1
          exact hl _ _ _ _ _ hl1
        by_cases hnf : err = ErrNotFound
        · have he : uv.emailNotTaken x u t1 = ((u, none), t2) := by
            simp [userValidator.emailNotTaken, hl1, hnf]
          simp only [he]
          exact hs u t2
        · have he : uv.emailNotTaken x u t1 = ((u, some err), t2) := by
            simp [userValidator.emailNotTaken, hl1, hnf]
          simp only [he]
          intro hc
          cases hc
          exact hne rfl
    · simp only
      intro hc
      cases hc
      exact userValidator.updateChecks_error x uv hb _ _ _ _ _ hr rfl

theorem emailNotTaken_compares_owner_witness :
    (demoValidator.Update demoPackages demoUpdate demoRows).1.2 ≠ some ErrEmailTaken :=
  (emailNotTaken_compares_owner demoPackages demoValidator demoUpdate demoRows).2.2.2.2
    (fun p c e h => by cases h)
    (fun e s s1 p err h => by
      rw [memStore_ByEmail_failed e s s1 p err h]
      decide)
    (fun u s h => by
      have := memStore_Update_error u s _ h
      cases this)
    (fun existing t1 h => by
      have hl : demoValidator.ByEmail demoPackages
          (strings.TrimSpace (strings.ToLower demoPackages demoUpdate.Email)) demoRows
          = (Lookup.found { demoUpdate with
              Name := "Ann", Email := "a@b.com" }, demoRows) := by decide
      rw [hl] at h
      cases h
      rfl)

/-- C23: a failed `Create` is not rolled back. When the eight password and token steps
return nil (the password is valid) and the validation fails at a later step, one of the
email steps, `Create` returns that error and leaves the user with `Password` cleared and
`PasswordHash`, `Remember` and `RememberHash` set, as the eight steps left them; the
calls made to the store are lookups: its `Create` has not been called. -/
theorem failed_create_not_rolled_back {σ : Type} (x : Packages) (uv : userValidator σ)
    (user u8 : User) (s : σ) (log : List UserCall) (t8 : σ × List UserCall) (err : Err)
    (hpre : runUserValFuncs user ((uv.tracing.createFuncs x).take 8) (s, log)
      = ((u8, none), t8))
    (hfail : (uv.tracing.createValidation x user (s, log)).1.2 = some err) :
    ∃ u t1 reads, uv.tracing.Create x user (s, log) = ((u, some err), t1) ∧
      u.Password = "" ∧ u.PasswordHash ≠ "" ∧ u.Remember ≠ "" ∧ u.RememberHash ≠ "" ∧
      u.PasswordHash = u8.PasswordHash ∧ u.Remember = u8.Remember ∧
      u.RememberHash = uv.hmac.Hash x u.Remember ∧
      t1.2 = log ++ reads ∧ (∀ c ∈ reads, c.isMutating = false) ∧
      (∀ v, UserCall.Create v ∉ reads) := by
  obtain ⟨ht8, hashed, tok, _, _, _, hh, _, htok, _, hrh, hu8⟩ :=
    userValidator.createTokenChecks_ok x uv.tracing user u8 _ _ hpre
  subst ht8
  obtain ⟨reads, hlog, hreads⟩ :=
    userValidator.checks_then_emailNotTaken_log x uv (uv.tracing.createFuncs x).dropLast
      (userValidator.createChecks_state x uv.tracing) user s log
  have hval : uv.tracing.createValidation x user (s, log)
      = runUserValFuncs u8 [uv.tracing.normalizeEmail x, uv.tracing.requireEmail,
          uv.tracing.emailFormat, uv.tracing.emailNotTaken x] (s, log) := by
    unfold userValidator.createValidation
    rw [userValidator.createFuncs_eq_take_append, runUserValFuncs_append, hpre]
  have hkeep := userValidator.emailSteps_keep x uv.tracing u8 (s, log)
  rw [← hval] at hkeep
  have hlog2 : (uv.tracing.createValidation x user (s, log)).2.2 = log ++ reads := by
    rw [← hlog]
    rfl
  rcases hv : uv.tracing.createValidation x user (s, log) with ⟨⟨u, e⟩, t1⟩
  rw [hv] at hfail hkeep hlog2
  simp only at hfail hkeep hlog2
  subst hfail
  refine ⟨u, t1, reads, ?_, ?_, ?_, ?_, ?_, ?_, ?_, ?_, hlog2, hreads, ?_⟩
  · unfold userValidator.Create
    unfold userValidator.createValidation at hv
    rw [hv]
  · rw [hkeep, hu8]
  · rw [hkeep, hu8]; exact hh
  · rw [hkeep, hu8]; exact htok
  · rw [hkeep, hu8]; exact hrh
  · rw [hkeep]
  · rw [hkeep]
  · rw [hkeep, hu8]; rfl
  · intro v hmem
    have := hreads _ hmem
    simp [UserCall.isMutating] at this

/-- A signup with a valid password and the email "bad". -/
theorem failed_create_not_rolled_back_witness :
    ∃ u t1 reads,
      demoValidator.tracing.Create demoPackages
          { User.zero with Email := "bad", Password := "adequate1" } ([], [])
        = ((u, some ErrEmailInvalid), t1) ∧
      u.Password = "" ∧ u.PasswordHash ≠ "" ∧ u.Remember ≠ "" ∧ u.RememberHash ≠ "" ∧
      u.PasswordHash = "$2a$10$adequate1secret-pepper" ∧
      u.Remember = "AwoRGB8mLTQ7QklQV15lbHN6gYiPlp2kq7K5wMfO1dw=" ∧
      u.RememberHash = demoValidator.hmac.Hash demoPackages u.Remember ∧
      t1.2 = [] ++ reads ∧ (∀ c ∈ reads, c.isMutating = false) ∧
      (∀ v, UserCall.Create v ∉ reads) :=
  failed_create_not_rolled_back demoPackages demoValidator
    { User.zero with Email := "bad", Password := "adequate1" }
    { User.zero with
      Email := "bad", PasswordHash := "$2a$10$adequate1secret-pepper",
      Remember := "AwoRGB8mLTQ7QklQV15lbHN6gYiPlp2kq7K5wMfO1dw=",
      RememberHash := "c2VjcmV0LWhtYWMta2V5QXdvUkdCOG1MVFE3UWtsUVY=" }
    [] [] ([], []) ErrEmailInvalid (by decide) (by decide)

/-- C27, as stated, fails: a new user with the token "YWJj", which decodes to
three bytes, and no password gets `ErrPasswordRequired` from `Create`, and a user with
that token and the password "short" gets `ErrPasswordTooShort` from `Update`: neither
gets `ErrBytesTooShort`. -/
theorem short_token_counterexample :
    rand.NBytes "YWJj" = (3, none) ∧
    (demoValidator.Create demoPackages
        { User.zero with Email := "a@b.com", Remember := "YWJj" } []).1.2
      = some ErrPasswordRequired ∧
    (demoValidator.Update demoPackages
        { User.zero with Email := "a@b.com", Password := "short", Remember := "YWJj" }
        []).1.2
      = some ErrPasswordTooShort ∧
    ErrPasswordRequired ≠ ErrBytesTooShort ∧ ErrPasswordTooShort ≠ ErrBytesTooShort := by
  decide

/-- C27, amended: for a user whose `Remember` token is set and does not decode to at
least 32 bytes (`rand.NBytes` returns an error, or fewer than 32), `Create` and `Update`
fail, leave `Remember` and `RememberHash` as they were and do not call the store; when
the steps before `rememberMinBytes` return nil (five in `Create`, three in `Update`), the
error is the decoder's if the token is not a valid encoding and `ErrBytesTooShort` if it
decodes to fewer than 32 bytes. -/
theorem short_token_rejected {σ : Type} (x : Packages) (uv : userValidator σ) (user : User)
    (s : σ) (log : List UserCall) (n : Int) (oe : Option Err)
    (hne : user.Remember ≠ "") (hdec : rand.NBytes user.Remember = (n, oe))
    (hbad : oe = none → n < 32) :
    (∃ u err, uv.tracing.Create x user (s, log) = ((u, some err), (s, log)) ∧
      u.Remember = user.Remember ∧ u.RememberHash = user.RememberHash) ∧
    (∀ u5 t5, runUserValFuncs user ((uv.tracing.createFuncs x).take 5) (s, log)
        = ((u5, none), t5) →
      uv.tracing.Create x user (s, log)
        = ((u5, some (oe.getD ErrBytesTooShort)), (s, log))) ∧
    (∃ u err, uv.tracing.Update x user (s, log) = ((u, some err), (s, log)) ∧
      u.Remember = user.Remember ∧ u.RememberHash = user.RememberHash) ∧
    (∀ u3 t3, runUserValFuncs user ((uv.tracing.updateFuncs x).take 3) (s, log)
        = ((u3, none), t3) →
      uv.tracing.Update x user (s, log)
        = ((u3, some (oe.getD ErrBytesTooShort)), (s, log))) := by
  have hc := userValidator.minBytes_run_fails x uv.tracing
    [uv.tracing.passwordRequired, uv.tracing.passwordMinLength, uv.tracing.bcryptPassword x,
      uv.tracing.passwordHashRequired, uv.tracing.setRememberIfUnset x]
    [uv.tracing.hmacRemember x, uv.tracing.rememberHashRequired,
      uv.tracing.normalizeEmail x, uv.tracing.requireEmail, uv.tracing.emailFormat,
      uv.tracing.emailNotTaken x]
    (by intro f hf; simpa using hf) user (s, log) n oe hne hdec hbad
  have hu := userValidator.minBytes_run_fails x uv.tracing
    [uv.tracing.passwordMinLength, uv.tracing.bcryptPassword x,
      uv.tracing.passwordHashRequired]
    [uv.tracing.hmacRemember x, uv.tracing.rememberHashRequired,
      uv.tracing.normalizeEmail x, uv.tracing.requireEmail, uv.tracing.emailFormat,
      uv.tracing.emailNotTaken x]
    (by
      intro f hf
      simp only [List.mem_cons, List.mem_singleton, List.not_mem_nil, or_false] at hf
      rcases hf with rfl | rfl | rfl
      · exact Or.inr (Or.inl rfl)
      · exact Or.inr (Or.inr (Or.inl rfl))
      · exact Or.inr (Or.inr (Or.inr (Or.inl rfl))))
    user (s, log) n oe hne hdec hbad
  rw [← userValidator.createFuncs_split_minBytes] at hc
  rw [← userValidator.updateFuncs_split_minBytes] at hu
  obtain ⟨⟨uc, ec, hc1, hc2, hc3⟩, hc4⟩ := hc
  obtain ⟨⟨uu, eu, hu1, hu2, hu3⟩, hu4⟩ := hu
  refine ⟨⟨uc, ec, ?_, hc2, hc3⟩, ?_, ⟨uu, eu, ?_, hu2, hu3⟩, ?_⟩
  · unfold userValidator.Create
    rw [hc1]
  · intro u5 t5 h5
    unfold userValidator.Create
    rw [hc4 u5 t5 h5]
  · unfold userValidator.Update
    rw [hu1]
  · intro u3 t3 h3
    unfold userValidator.Update
    rw [hu4 u3 t3 h3]

theorem short_token_rejected_witness :
    (∃ u err, demoValidator.tracing.Create demoPackages
          { User.zero with Email := "a@b.com", Password := "adequate1", Remember := "YWJj" }
          ([], [])
        = ((u, some err), ([], [])) ∧
      u.Remember = "YWJj" ∧ u.RememberHash = "") ∧
    (∀ u5 t5, runUserValFuncs
          { User.zero with Email := "a@b.com", Password := "adequate1", Remember := "YWJj" }
          ((demoValidator.tracing.createFuncs demoPackages).take 5) ([], [])
        = ((u5, none), t5) →
      demoValidator.tracing.Create demoPackages
          { User.zero with Email := "a@b.com", Password := "adequate1", Remember := "YWJj" }
          ([], [])
        = ((u5, some ((none : Option Err).getD ErrBytesTooShort)), ([], []))) ∧
    (∃ u err, demoValidator.tracing.Update demoPackages
          { User.zero with Email := "a@b.com", Password := "adequate1", Remember := "YWJj" }
          ([], [])
        = ((u, some err), ([], [])) ∧
      u.Remember = "YWJj" ∧ u.RememberHash = "") ∧
    (∀ u3 t3, runUserValFuncs
          { User.zero with Email := "a@b.com", Password := "adequate1", Remember := "YWJj" }
          ((demoValidator.tracing.updateFuncs demoPackages).take 3) ([], [])
        = ((u3, none), t3) →
      demoValidator.tracing.Update demoPackages
          { User.zero with Email := "a@b.com", Password := "adequate1", Remember := "YWJj" }
          ([], [])
        = ((u3, some ((none : Option Err).getD ErrBytesTooShort)), ([], []))) :=
  short_token_rejected demoPackages demoValidator
    { User.zero with Email := "a@b.com", Password := "adequate1", Remember := "YWJj" }
    [] [] 3 none (by decide) (by decide) (by decide)

/-- C24, as stated, fails: the random source succeeds and `Remember` is empty,
but the user has no password, `Create` stops at its first step and `Remember` is still
empty afterwards. -/
theorem create_without_password_sets_no_token :
    (∃ tok, rand.RememberToken demoPackages = Except.ok tok) ∧
    demoNoPassword.Remember = "" ∧
    (demoValidator.Create demoPackages demoNoPassword demoRows).1.2
      = some ErrPasswordRequired ∧
    (demoValidator.Create demoPackages demoNoPassword demoRows).1.1.Remember = "" := by
  refine ⟨⟨_, rfl⟩, ?_, ?_, ?_⟩ <;> decide

/-- C24, amended: when `Create` is called with an empty `Remember`, its four password
steps return nil and the random source returns the token `tok`, `Remember` is `tok`
afterwards, and `tok` decodes to exactly 32 bytes; when `Remember` is already set it is
not replaced; and after a successful `Create` the token is still in `Remember` and
`RememberHash` is `hmac.Hash` of it. The store's `Create` writes only the ID. -/
theorem create_sets_remember_when_unset {τ : Type} (x : Packages) (uv : userValidator τ)
    (hw : uv.UserDB.CreateWritesOnlyID) (user : User) (t : τ) :
    (∀ (tok : String) (u4 : User) (t4 : τ), user.Remember = "" →
      rand.RememberToken x = Except.ok tok →
      runUserValFuncs user ((uv.createFuncs x).take 4) t = ((u4, none), t4) →
      (uv.Create x user t).1.1.Remember = tok ∧ rand.NBytes tok = (32, none)) ∧
    (user.Remember ≠ "" → (uv.Create x user t).1.1.Remember = user.Remember) ∧
    (∀ (u1 : User) (t1 : τ), uv.Create x user t = ((u1, none), t1) →
      u1.Remember ≠ "" ∧ u1.RememberHash = uv.hmac.Hash x u1.Remember ∧
      (user.Remember = "" → rand.RememberToken x = Except.ok u1.Remember) ∧
      (user.Remember ≠ "" → u1.Remember = user.Remember)) := by
  have hstore : ∀ u s, (uv.UserDB.Create u s).1.1.Remember = u.Remember := by
    intro u s
    rw [hw u s]
  have hrun : (uv.Create x user t).1.1.Remember
      = (runUserValFuncs user (uv.createFuncs x) t).1.1.Remember := by
    unfold userValidator.Create
    rcases hv : runUserValFuncs user (uv.createFuncs x) t with ⟨⟨u, _ | e⟩, t1⟩
    · exact hstore u t1
    · rfl
  refine ⟨?_, ?_, ?_⟩
  · intro tok u4 t4 hempty hrand h4
    refine ⟨?_, by simpa [rand.RemberTokenBytes] using
      randNBytes_String x rand.RemberTokenBytes tok hrand⟩
    rw [hrun]
    have h4r : u4.Remember = user.Remember := by
      have hk := runUserValFuncs_keeps (fun v : User => v.Remember = user.Remember)
        ((uv.createFuncs x).take 4)
        (by
          intro f hf v s hv
          simp only [userValidator.createFuncs, List.take, List.mem_cons, List.mem_singleton,
            List.not_mem_nil, or_false] at hf
          rcases hf with rfl | rfl | rfl | rfl
          · rw [userValidator.passwordRequired_user]; exact hv
          · rw [userValidator.passwordMinLength_user]; exact hv
          · rw [userValidator.bcryptPassword_user]; exact hv
          · rw [userValidator.passwordHashRequired_user]; exact hv)
        user t rfl
      rw [h4] at hk
      exact hk
    have hsplit : uv.createFuncs x = (uv.createFuncs x).take 4 ++
        uv.setRememberIfUnset x :: [uv.rememberMinBytes, uv.hmacRemember x,
          uv.rememberHashRequired, uv.normalizeEmail x, uv.requireEmail, uv.emailFormat,
          uv.emailNotTaken x] := rfl
    have hset : uv.setRememberIfUnset x u4 t4
        = (({ u4 with Remember := tok }, none), t4) := by
      simp [userValidator.setRememberIfUnset, h4r, hempty, hrand]
    rw [hsplit, runUserValFuncs_append, h4]
    simp only [runUserValFuncs, hset]
    have hk := runUserValFuncs_keeps (fun v : User => v.Remember = tok)
      [uv.rememberMinBytes, uv.hmacRemember x, uv.rememberHashRequired,
        uv.normalizeEmail x, uv.requireEmail, uv.emailFormat, uv.emailNotTaken x]
      (by
        intro f hf v s hv
        simp only [List.mem_cons, List.mem_singleton, List.not_mem_nil, or_false] at hf
        rcases hf with rfl | rfl | rfl | rfl | rfl | rfl | rfl
        · rw [userValidator.rememberMinBytes_user]; exact hv
        · rw [userValidator.hmacRemember_user]; exact hv
        · rw [userValidator.rememberHashRequired_user]; exact hv
        · rw [userValidator.normalizeEmail_user]; exact hv
        · rw [userValidator.requireEmail_user]; exact hv
        · rw [userValidator.emailFormat_user]; exact hv
        · rw [userValidator.emailNotTaken_user]; exact hv)
      { u4 with Remember := tok } t4 rfl
    simpa [runUserValFuncs] using hk
  · intro hne
    rw [hrun]
    exact userValidator.createFuncs_keep_remember x uv user t hne
  · intro u1 t1 hc
    obtain ⟨u, tm, hpre, _, hst⟩ := userValidator.Create_ok x uv user u1 _ _ hc
    obtain ⟨_, hashed, tok, _, _, _, _, htok, htne, _, _, _, _, hu⟩ :=
      userValidator.createChecks_ok x uv user u _ _ hpre
    have hid := hw u tm
    rw [hst] at hid
    simp only at hid
    have hr : u1.Remember = tok := by rw [hid, hu]
    have hh : u1.RememberHash = uv.hmac.Hash x tok := by rw [hid, hu]
    refine ⟨by rw [hr]; exact htne, by rw [hh, hr], ?_, ?_⟩
    · intro he
      rw [hr]
      simpa [he] using htok
    · intro hne
      rw [hr]
      simpa [hne] using htok

theorem create_sets_remember_when_unset_witness :
    ((demoValidator.Create demoPackages demoUser []).1.1.Remember
        = "AwoRGB8mLTQ7QklQV15lbHN6gYiPlp2kq7K5wMfO1dw=" ∧
      rand.NBytes "AwoRGB8mLTQ7QklQV15lbHN6gYiPlp2kq7K5wMfO1dw=" = (32, none)) ∧
    (demoValidator.Create demoPackages demoWithToken demoRows).1.1.Remember
      = demoWithToken.Remember ∧
    ((demoValidator.Create demoPackages demoUser []).1.1.Remember ≠ "" ∧
      (demoValidator.Create demoPackages demoUser []).1.1.RememberHash
        = demoValidator.hmac.Hash demoPackages
            (demoValidator.Create demoPackages demoUser []).1.1.Remember) :=
  ⟨(create_sets_remember_when_unset demoPackages demoValidator memStore_CreateWritesOnlyID
      demoUser []).1 "AwoRGB8mLTQ7QklQV15lbHN6gYiPlp2kq7K5wMfO1dw="
      { demoUser with Password := "", PasswordHash := "$2a$10$adequate1secret-pepper" } []
      (by decide) (by rfl) (by decide),
    (create_sets_remember_when_unset demoPackages demoValidator memStore_CreateWritesOnlyID
      demoWithToken demoRows).2.1 (by decide),
    ((create_sets_remember_when_unset demoPackages demoValidator memStore_CreateWritesOnlyID
      demoUser []).2.2 (demoValidator.Create demoPackages demoUser []).1.1 demoRows
      (by decide)).1,
    ((create_sets_remember_when_unset demoPackages demoValidator memStore_CreateWritesOnlyID
      demoUser []).2.2 (demoValidator.Create demoPackages demoUser []).1.1 demoRows
      (by decide)).2.1⟩

/-- C21: with the pattern of `newUserValidator`, `emailFormat` returns nil exactly for
the emails of the shape `local@domain.tld` (a local part of one or more characters of
`[a-z0-9._%+-]`, a domain of one or more characters of `[a-z0-9.-]`, a TLD of 2 to 16
lowercase letters) and `ErrEmailInvalid` for every other; an accepted email contains
exactly one `@`; and an email that ends in a dot and fewer than 2 or more than 16
lowercase letters, a one-letter or a 17-letter TLD among them, is rejected. -/
theorem emailFormat_accepts_shape {τ : Type} (udb : UserDB τ) (hmac : hash.HMAC)
    (pepper : String) (user : User) (t : τ) :
    ((newUserValidator udb hmac pepper).emailFormat user t = ((user, none), t) ↔
      HasEmailShape user.Email.data) ∧
    ((newUserValidator udb hmac pepper).emailFormat user t
        = ((user, some ErrEmailInvalid), t) ↔ ¬ HasEmailShape user.Email.data) ∧
    ((newUserValidator udb hmac pepper).emailFormat user t = ((user, none), t) →
      user.Email.data.count '@' = 1) ∧
    (∀ pre tld : List Char, user.Email.data = pre ++ '.' :: tld →
      (∀ c ∈ tld, isLowerLetter c = true) → tld.length < 2 ∨ 16 < tld.length →
      (newUserValidator udb hmac pepper).emailFormat user t
        = ((user, some ErrEmailInvalid), t)) := by
  have hok : (newUserValidator udb hmac pepper).emailFormat user t = ((user, none), t) ↔
      HasEmailShape user.Email.data := by
    rw [← emailPattern_fullMatch_iff]
    by_cases hm : emailPattern.fullMatch user.Email.data = true <;>
      simp [userValidator.emailFormat, newUserValidator, hm]
  have hbad : (newUserValidator udb hmac pepper).emailFormat user t
      = ((user, some ErrEmailInvalid), t) ↔ ¬ HasEmailShape user.Email.data := by
    rw [← emailPattern_fullMatch_iff]
    by_cases hm : emailPattern.fullMatch user.Email.data = true <;>
      simp [userValidator.emailFormat, newUserValidator, hm]
  refine ⟨hok, hbad, fun h => count_at_of_shape _ (hok.mp h), ?_⟩
  intro pre tld hs hl hlen
  apply hbad.mpr
  intro hshape
  have := tld_length_of_shape _ pre tld hshape hs hl
  omega

theorem emailFormat_accepts_shape_witness :
    (newUserValidator memStore (hash.NewHMAC "secret-hmac-key") "secret-pepper").emailFormat
        { User.zero with Email := "ann.b+c@mail.example.com" } []
      = (({ User.zero with Email := "ann.b+c@mail.example.com" }, none), []) ∧
    "ann.b+c@mail.example.com".data.count '@' = 1 ∧
    (newUserValidator memStore (hash.NewHMAC "secret-hmac-key") "secret-pepper").emailFormat
        { User.zero with Email := "a@b.c" } []
      = (({ User.zero with Email := "a@b.c" }, some ErrEmailInvalid), []) ∧
    (newUserValidator memStore (hash.NewHMAC "secret-hmac-key") "secret-pepper").emailFormat
        { User.zero with Email := "a@b.abcdefghijklmnopq" } []
      = (({ User.zero with Email := "a@b.abcdefghijklmnopq" }, some ErrEmailInvalid), []) :=
  ⟨(emailFormat_accepts_shape memStore (hash.NewHMAC "secret-hmac-key") "secret-pepper"
      { User.zero with Email := "ann.b+c@mail.example.com" } []).1.mpr
      ⟨"ann.b+c".data, "mail.example".data, "com".data, by decide, by decide, by decide,
        by decide, by decide, by decide, by decide, by decide⟩,
    (emailFormat_accepts_shape memStore (hash.NewHMAC "secret-hmac-key") "secret-pepper"
      { User.zero with Email := "ann.b+c@mail.example.com" } []).2.2.1 (by decide),
    (emailFormat_accepts_shape memStore (hash.NewHMAC "secret-hmac-key") "secret-pepper"
      { User.zero with Email := "a@b.c" } []).2.2.2 "a@b".data "c".data (by decide)
      (by decide) (Or.inl (by decide)),
    (emailFormat_accepts_shape memStore (hash.NewHMAC "secret-hmac-key") "secret-pepper"
      { User.zero with Email := "a@b.abcdefghijklmnopq" } []).2.2.2 "a@b".data
      "abcdefghijklmnopq".data (by decide) (by decide) (Or.inr (by decide))⟩

/-- C22: email uniqueness is kept by the validation layer. Over a users table whose
primary key holds (distinct IDs, none of them 0), with or without the unique indexes of
the database, and in which no two users share an email, every sequence of `Create` and
`Update` calls of the validator, executed one after another, each with its own outcome
of the random source and of bcrypt, leaves a table in which no two users share an email;
a call that fails leaves the table as it was, so this holds for the sequences of
successful calls, and the ID given to `Create` need not be unset. -/
theorem writes_keep_emails_distinct (indexes : Bool) (hmac : hash.HMAC)
    (pepper : String) (calls : List (Packages × UserWrite)) (rows : List User)
    (hpk : PrimaryKeyOK rows) (hd : EmailsDistinct rows) :
    EmailsDistinct (tableAfter (tableValidator indexes hmac pepper) calls rows) ∧
      PrimaryKeyOK (tableAfter (tableValidator indexes hmac pepper) calls rows) := by
  induction calls generalizing rows with
  | nil => exact ⟨hd, hpk⟩
  | cons call calls ih =>
    obtain ⟨x, write⟩ := call
    cases write with
    | Create user =>
      obtain ⟨h1, h2⟩ := tableValidator_Create_inv indexes x hmac pepper user rows hpk hd
      exact ih _ h1 h2
    | Update user =>
      obtain ⟨h1, h2⟩ := tableValidator_Update_inv indexes x hmac pepper user rows hpk hd
      exact ih _ h1 h2

/-- Two signups that succeed, each with its own token, a signup and an update that fail
on a taken email, and an update of the first user, over the table with its unique
indexes. -/
theorem writes_keep_emails_distinct_witness :
    (tableAfter (tableValidator true (hash.NewHMAC "secret-hmac-key") "secret-pepper")
      [(demoPackages, UserWrite.Create demoUser),
        (demoPackagesNext, UserWrite.Create demoSecond),
        (demoPackagesNext, UserWrite.Create demoFiveChars),
        (demoPackages, UserWrite.Update { demoUpdate with ID := 2 }),
        (demoPackages, UserWrite.Update demoUpdate)] []).map
      (fun row => (row.ID, row.Email)) = [(1, "a@b.com"), (2, "eve@b.com")] ∧
    EmailsDistinct (tableAfter
      (tableValidator true (hash.NewHMAC "secret-hmac-key") "secret-pepper")
      [(demoPackages, UserWrite.Create demoUser),
        (demoPackagesNext, UserWrite.Create demoSecond),
        (demoPackagesNext, UserWrite.Create demoFiveChars),
        (demoPackages, UserWrite.Update { demoUpdate with ID := 2 }),
        (demoPackages, UserWrite.Update demoUpdate)] []) :=
  ⟨by decide,
    (writes_keep_emails_distinct true (hash.NewHMAC "secret-hmac-key") "secret-pepper"
      [(demoPackages, UserWrite.Create demoUser),
        (demoPackagesNext, UserWrite.Create demoSecond),
        (demoPackagesNext, UserWrite.Create demoFiveChars),
        (demoPackages, UserWrite.Update { demoUpdate with ID := 2 }),
        (demoPackages, UserWrite.Update demoUpdate)] []
      ⟨by decide, by decide⟩ (by unfold EmailsDistinct; decide)).1⟩

/-- `Logout` discards the error of `rand.RememberToken`. Where the random source returns
an error, the user that the token `demoToken` logs in has the same stored `RememberHash`
after `Logout` as before, the hash of `demoToken`, and the token still resolves to the
user through `ByRemember`. -/
theorem logout_without_random_keeps_token :
    (∃ user, (demoUsers demoPackagesNoRandom).us.UserDB.ByRemember demoToken demoRows
        = (Lookup.found user, demoRows) ∧
      (controllers.Users.Logout demoPackagesNoRandom (demoUsers demoPackagesNoRandom)
        user demoRows).2.2 = demoRows ∧
      (demoUsers demoPackagesNoRandom).us.UserDB.ByRemember demoToken
        (controllers.Users.Logout demoPackagesNoRandom (demoUsers demoPackagesNoRandom)
          user demoRows).2.2 = (Lookup.found user, demoRows)) ∧
    (∀ row ∈ demoRows, row.RememberHash
      = (hash.NewHMAC "secret-hmac-key").Hash demoPackagesNoRandom demoToken) :=
  ⟨⟨(demoValidator.Create demoPackages demoUser []).1.1.persisted, by decide, by decide,
    by decide⟩, by decide⟩

/-- `Logout` rotates the session token when neither of the two errors it discards
occurs. For a user that a token logs in (the validator's `ByRemember` finds the user in
the table), when `rand.RememberToken` returns a token and the `Update` that `Logout`
calls returns nil, every row of that user in the table after `Logout`, and there is one,
has the hash of the new token as `RememberHash`; so, that hash being another one than
the stored one, the token that authenticated the request does not resolve to the user
through `ByRemember` any more. -/
theorem logout_rotates_token (indexes : Bool) (x : Packages) (hmac : hash.HMAC)
    (pepper : String) (old tok : String) (user : User) (rows rows0 : List User)
    (hin : (tableValidator indexes hmac pepper).ByRemember x old rows0
      = (Lookup.found user, rows))
    (hrand : rand.RememberToken x = Except.ok tok)
    (hupd : ((tableValidator indexes hmac pepper).Update x
      { user with Remember := tok } rows).1.2 = none)
    (hfresh : hmac.Hash x tok ≠ user.RememberHash) :
    (∃ row ∈ (controllers.Users.Logout x
        { us := (tableValidator indexes hmac pepper).service x } user rows).2.2,
      row.ID = user.ID) ∧
    (∀ row ∈ (controllers.Users.Logout x
        { us := (tableValidator indexes hmac pepper).service x } user rows).2.2,
      row.ID = user.ID → row.RememberHash = hmac.Hash x tok) ∧
    (∀ (found : User) (rows2 : List User),
      (tableValidator indexes hmac pepper).ByRemember x old
        (controllers.Users.Logout x
          { us := (tableValidator indexes hmac pepper).service x } user rows).2.2
        = (Lookup.found found, rows2) → found.ID ≠ user.ID) := by
  have hlog : (controllers.Users.Logout x
      { us := (tableValidator indexes hmac pepper).service x } user rows).2.2
      = ((tableValidator indexes hmac pepper).Update x { user with Remember := tok } rows).2
      := by
    simp [controllers.Users.Logout, userValidator.service, userValidator.toUserDB, hrand]
  rw [hlog]
  have hrows0 : rows0 = rows := by
    have h := congrArg Prod.snd hin
    rw [userValidator.ByRemember_eq] at h
    simp only [tableValidator, newUserValidator] at h
    rw [table_ByRemember] at h
    split at h <;> exact h
  subst hrows0
  obtain ⟨r0, hr0, hr0id, _, hkey⟩ :=
    table_found_by_token indexes x hmac pepper old user _ _ hin
  rcases hU : (tableValidator indexes hmac pepper).Update x { user with Remember := tok }
    rows0 with ⟨⟨v, _ | e⟩, rows1⟩
  · have hne : ({ user with Remember := tok } : User).Remember ≠ "" :=
      randRememberToken_ne_empty x tok hrand
    obtain ⟨hex, hall⟩ := table_Update_rotates indexes x hmac pepper
      { user with Remember := tok } v rows0 rows1 hne ⟨r0, hr0, hr0id⟩ hU
    refine ⟨hex, hall, ?_⟩
    intro found rows2 hf hid
    obtain ⟨r1, hr1, hr1id, hr1h, hfk⟩ :=
      table_found_by_token indexes x hmac pepper old found _ _ hf
    have h1 := hall r1 hr1 (by rw [hr1id]; exact hid)
    apply hfresh
    simp only at h1
    rw [← h1, hr1h, hfk, hkey]
  · rw [hU] at hupd
    cases hupd

theorem logout_rotates_token_witness :
    (∃ row ∈ (controllers.Users.Logout demoPackagesNext (demoUsers demoPackagesNext)
        (demoValidator.Create demoPackages demoUser []).1.1.persisted demoRows).2.2,
      row.ID = 1) ∧
    (∀ row ∈ (controllers.Users.Logout demoPackagesNext (demoUsers demoPackagesNext)
        (demoValidator.Create demoPackages demoUser []).1.1.persisted demoRows).2.2,
      row.ID = 1 → row.RememberHash = (hash.NewHMAC "secret-hmac-key").Hash demoPackagesNext
        "AQYLEBUaHyQpLjM4PUJHTFFWW2Blam90eX6DiI2Sl5w=") ∧
    (∀ (found : User) (rows2 : List User),
      (tableValidator false (hash.NewHMAC "secret-hmac-key") "secret-pepper").ByRemember
        demoPackagesNext demoToken
        (controllers.Users.Logout demoPackagesNext (demoUsers demoPackagesNext)
          (demoValidator.Create demoPackages demoUser []).1.1.persisted demoRows).2.2
        = (Lookup.found found, rows2) → found.ID ≠ 1) :=
  logout_rotates_token false demoPackagesNext (hash.NewHMAC "secret-hmac-key")
    "secret-pepper" demoToken "AQYLEBUaHyQpLjM4PUJHTFFWW2Blam90eX6DiI2Sl5w="
    (demoValidator.Create demoPackages demoUser []).1.1.persisted demoRows demoRows
    (by decide) (by rfl) (by decide) (by decide)

/-- C25. The code where the second example of the claim fails: "ééééé" is a password of
five characters and ten bytes, the length check `passwordMinLength` counts bytes and
returns nil for it, and `Create` of a user with this password and an empty email goes on
to the email steps and returns `ErrEmailRequired`, not `ErrPasswordTooShort`. -/
theorem create_five_characters_empty_email {τ : Type} (uv : userValidator τ) (t : τ) :
    "ééééé".length = 5 ∧ "ééééé".utf8ByteSize = 10 ∧
    uv.passwordMinLength { User.zero with Password := "ééééé" } t
      = (({ User.zero with Password := "ééééé" }, none), t) ∧
    (demoValidator.Create demoPackages { User.zero with Password := "ééééé" } []).1.2
      = some ErrEmailRequired ∧
    ErrEmailRequired ≠ ErrPasswordTooShort := by
  refine ⟨by decide, by decide, ?_, by decide, by decide⟩
  have h : ¬ ("ééééé".utf8ByteSize < 8) := by decide
  simp [userValidator.passwordMinLength, User.zero, h]

/-- C28. The code where the claim fails: `Logout` does not look at the error of
`Update`. For the user that the token `demoToken` logs in, while the database refuses
the write, the random source returns a new token, `Logout` answers as always (the cookie
cleared, a redirect to "/"), the table is as it was, the stored `RememberHash` is still
the hash of `demoToken`, not that of the new token, and `demoToken` still resolves to
the user through `ByRemember`. -/
theorem logout_ignores_update_error :
    ∃ user tok,
      (demoUsersRefused demoPackagesNext).us.UserDB.ByRemember demoToken demoRows
        = (Lookup.found user, demoRows) ∧
      rand.RememberToken demoPackagesNext = Except.ok tok ∧
      (hash.NewHMAC "secret-hmac-key").Hash demoPackagesNext tok ≠ user.RememberHash ∧
      ((demoUsersRefused demoPackagesNext).us.UserDB.Update
        { user with Remember := tok } demoRows).1.2 = some (Err.other "write refused") ∧
      (controllers.Users.Logout demoPackagesNext (demoUsersRefused demoPackagesNext) user
        demoRows).1
        = { cookies := [{ Name := "remember_token", Value := "", HttpOnly := true }],
            redirect := some ("/", 302) } ∧
      (controllers.Users.Logout demoPackagesNext (demoUsersRefused demoPackagesNext) user
        demoRows).2.2 = demoRows ∧
      (∀ row ∈ demoRows, row.RememberHash
        = (hash.NewHMAC "secret-hmac-key").Hash demoPackagesNext demoToken) ∧
      (demoUsersRefused demoPackagesNext).us.UserDB.ByRemember demoToken
        (controllers.Users.Logout demoPackagesNext (demoUsersRefused demoPackagesNext) user
          demoRows).2.2 = (Lookup.found user, demoRows) :=
  ⟨(demoValidator.Create demoPackages demoUser []).1.1.persisted,
    "AQYLEBUaHyQpLjM4PUJHTFFWW2Blam90eX6DiI2Sl5w=", by decide, by rfl, by decide,
    by decide, by decide, by decide, by decide, by decide⟩

end models
